import Mathlib

/-!
Verification of the tree rank/unrank combinatorics module (`combinatorics.py`).

The Python source is shallowly embedded: Python arbitrary-precision integers
become `Int` (or `Nat` where the value is structurally a count), Python lists
become `List`, and generator loops become structural or fuel-based recursion
(the fuel variants are chosen so that every definition reduces in the kernel;
fuel is always provably sufficient on the inputs the theorems speak about).
Failure (a Python exception) is represented with `Except PyErr`.
-/

set_option maxRecDepth 20000

namespace Tsk

/-- Kinds of Python exceptions raised by the embedded code.  `valueError`
corresponds to an explicit `raise ValueError(...)`, `assertionError` to a
failing `assert` statement, and `indexError` to an out-of-bounds subscript
such as `labels[0]` on an empty list. -/
inductive PyErr where
  | valueError (msg : String)
  | assertionError
  | indexError
deriving DecidableEq, Repr

namespace Combination

/-- The running value `res` of the loop in Python `Combination.comb` after the
first `j` iterations of `for i in range(1, k + 1): res *= n - k + i; res //= i`
(with `k` already replaced by `min(k, n - k)`).  Python `//` is floor division,
which agrees with `Int.ediv` because the divisor `i` is positive. -/
def combAux (n k : Int) : Nat → Int
  | 0 => 1
  | j + 1 => Int.ediv (combAux n k j * (n - k + ((j : Int) + 1))) ((j : Int) + 1)

/-- Python `Combination.comb(n, k)`: the multiplicative-form binomial
coefficient.  After `k = min(k, n - k)`, the loop body runs for
`i in range(1, k + 1)`, i.e. `k.toNat` times (zero times when `k < 1`,
in which case the function returns `1`). -/
def comb (n k0 : Int) : Int :=
  combAux n (min k0 (n - k0)) (min k0 (n - k0)).toNat

/-- Python `Combination.comb_with_replacement(n, k) = comb(n + k - 1, k)`. -/
def comb_with_replacement (n k : Int) : Int :=
  comb (n + k - 1) k

/-- Python `Combination.from_range_rank(combination, n)`: the rank of a
combination of `k` integers from `[0, n)` in lexicographic order.  Valid
combinations are strictly increasing lists of naturals below `n`.  The Python
code recurses with `n - 1`; on the (invalid) inputs where Python would recurse
into negative `n` (and diverge) we return `0`.  The head decrement
`[x - 1 for x in combination]` is natural subtraction here, which agrees with
Python on all inputs whose entries stay nonnegative along the recursion. -/
def from_range_rank (c : List Nat) (n : Nat) : Int :=
  if c.length = 0 ∨ c.length = n then 0
  else
    match c, n with
    | _, 0 => 0
    | [], _ + 1 => 0
    | j :: rest, n + 1 =>
      if j = 0 then from_range_rank (rest.map (· - 1)) n
      else
        comb ((n : Int) + 1 - 1) ((rest.length : Int) + 1 - 1) +
          from_range_rank ((j :: rest).map (· - 1)) n

/-- Python `list.index(x)`: position of the first occurrence of `x`.
Python raises `ValueError` when `x` is absent; then this returns the length
of the list instead (the call sites in the module only look up members). -/
def pyIndex [DecidableEq α] : List α → α → Nat
  | [], _ => 0
  | y :: ys, x => if x = y then 0 else pyIndex ys x + 1

/-- Python `Combination.rank(combination, elements)`: maps the chosen values to
their indices in `elements` and ranks the index combination. -/
def rank [DecidableEq α] (combination elements : List α) : Int :=
  from_range_rank (combination.map (pyIndex elements)) elements.length

/-- Python `Combination.unrank(rank, elements, k)`.  On an empty `elements`
list with `k > 0` the Python recursion keeps decrementing `rank` (each step
`comb(-1, k-1) = 1`) and then `k`, always building `[]` from empty slices, so
the embedded function returns `[]` directly in that case. -/
def unrank (rank : Int) : List α → Nat → List α
  | _, 0 => []
  | [], _ + 1 => []
  | e :: rest, k + 1 =>
    let n_rest_combs := comb ((rest.length : Int) + 1 - 1) ((k : Int) + 1 - 1)
    if rank < n_rest_combs then e :: unrank rank rest k
    else unrank (rank - n_rest_combs) rest (k + 1)

/-- The sum `preceding` accumulated by the `for i in range(j)` loop of Python
`Combination.with_replacement_rank`. -/
def wrPreceding (n : Int) (k1 : Nat) (j : Nat) : Int :=
  ((List.range j).map (fun i : Nat => comb_with_replacement (n - (i : Int)) (k1 : Int))).sum

/-- Recursion core of Python `Combination.with_replacement_rank`, driven by a
fuel equal to the list length (the list shrinks by exactly one element per
recursive call, so this fuel is exact). -/
def wrrGo (n : Int) : Nat → List Nat → Int
  | _, [] => 0
  | _, [j] => j
  | 0, _ :: _ :: _ => 0
  | f + 1, j :: rest =>
    if j = 0 then wrrGo n f rest
    else wrPreceding n rest.length j + wrrGo (n - (j : Int)) f (rest.map (· - j))

/-- Python `Combination.with_replacement_rank(combination, n)`: rank of a
non-decreasing multiset of integers from `[0, n)`.  The shift
`[x - j for x in combination[1:]]` is natural subtraction here, which agrees
with Python on non-decreasing (i.e. valid) combinations. -/
def with_replacement_rank (combination : List Nat) (n : Int) : Int :=
  wrrGo n combination.length combination

/-- The `while rank >= preceding` search loop of Python
`Combination.with_replacement_unrank`: returns the final `(i, rank)`.  Each
pass decreases `rank` by `preceding ≥ 1`, so `rank.toNat + 1` fuel always
suffices; the fuel-exhausted branch is unreachable. -/
def wruLoop (n : Int) (k1 : Nat) : Nat → Int → Nat → Nat × Int
  | 0, rank, i => (i, rank)
  | f + 1, rank, i =>
    let preceding := comb_with_replacement (n - (i : Int)) (k1 : Int)
    if rank < preceding then (i, rank)
    else wruLoop n k1 f (rank - preceding) (i + 1)

/-- Python `Combination.with_replacement_unrank(rank, n, k)`. -/
def with_replacement_unrank (rank : Int) (n : Int) : Nat → List Nat
  | 0 => []
  | k + 1 =>
    let p := wruLoop n k (rank.toNat + 1) rank 0
    let i := p.1
    let rest := with_replacement_unrank p.2 (n - (i : Int)) k
    i :: rest.map (· + i)

end Combination

/-- Python helper `set_minus(arr, subset)`. -/
def set_minus [DecidableEq α] (arr subset : List α) : List α :=
  arr.filter (fun x => decide (x ∉ subset))

/-- Python helper `group_by(values, equal)`: groups consecutive values that
compare equal to the first element of the current group.  The fold state is
`(groups, curr_group)`. -/
def group_by (values : List α) (equal : α → α → Bool) : List (List α) :=
  let st := values.foldl
    (fun (st : List (List α) × List α) x =>
      match st.2 with
      | [] => (st.1, [x])
      | c0 :: _ => if equal x c0 then (st.1, st.2 ++ [x]) else (st.1 ++ [st.2], [x]))
    ([], [])
  if st.2.isEmpty then st.1 else st.1 ++ [st.2]

/-- Python `group_partition(part) = group_by(part, lambda x, y: x == y)`. -/
def group_partition (part : List Nat) : List (List Nat) :=
  group_by part (fun x y => decide (x = y))

/-- Fuel-driven core of `ruleAscInner`; the loop decreases `y` by `x ≥ 1`
each pass, so with fuel `y` the fuel-exhausted branch can only be reached
with `y = 0`, where it coincides with the loop-exit branch. -/
def ruleAscInnerGo (u : Nat) : Nat → Nat → List Nat
  | 0, y => [u + 1 + y]
  | f + 1, y => if u + 1 ≤ y then (u + 1) :: ruleAscInnerGo u f (y - (u + 1)) else [u + 1 + y]

/-- The inner `while x <= y` loop of Python `rule_asc`, together with the final
write `a[k] = x + y`: it produces the block of array entries written at
positions `k, k+1, ...`, namely copies of `x = u + 1` while `x ≤ y` (with `y`
shrinking by `x` each time) followed by the single entry `x + y`. -/
def ruleAscInner (u y : Nat) : List Nat := ruleAscInnerGo u y y

/-- One iteration of the outer `while k != 0` loop of Python `rule_asc`,
acting on the live prefix `a[0 : k + 1]` of the working array (entries above
`k` are dead: they are always rewritten before being read).  Requires the
state to have at least two live entries (`k ≥ 1`).  The last live entry `a[k]`
is `v`; Python computes `y = a[k] - 1` with `v ≥ 1` in every reachable state,
so natural subtraction agrees. -/
def ruleAscStep (p : List Nat) : List Nat :=
  let u := p.getD (p.length - 2) 0
  let v := p.getD (p.length - 1) 0
  p.take (p.length - 2) ++ ruleAscInner u (v - 1)

/-- The outer loop of Python `rule_asc`, as a fuel-driven run from a live
state `p`.  Returns `none` if the fuel runs out (never happens for the fuel
used by `partition`), and otherwise the list of yielded partitions. -/
def ruleAscRun : Nat → List Nat → Option (List (List Nat))
  | 0, _ => none
  | f + 1, p =>
    if p.length ≤ 1 then some []
    else
      let p1 := ruleAscStep p
      if p1.length ≤ 1 then some []
      else
        match ruleAscRun f p1 with
        | none => none
        | some rest => some (p1 :: rest)

/-- Fuel bound for `ruleAscRun`: the run from `[0, n]` performs at most one
step per ascending partition of `n` plus one, and there are far fewer than
`(n + 1) ^ n + 2` of those. -/
def ruleAscFuel (n : Nat) : Nat := (n + 1) ^ n + 2

/-- Python `partition(n)` (via `rule_asc(n)`): the list of ascending integer
partitions of `n`, excluding `[n]`, in generation order.  The initial array
state is `a = [0, n]` with `k = 1`. -/
def partition (n : Nat) : List (List Nat) :=
  if 0 < n then (ruleAscRun (ruleAscFuel n) [0, n]).getD [] else []

/-- Fuel-driven core of Python `num_shapes(n)` (the `lru_cache` is just
memoisation and does not affect the value).  `num_tree_pairings` is inlined
here (see `num_tree_pairings` below and the lemma `num_shapes_eq_sum`);
every part of a partition of `n` is below `n`, so fuel `n` suffices for all
recursive calls. -/
def numShapesGo : Nat → Nat → Int
  | 0, _ => 0
  | f + 1, n =>
    if n ≤ 1 then (n : Int)
    else
      ((partition n).map (fun part =>
        ((group_partition part).map (fun g =>
          Combination.comb_with_replacement (numShapesGo f (g.headD 0)) (g.length : Int))).prod)).sum

/-- Python `num_shapes(n)`: the number of unlabelled tree shapes on `n`
leaves. -/
def num_shapes (n : Nat) : Int := numShapesGo (n + 1) n

/-- Python `num_tree_pairings(part)`: the number of shapes assembled from the
leaf partition `part`; for each group of equal parts `k` it multiplies in
`comb_with_replacement(num_shapes(k), len(g))`. -/
def num_tree_pairings (part : List Nat) : Int :=
  ((group_partition part).map (fun g =>
    Combination.comb_with_replacement (num_shapes (g.headD 0)) (g.length : Int))).prod

/-! ### The `RankTree` class

A Python `RankTree` is either a leaf (constructed with `children=None`; it
carries an optional label) or an internal node with a list of children.  The
derived attributes `num_leaves` and `labels` are recomputed from the
structure; the cached `_shape_rank` is stored only for internal nodes, since a
leaf's shape rank is `0` whether cached (as in `shape_unrank`) or computed by
`compute_shape_rank` (the partition list of `1` is empty and a leaf has no
child groups).  The cached `_label_rank` is `none` when Python's is `None`. -/

inductive RT where
  | leaf (label : Option Nat) (label_rankF : Option Int)
  | node (children : List RT) (shape_rankF : Int) (label_rankF : Option Int)

/-- Projection of the result of a fallible call onto its error, if any. -/
def errOf : Except PyErr α → Option PyErr
  | Except.error e => some e
  | Except.ok _ => none

/-- Projection of the result of a fallible call onto its value, if any. -/
def okOf : Except PyErr α → Option α
  | Except.error _ => none
  | Except.ok a => some a

/-- Evaluation of a Python list comprehension of fallible calls: results in
order, or the first exception raised. -/
def exceptMapList (f : α → Except PyErr β) : List α → Except PyErr (List β)
  | [] => Except.ok []
  | a :: as =>
    match f a, exceptMapList f as with
    | Except.error e, _ => Except.error e
    | Except.ok _, Except.error e => Except.error e
    | Except.ok b, Except.ok bs => Except.ok (b :: bs)

/-- The comparison `heapq.merge` makes between two label entries (via the
tuples it pushes on its heap): tuple comparison tests `==` before `<`, so two
`None`s compare as equal (hence "not after") without ever evaluating
`None < None`.  A mixed `None`/int comparison raises `TypeError` in Python;
the call sites only ever merge homogeneous label lists, so the mixed cases
here are unreachable junk values. -/
def optLe : Option Nat → Option Nat → Bool
  | none, _ => true
  | some a, some b => a ≤ b
  | some _, none => false

/-- Two-way sorted merge (fuel-driven so that it reduces in the kernel; the
fuel `|xs| + |ys|` is exact). -/
def mergeTwoGo : Nat → List (Option Nat) → List (Option Nat) → List (Option Nat)
  | 0, xs, ys => xs ++ ys
  | f + 1, xs, ys =>
    match xs, ys with
    | [], ys => ys
    | x :: xs2, [] => x :: xs2
    | x :: xs2, y :: ys2 =>
      if optLe x y then x :: mergeTwoGo f xs2 (y :: ys2)
      else y :: mergeTwoGo f (x :: xs2) ys2

def mergeTwo (xs ys : List (Option Nat)) : List (Option Nat) :=
  mergeTwoGo (xs.length + ys.length) xs ys

/-- Python `heapq.merge(*iterables)` on sorted inputs: the sorted merge of all
of them, here as an iterated two-way merge (which produces the same sorted
list on the sorted inputs the module feeds it). -/
def mergeAll : List (List (Option Nat)) → List (Option Nat)
  | [] => []
  | ls :: rest => mergeTwo ls (mergeAll rest)

namespace RankTree

/-- `self.children` (a leaf was constructed with `children=None`, giving
`self.children = []`). -/
def children : RT → List RT
  | RT.leaf _ _ => []
  | RT.node cs _ _ => cs

/-- The cached `self._shape_rank` (always `0` on a leaf, see `RT`). -/
def shape_rank : RT → Int
  | RT.leaf _ _ => 0
  | RT.node _ s _ => s

/-- The cached `self._label_rank` field. -/
def label_rankF : RT → Option Int
  | RT.leaf _ r => r
  | RT.node _ _ r => r

/-- Python `self.is_leaf()`, i.e. `len(self.children) == 0`. -/
def is_leaf (t : RT) : Bool := (children t).isEmpty

mutual
/-- `self.num_leaves`: 1 for a leaf, else the sum over the children. -/
def num_leaves : RT → Nat
  | RT.leaf _ _ => 1
  | RT.node cs _ _ => num_leavesL cs

def num_leavesL : List RT → Nat
  | [] => 0
  | c :: cs => num_leaves c + num_leavesL cs
end

mutual
/-- `self.labels`: the singleton `[label]` on a leaf, else the sorted merge
of the children's label lists (`heapq.merge`). -/
def labels : RT → List (Option Nat)
  | RT.leaf l _ => [l]
  | RT.node cs _ _ => mergeAll (labelsL cs)

def labelsL : List RT → List (List (Option Nat))
  | [] => []
  | c :: cs => labels c :: labelsL cs
end

mutual
/-- Height of the tree; used only as structural fuel for the functions whose
Python recursion passes through `group_by` (which Lean cannot see is
size-decreasing). -/
def rtDepth : RT → Nat
  | RT.leaf _ _ => 0
  | RT.node cs _ _ => rtDepthL cs + 1

def rtDepthL : List RT → Nat
  | [] => 0
  | c :: cs => max (rtDepth c) (rtDepthL cs)
end

/-- Python `self.min_label()`, i.e. `self.labels[0]` (`labels` is sorted, so
this is the least label).  On the degenerate `RankTree(children=[])`, Python
would raise `IndexError`; that tree never arises in the module, and we return
`none` there. -/
def min_label (t : RT) : Option Nat := (labels t).headD none

/-- Python `self.leaf_partition()`. -/
def leaf_partition (t : RT) : List Nat := (children t).map num_leaves

/-- Python `RankTree.canonical_order(c)`: the sibling sort key
`(c.num_leaves, c._shape_rank, c.min_label())`. -/
def canonical_order (c : RT) : Nat × Int × Option Nat :=
  (num_leaves c, shape_rank c, min_label c)

/-- Python tuple `>` on two canonical-order keys: the first coordinates that
differ (tested with `==`) decide, and if all coordinates are equal the result
is `False`.  Comparing a `None` min-label with an int one would raise
`TypeError` in Python (mixed keys never meet in the module); here it is junk
`false`. -/
def ordGt (a b : Nat × Int × Option Nat) : Bool :=
  if a.1 ≠ b.1 then b.1 < a.1
  else if a.2.1 ≠ b.2.1 then b.2.1 < a.2.1
  else
    match a.2.2, b.2.2 with
    | some x, some y => y < x
    | _, _ => false

/-- The adjacent-pairs check of Python `is_canonical`:
`all(not (key(c1) > key(c2)))` over consecutive siblings. -/
def adjOrdered : List (Nat × Int × Option Nat) → Bool
  | [] => true
  | [_] => true
  | a :: b :: rest => !ordGt a b && adjOrdered (b :: rest)

mutual
/-- Python `self.is_canonical()`: every internal node lists its children in
non-decreasing `canonical_order`, recursively. -/
def is_canonical : RT → Bool
  | RT.leaf _ _ => true
  | RT.node cs _ _ => adjOrdered (cs.map canonical_order) && is_canonicalL cs

def is_canonicalL : List RT → Bool
  | [] => true
  | c :: cs => is_canonical c && is_canonicalL cs
end

mutual
/-- Python `self.shape_equal(other)`.  The `RankTree(children=[])` degenerate
(for which Python's `is_leaf` also answers true) is folded into the leaf
cases. -/
def shape_equal : RT → RT → Bool
  | RT.leaf _ _, RT.leaf _ _ => true
  | RT.leaf _ _, RT.node cs _ _ => cs.isEmpty
  | RT.node cs _ _, RT.leaf _ _ => cs.isEmpty
  | RT.node cs1 _ _, RT.node cs2 _ _ => shape_equalL cs1 cs2

def shape_equalL : List RT → List RT → Bool
  | [], [] => true
  | [], _ :: _ => false
  | _ :: _, [] => false
  | c1 :: cs1, c2 :: cs2 => shape_equal c1 c2 && shape_equalL cs1 cs2
end

/-- Python `self.group_children_by_num_leaves()`. -/
def group_children_by_num_leaves (t : RT) : List (List RT) :=
  group_by (children t) (fun c1 c2 => num_leaves c1 == num_leaves c2)

/-- Python `self.group_children_by_shape()`: consecutive children grouped by
equality of `(num_leaves, _shape_rank)`. -/
def group_children_by_shape (t : RT) : List (List RT) :=
  group_by (children t)
    (fun c1 c2 => num_leaves c1 == num_leaves c2 && shape_rank c1 == shape_rank c2)

end RankTree

/-- The default head value used to read `g[0]` of a child group (all groups
produced by `group_by` are nonempty, so the default is never consulted on the
module's own call paths). -/
def rtHead (g : List RT) : RT := g.headD (RT.leaf none none)

/-- The `for prev_part in partition(n): if prev_part == part: break` prefix
sum of Python `compute_shape_rank`: total of `num_tree_pairings` over the
partitions strictly before the first occurrence of `part` (over the whole
list when `part` never occurs, exactly as the Python loop falls through). -/
def priorPairings (part : List Nat) : List (List Nat) → Int
  | [] => 0
  | p :: ps => if p = part then 0 else num_tree_pairings p + priorPairings part ps

/-- The second loop of Python `compute_shape_rank`, over the groups of
children with equally many leaves; `partRest` is the slice
`part[next_child_idx:]` of the leaf partition.  Child shape ranks are read
from the cached `_shape_rank` fields (nonnegative on every well-formed tree;
`toNat` converts them for `with_replacement_rank`, whose embedding takes
naturals). -/
def shapeGroupsRank : List Nat → List (List RT) → Int
  | _, [] => 0
  | partRest, g :: gs =>
    let k := RankTree.num_leaves (rtHead g)
    let child_ranks := g.map (fun c => (RankTree.shape_rank c).toNat)
    let g_rank := Combination.with_replacement_rank child_ranks (num_shapes k)
    let rest_part := partRest.drop g.length
    g_rank * num_tree_pairings rest_part + shapeGroupsRank rest_part gs

namespace RankTree

/-- Python `self.compute_shape_rank()`. -/
def compute_shape_rank (t : RT) : Int :=
  priorPairings (leaf_partition t) (partition (num_leaves t)) +
    shapeGroupsRank (leaf_partition t) (group_children_by_num_leaves t)

end RankTree

/-- The factor `Combination.comb(n - 1, k - 1)` product of Python
`num_assignments_in_group`, over `n in range(k * len(g), 0, -k)` (that is,
`n = k * m` for `m = len(g), ..., 1`). -/
def naigProd (k : Nat) : Nat → Int
  | 0 => 1
  | m + 1 => naigProd k m * Combination.comb ((k : Int) * ((m : Int) + 1) - 1) ((k : Int) - 1)

/-- Python `num_assignments_in_group(g)`. -/
def num_assignments_in_group (g : List RT) : Int :=
  if g.length = 0 then 1 else naigProd (RankTree.num_leaves (rtHead g)) g.length

/-- The total number of leaves covered by a list of groups,
`sum(len(g) * g[0].num_leaves for g in groups)`. -/
def groupsLeaves (groups : List (List RT)) : Nat :=
  (groups.map (fun g => g.length * RankTree.num_leaves (rtHead g))).sum

/-- The loop of Python `num_list_of_group_labellings`, parametrised by the
function computing `num_labellings` of a tree (the recursion through
`group_by` is tied with fuel in `num_labellingsGo`): `remaining` is the
running `remaining_leaves`. -/
def nlglF (numLab : RT → Int) : Int → List (List RT) → Int
  | _, [] => 1
  | remaining, g :: gs =>
    let k := RankTree.num_leaves (rtHead g)
    let x := g.length
    Combination.comb remaining ((x : Int) * (k : Int)) *
        (num_assignments_in_group g * numLab (rtHead g) ^ x) *
      nlglF numLab (remaining - (x : Int) * (k : Int)) gs

namespace RankTree

/-- Fuel-driven Python `self.num_labellings()`: `1` on a leaf, otherwise
`num_list_of_group_labellings(self.group_children_by_shape())` with the
recursion on the group heads (direct children) tied by the fuel. -/
def num_labellingsGo : Nat → RT → Int
  | 0, _ => 1
  | fuel + 1, t =>
    if is_leaf t then 1
    else
      nlglF (fun c => num_labellingsGo fuel c)
        ((groupsLeaves (group_children_by_shape t) : Int)) (group_children_by_shape t)

/-- Python `self.num_labellings()`; the fuel `rtDepth t + 1` always covers the
recursion, which descends one tree level per call. -/
def num_labellings (t : RT) : Int := num_labellingsGo (rtDepth t + 1) t

end RankTree

/-- Python `num_group_labellings(g)`. -/
def num_group_labellings (g : List RT) : Int :=
  num_assignments_in_group g * RankTree.num_labellings (rtHead g) ^ g.length

/-- Python `num_list_of_group_labellings(groups)`. -/
def num_list_of_group_labellings (groups : List (List RT)) : Int :=
  nlglF RankTree.num_labellings ((groupsLeaves groups : Int)) groups

/-- The inner `num_rest_combs` product of Python `group_rank`:
`prod(comb(remaining - j*k - 1, k - 1) for j in range(c))`. -/
def restCombsProd (k : Nat) (remaining : Int) : Nat → Int
  | 0 => 1
  | j + 1 =>
    restCombsProd k remaining j *
      Combination.comb (remaining - (j : Int) * (k : Int) - 1) ((k : Int) - 1)

/-- The `for i, t in enumerate(g)` loop of Python `group_rank`; `glen` is
`len(g)`, `y = g[0].num_labellings()`, and the member `_label_rank`s have been
set by `add_label_ranks` before this runs (the `getD 0` default is never
consulted there). -/
def grLoop (k glen : Nat) (y : Int) : List (Option Nat) → List RT → Nat → Int
  | _, [], _ => 0
  | all_labels, t :: ts, i =>
    let u_labels := RankTree.labels t
    let curr_trees := glen - i
    let comb_rank := Combination.rank u_labels all_labels
    let remaining : Int := (glen : Int) * (k : Int) - ((i : Int) + 1) * (k : Int)
    let num_rest_combs := restCombsProd k remaining (curr_trees - 1)
    comb_rank * num_rest_combs * y ^ curr_trees +
        (RankTree.label_rankF t).getD 0 * num_rest_combs * y ^ (curr_trees - 1) +
      grLoop k glen y (set_minus all_labels u_labels) ts (i + 1)

/-- Python `group_rank(g)`. -/
def group_rank (g : List RT) : Int :=
  grLoop (RankTree.num_leaves (rtHead g)) g.length (RankTree.num_labellings (rtHead g))
    (mergeAll (g.map RankTree.labels)) g 0

/-- The `for i, g in enumerate(child_groups)` loop of Python
`add_label_ranks`, accumulating the label rank `total`; `all_labels` shrinks
by `set_minus` as in the source. -/
def albLoop : List (Option Nat) → List (List RT) → Int
  | _, [] => 0
  | all_labels, g :: gs =>
    let g_labels := mergeAll (g.map RankTree.labels)
    let num_rest_labellings := num_list_of_group_labellings gs
    let comb_rank := Combination.rank g_labels all_labels
    let num_g_labellings := num_group_labellings g
    comb_rank * num_g_labellings * num_rest_labellings + group_rank g * num_rest_labellings +
      albLoop (set_minus all_labels g_labels) gs

namespace RankTree

/-- Fuel-driven Python `self.add_label_ranks()`: returns the tree with every
`_label_rank` field filled in (the Python method mutates in place). -/
def add_label_ranksGo : Nat → RT → RT
  | 0, t => t
  | fuel + 1, t =>
    match t with
    | RT.leaf l _ => RT.leaf l (some 0)
    | RT.node cs sr _ =>
      let cs2 := cs.map (fun c => add_label_ranksGo fuel c)
      RT.node cs2 sr
        (some (albLoop (mergeAll (labelsL cs2)) (group_children_by_shape (RT.node cs2 sr none))))

/-- Python `self.add_label_ranks()`. -/
def add_label_ranks (t : RT) : RT := add_label_ranksGo (rtDepth t + 1) t

/-- Python `self.label_rank()`: the cached value, computed on demand by
`add_label_ranks` when still `None`. -/
def label_rank (t : RT) : Int :=
  match label_rankF t with
  | some r => r
  | none => (label_rankF (add_label_ranks t)).getD 0

end RankTree

/-- Python `group_label_ranks(rank, child_group, labels)`.  `labels[0]` on an
empty label list raises `IndexError`.  Python `//` and `%` on ints are
`Int.ediv`/`Int.emod`; the divisors are positive whenever the input rank is in
range (they are products of positive counts), and a zero divisor (Python
`ZeroDivisionError`) does not occur on the module's call paths. -/
def group_label_ranks : Int → List RT → List Nat → Except PyErr (List (List Nat) × List Int)
  | _, [], _ => Except.ok ([], [])
  | rank, t :: ts, lbls =>
    let k := RankTree.num_leaves t
    let num_t_labellings := RankTree.num_labellings t
    let num_rest_assignments := num_assignments_in_group ts
    let num_rest_labellings := num_rest_assignments * num_t_labellings ^ ts.length
    let num_labellings_per_label_comb := num_t_labellings * num_rest_labellings
    let comb_rank := rank / num_labellings_per_label_comb
    let rank_given_comb := rank % num_labellings_per_label_comb
    let t_rank := rank_given_comb / num_rest_labellings
    let rank2 := rank % num_rest_labellings
    match lbls with
    | [] => Except.error PyErr.indexError
    | l0 :: lrest =>
      let t_labels := l0 :: Combination.unrank comb_rank lrest (k - 1)
      match group_label_ranks rank2 ts (set_minus (l0 :: lrest) t_labels) with
      | Except.error e => Except.error e
      | Except.ok (cls, crs) => Except.ok (t_labels :: cls, t_rank :: crs)

/-- Python `children_label_ranks(child_groups, rank, labels)`. -/
def children_label_ranks :
    List (List RT) → Int → List Nat → Except PyErr (List (List Nat) × List Int)
  | [], _, _ => Except.ok ([], [])
  | g :: gs, rank, lbls =>
    let k := RankTree.num_leaves (rtHead g)
    let g_num_leaves := k * g.length
    let num_g_labellings := num_group_labellings g
    let num_rest_labellings := num_list_of_group_labellings gs
    let num_labellings_per_label_comb := num_g_labellings * num_rest_labellings
    let comb_rank := rank / num_labellings_per_label_comb
    let rank_given_label_comb := rank % num_labellings_per_label_comb
    let g_rank := rank_given_label_comb / num_rest_labellings
    let g_labels := Combination.unrank comb_rank lbls g_num_leaves
    match group_label_ranks g_rank g g_labels with
    | Except.error e => Except.error e
    | Except.ok (gcl, gcr) =>
      match children_label_ranks gs (rank % num_rest_labellings) (set_minus lbls g_labels) with
      | Except.error e => Except.error e
      | Except.ok (cls, crs) => Except.ok (gcl ++ cls, gcr ++ crs)

namespace RankTree

/-- Fuel-driven Python `self.label_unrank(label_rank, labels)`; the leaf case
asserts `label_rank == 0` and `len(labels) == 1`. -/
def label_unrankGo : Nat → RT → Int → List Nat → Except PyErr RT
  | 0, _, _, _ => Except.error PyErr.assertionError
  | fuel + 1, t, lrank, lbls =>
    if is_leaf t then
      if lrank = 0 then
        if lbls.length = 1 then Except.ok (RT.leaf (some (lbls.headD 0)) (some lrank))
        else Except.error PyErr.assertionError
      else Except.error PyErr.assertionError
    else
      match children_label_ranks (group_children_by_shape t) lrank lbls with
      | Except.error e => Except.error e
      | Except.ok (child_labels, child_label_ranks) =>
        match
          exceptMapList (fun trip => label_unrankGo fuel trip.1 trip.2.1 trip.2.2)
            ((children t).zip (child_label_ranks.zip child_labels)) with
        | Except.error e => Except.error e
        | Except.ok cs2 => Except.ok (RT.node cs2 (shape_rank t) (some lrank))

/-- Python `self.label_unrank(label_rank)` with the default
`labels = list(range(self.num_leaves))`. -/
def label_unrank (t : RT) (lrank : Int) : Except PyErr RT :=
  label_unrankGo (rtDepth t + 1) t lrank (List.range (num_leaves t))

end RankTree

/-- The `for prev_part in partition(n)` search of Python
`children_shape_ranks`: the first partition whose pairing count exceeds the
remaining rank, together with that remaining rank (`rank - num_prior_trees`);
`none` when the loop falls through (then Python's `assert part is not None`
fires). -/
def csrFindPart (rank : Int) : List (List Nat) → Option (List Nat × Int)
  | [] => none
  | p :: ps =>
    if rank < num_tree_pairings p then some (p, rank)
    else csrFindPart (rank - num_tree_pairings p) ps

/-- The `for g in grouped_part` loop of Python `children_shape_ranks`;
`partRest` is the slice `part[next_child:]`. -/
def csrGroups : Int → List Nat → List (List Nat) → List Nat
  | _, _, [] => []
  | rank, partRest, g :: gs =>
    let k := g.headD 0
    let rest_children := partRest.drop g.length
    let rest_num_pairings := num_tree_pairings rest_children
    let shapes_comb_rank := rank / rest_num_pairings
    let g_shape_ranks :=
      Combination.with_replacement_unrank shapes_comb_rank (num_shapes k) g.length
    g_shape_ranks ++ csrGroups (rank % rest_num_pairings) rest_children gs

/-- Python `children_shape_ranks(rank, n)`; the two leading `assert`
statements and the `assert part is not None` after the search loop become
`assertionError` results. -/
def children_shape_ranks (rank : Int) (n : Nat) : Except PyErr (List Nat × List Nat) :=
  if n ≤ 1 then Except.error PyErr.assertionError
  else if ¬ (0 ≤ rank ∧ rank < num_shapes n) then Except.error PyErr.assertionError
  else
    match csrFindPart rank (partition n) with
    | none => Except.error PyErr.assertionError
    | some (part, rank2) => Except.ok (part, csrGroups rank2 part (group_partition part))

namespace RankTree

/-- Fuel-driven Python `RankTree.shape_unrank(shape_rank, n)`; the `n == 1`
case asserts `shape_rank == 0` and returns a leaf with the rank cached. -/
def shape_unrankGo : Nat → Int → Nat → Except PyErr RT
  | 0, _, _ => Except.error PyErr.assertionError
  | fuel + 1, srank, n =>
    if n = 1 then
      if srank = 0 then Except.ok (RT.leaf none none)
      else Except.error PyErr.assertionError
    else
      match children_shape_ranks srank n with
      | Except.error e => Except.error e
      | Except.ok (part, child_shape_ranks) =>
        match
          exceptMapList (fun rk => shape_unrankGo fuel ((rk.1 : Int)) rk.2)
            (child_shape_ranks.zip part) with
        | Except.error e => Except.error e
        | Except.ok cs2 => Except.ok (RT.node cs2 srank none)

/-- Python `RankTree.shape_unrank(shape_rank, n)`; recursive calls descend to
`k < n` leaves, so fuel `n + 1` always suffices. -/
def shape_unrank (srank : Int) (n : Nat) : Except PyErr RT :=
  shape_unrankGo (n + 1) srank n

/-- Python `RankTree.unrank(rank, num_leaves)`: unrank the shape, then label
it (with the default label set `range(num_leaves)`). -/
def unrank (rank : Int × Int) (num_leaves0 : Nat) : Except PyErr RT :=
  match shape_unrank rank.1 num_leaves0 with
  | Except.error e => Except.error e
  | Except.ok unlabelled => label_unrank unlabelled rank.2

end RankTree

/-! ### External (tskit) trees, modelled from the spec

Modelled from the spec: the `tskit.Tree` argument of `rank`/`from_tsk_tree`
lives outside this module.  The spec describes it as a forest: a list of root
subtrees in which each leaf carries a sample label.  `from_tsk_tree_node`
converts one external subtree bottom-up, sorting siblings by
`RankTree.canonical_order` (Python's stable `sorted`; an insertion sort by the
same key produces a list sorted by that key, which is all the module relies
on). -/

inductive ExtTree where
  | leaf (label : Nat)
  | node (children : List ExtTree)

/-- Insert into a list sorted by `canonical_order`. -/
def insertCanon (x : RT) : List RT → List RT
  | [] => [x]
  | y :: ys =>
    if RankTree.ordGt (RankTree.canonical_order x) (RankTree.canonical_order y) then
      y :: insertCanon x ys
    else x :: y :: ys

/-- `sorted(children, key=RankTree.canonical_order)`. -/
def sortCanon : List RT → List RT
  | [] => []
  | x :: xs => insertCanon x (sortCanon xs)

/-- The Python constructor call `RankTree(children=children)`: the shape rank
is computed by `compute_shape_rank` (which only reads the children), the label
rank is left `None`. -/
def mkNode (cs : List RT) : RT :=
  RT.node cs (RankTree.compute_shape_rank (RT.node cs 0 none)) none

mutual
/-- Python `RankTree.from_tsk_tree_node(tree, u)`, on the spec-modelled
external tree. -/
def from_tsk_tree_node : ExtTree → RT
  | ExtTree.leaf u => RT.leaf (some u) none
  | ExtTree.node cs => mkNode (sortCanon (fromTskNodeL cs))

def fromTskNodeL : List ExtTree → List RT
  | [] => []
  | c :: cs => from_tsk_tree_node c :: fromTskNodeL cs
end

/-- Python `RankTree.from_tsk_tree(tree)`: raises
`ValueError("Can't rank trees with multiple roots")` whenever
`len(tree.roots) != 1`, otherwise converts the single root and fills in the
label ranks. -/
def from_tsk_tree (roots : List ExtTree) : Except PyErr RT :=
  if roots.length ≠ 1 then
    Except.error (PyErr.valueError "Can't rank trees with multiple roots")
  else
    Except.ok (RankTree.add_label_ranks (from_tsk_tree_node (roots.headD (ExtTree.leaf 0))))

/-- Module-level Python `rank(tree) = RankTree.from_tsk_tree(tree).rank()`,
returning the pair `(shape_rank, label_rank)`. -/
def rank (roots : List ExtTree) : Except PyErr (Int × Int) :=
  match from_tsk_tree roots with
  | Except.error e => Except.error e
  | Except.ok t => Except.ok (RankTree.shape_rank t, RankTree.label_rank t)

mutual
/-- The left-to-right list of leaf labels of a tree (the order in which the
leaves appear in the representation); this is the reading used to state that
`shape_unrank` labels leaves `0..n-1` "in increasing order from left to
right". -/
def leafLabelsLR : RT → List (Option Nat)
  | RT.leaf l _ => [l]
  | RT.node cs _ _ => leafLabelsLRL cs

/-- Left-to-right leaf labels of a list of sibling subtrees. -/
def leafLabelsLRL : List RT → List (Option Nat)
  | [] => []
  | c :: cs => leafLabelsLR c ++ leafLabelsLRL cs
end

mutual
/-- The unlabelled skeleton of a tree: labels and cached label ranks erased,
structure and cached shape ranks kept.  `RankTree.shape_unrank` of a
well-formed tree's rank reproduces exactly this skeleton. -/
def stripShape : RT → RT
  | RT.leaf _ _ => RT.leaf none none
  | RT.node cs sr _ => RT.node (stripShapeL cs) sr none

def stripShapeL : List RT → List RT
  | [] => []
  | c :: cs => stripShape c :: stripShapeL cs
end

mutual
/-- Verification-side well-formedness of a canonical `RankTree` at the shape
level, the precondition under which the spec speaks of "canonical trees":
every internal node has at least two children (the enumeration never builds
unary nodes), lists them in non-decreasing `canonical_order`, and caches
exactly the shape rank that `compute_shape_rank` recomputes. -/
def wfShapeB : RT → Bool
  | RT.leaf _ _ => true
  | RT.node cs sr lrf =>
      decide (2 ≤ cs.length) &&
        (sr == RankTree.compute_shape_rank (RT.node cs sr lrf)) &&
        RankTree.adjOrdered (cs.map RankTree.canonical_order) && wfShapeBL cs

def wfShapeBL : List RT → Bool
  | [] => true
  | c :: cs => wfShapeB c && wfShapeBL cs
end

mutual
/-- Structural invariant of `RankTree.shape_unrank` outputs: internal nodes
have at least two children in non-decreasing `canonical_order`, leaves are
unlabelled, and no `_label_rank` is cached anywhere. -/
def shapeOutB : RT → Bool
  | RT.leaf l lr => l == none && lr == none
  | RT.node cs _ lr =>
      decide (2 ≤ cs.length) && lr == none &&
        RankTree.adjOrdered (cs.map RankTree.canonical_order) && shapeOutBL cs

def shapeOutBL : List RT → Bool
  | [] => true
  | c :: cs => shapeOutB c && shapeOutBL cs
end

/-- The per-tree label chunks that `label_unrank` hands out at label rank 0:
each subtree in turn takes the prefix of the remaining labels of its leaf
count (verification-side description of that assignment). -/
def labelBlocks : List RT → List Nat → List (List Nat)
  | [], _ => []
  | c :: cs, lbls =>
    lbls.take (RankTree.num_leaves c) :: labelBlocks cs (lbls.drop (RankTree.num_leaves c))

/-! ### Values of `Combination.comb` -/

namespace Combination

theorem ediv_mul_cancel (a b : Int) (hb : b ≠ 0) : Int.ediv (a * b) b = a := by
  have h : a * b / b = a := Int.mul_ediv_cancel a hb
  exact h

theorem combAux_spec (N K : Int) (hK0 : 0 ≤ K) (hKN : K ≤ N) :
    ∀ j, j ≤ K.toNat → combAux N K j = ((((N - K).toNat + j).choose j : Nat) : Int) := by
  intro j
  induction j with
  | zero => simp [combAux]
  | succ j ih =>
    intro hj
    have hj' : j ≤ K.toNat := Nat.le_of_succ_le hj
    rw [combAux, ih hj']
    have harg : N - K + ((j : Int) + 1) = (((N - K).toNat + j + 1 : Nat) : Int) := by
      push_cast
      omega
    rw [harg]
    have hmul : (((N - K).toNat + j).choose j) * ((N - K).toNat + j + 1) =
        (((N - K).toNat + j + 1).choose (j + 1)) * (j + 1) := by
      simpa [Nat.succ_eq_add_one, Nat.mul_comm] using
        Nat.succ_mul_choose_eq ((N - K).toNat + j) j
    have hcast : ((((N - K).toNat + j).choose j : Nat) : Int) * (((N - K).toNat + j + 1 : Nat) : Int) =
        ((((N - K).toNat + j + 1).choose (j + 1) : Nat) : Int) * (((j : Int)) + 1) := by
      exact_mod_cast hmul
    rw [hcast]
    rw [ediv_mul_cancel _ _ (by omega)]
    norm_cast

/-- In-range values of `comb` agree with the binomial coefficient. -/
theorem comb_eq_choose (n k : Nat) (h : k ≤ n) :
    comb (n : Int) (k : Int) = ((n.choose k : Nat) : Int) := by
  unfold comb
  set K := min (k : Int) ((n : Int) - k) with hK
  have hK0 : 0 ≤ K := by omega
  have hKN : K ≤ (n : Int) := by omega
  rw [combAux_spec (n : Int) K hK0 hKN K.toNat (le_refl _)]
  have h2 : ((n : Int) - K).toNat + K.toNat = n := by omega
  rw [h2]
  rcases le_or_lt (k : Int) ((n : Int) - k) with hmin | hmin
  · have : K = (k : Int) := by omega
    rw [this]
    simp
  · have : K.toNat = n - k := by omega
    rw [this, Nat.choose_symm h]

/-- Whenever `min(k, n - k) < 1`, the Python loop body never runs and
`comb` returns `1`; this covers `k > n`, `k < 0` and all other
"invalid" argument combinations. -/
theorem comb_eq_one (n k : Int) (h : min k (n - k) < 1) : comb n k = 1 := by
  unfold comb
  have h0 : (min k (n - k)).toNat = 0 := by omega
  rw [h0]
  rfl

/-- `comb` is always at least `1` (it never returns `0`, and in particular
never signals an error). -/
theorem comb_pos (n k : Int) : 1 ≤ comb n k := by
  rcases lt_or_le (min k (n - k)) 1 with h | h
  · rw [comb_eq_one n k h]
  · have hn0 : 0 ≤ n := by omega
    obtain ⟨N, rfl⟩ := Int.eq_ofNat_of_zero_le hn0
    have hk2 : (0 : Int) ≤ min k ((N : Int) - k) := by omega
    obtain ⟨K2, hK2⟩ := Int.eq_ofNat_of_zero_le hk2
    have hle : K2 ≤ N := by omega
    have hcb : comb (N : Int) (k : Int) = comb (N : Int) (K2 : Int) := by
      unfold comb
      have h1 : min (k : Int) ((N : Int) - k) = (K2 : Int) := hK2
      have h2 : min ((K2 : Int)) ((N : Int) - K2) = (K2 : Int) := by omega
      rw [h1, h2]
    rw [hcb, comb_eq_choose N K2 hle]
    exact_mod_cast Nat.succ_le_of_lt (Nat.choose_pos hle)

theorem comb_with_replacement_eq_choose (n k : Nat) (h : 1 ≤ n) :
    comb_with_replacement (n : Int) (k : Int) = (((n + k - 1).choose k : Nat) : Int) := by
  unfold comb_with_replacement
  have h1 : (n : Int) + k - 1 = ((n + k - 1 : Nat) : Int) := by omega
  rw [h1, comb_eq_choose (n + k - 1) k (by omega)]

theorem comb_with_replacement_pos (n k : Int) : 1 ≤ comb_with_replacement n k :=
  comb_pos _ _

end Combination

/-- Claim C4, counterexample: `Combination.comb(2, 5)` (with `k > n`) does not
fail with an `InvalidArgument` error; it silently returns the value `1`. -/
theorem C4_counterexample : Combination.comb 2 5 = 1 := by decide

/-- Claim C4 (amended): `Combination.comb` and
`Combination.comb_with_replacement` never signal an error condition: they are
total functions, and whenever `k > n` or an argument is negative (any case
where the loop bound `min(k, n - k)` is below `1`) they silently return the
value `1` rather than raising `InvalidArgument`. -/
theorem C4_amended :
    (∀ n k : Int, n < k ∨ k < 0 → Combination.comb n k = 1) ∧
      (∀ n k : Int, n < 1 ∨ k < 0 → Combination.comb_with_replacement n k = 1) := by
  constructor
  · intro n k h
    exact Combination.comb_eq_one n k (by omega)
  · intro n k h
    exact Combination.comb_eq_one (n + k - 1) k (by omega)

/-- Witness for `C4_amended` at concrete inputs. -/
theorem C4_amended_witness :
    Combination.comb 2 5 = 1 ∧ Combination.comb_with_replacement (-1) 2 = 1 :=
  ⟨C4_amended.1 2 5 (Or.inl (by decide)), C4_amended.2 (-1) 2 (Or.inl (by decide))⟩

/-! ### Structure of `group_by` -/

section GroupBy

variable {α : Type _} (equal : α → α → Bool)

/-- The fold step used by `group_by`. -/
def gbStep (st : List (List α) × List α) (x : α) : List (List α) × List α :=
  match st.2 with
  | [] => (st.1, [x])
  | c0 :: _ => if equal x c0 then (st.1, st.2 ++ [x]) else (st.1 ++ [st.2], [x])

/-- The final flush performed by `group_by`. -/
def gbFinish (st : List (List α) × List α) : List (List α) :=
  if st.2.isEmpty then st.1 else st.1 ++ [st.2]

theorem group_by_def (values : List α) :
    group_by values equal = gbFinish (values.foldl (gbStep equal) ([], [])) := rfl

theorem gb_run : ∀ (xs : List α) (groups : List (List α)) (c0 : α) (cs : List α),
    gbFinish (xs.foldl (gbStep equal) (groups, c0 :: cs)) =
      groups ++ (c0 :: (cs ++ xs.takeWhile (fun y => equal y c0))) ::
        group_by (xs.dropWhile (fun y => equal y c0)) equal := by
  intro xs
  induction xs with
  | nil =>
    intro groups c0 cs
    simp [gbFinish, group_by, List.foldl]
  | cons y ys ih =>
    intro groups c0 cs
    by_cases h : equal y c0
    · have h1 : (y :: ys).foldl (gbStep equal) (groups, c0 :: cs) =
          ys.foldl (gbStep equal) (groups, c0 :: (cs ++ [y])) := by
        simp [List.foldl, gbStep, h]
      rw [h1, ih groups c0 (cs ++ [y])]
      simp [List.takeWhile, h]
    · have h1 : (y :: ys).foldl (gbStep equal) (groups, c0 :: cs) =
          ys.foldl (gbStep equal) (groups ++ [c0 :: cs], y :: []) := by
        simp [List.foldl, gbStep, h]
      rw [h1, ih (groups ++ [c0 :: cs]) y []]
      have h2 : group_by (y :: ys) equal =
          (y :: ([] ++ ys.takeWhile (fun z => equal z y))) ::
            group_by (ys.dropWhile (fun z => equal z y)) equal := by
        rw [group_by_def]
        have h3 : (y :: ys).foldl (gbStep equal) ([], []) =
            ys.foldl (gbStep equal) ([], y :: []) := by
          simp [List.foldl, gbStep]
        rw [h3, ih [] y []]
        simp
      simp [List.takeWhile, List.dropWhile, h, h2]

/-- Unfolding characterisation of Python `group_by`: the first group is the
initial run of values comparing `equal` to the first value, and the rest is
grouped recursively. -/
theorem group_by_cons (x : α) (xs : List α) :
    group_by (x :: xs) equal =
      (x :: xs.takeWhile (fun y => equal y x)) ::
        group_by (xs.dropWhile (fun y => equal y x)) equal := by
  rw [group_by_def]
  have h3 : (x :: xs).foldl (gbStep equal) ([], []) = xs.foldl (gbStep equal) ([], x :: []) := by
    simp [List.foldl, gbStep]
  rw [h3, gb_run equal xs [] x []]
  simp

theorem group_by_nil : group_by ([] : List α) equal = [] := rfl

theorem group_by_join (values : List α) :
    (group_by values equal).flatten = values := by
  obtain ⟨m, hm⟩ : ∃ m, values.length ≤ m := ⟨values.length, le_refl _⟩
  induction m generalizing values with
  | zero =>
    have : values = [] := List.eq_nil_of_length_eq_zero (Nat.le_zero.mp hm)
    simp [this, group_by_nil]
  | succ m ih =>
    cases values with
    | nil => simp [group_by_nil]
    | cons x xs =>
      rw [group_by_cons]
      have hlen : (xs.dropWhile (fun y => equal y x)).length ≤ m := by
        have := (List.dropWhile_sublist (l := xs) (fun y => equal y x)).length_le
        simp at hm
        omega
      simp [ih _ hlen, List.takeWhile_append_dropWhile]

theorem group_by_ne_nil (values : List α) :
    ∀ g ∈ group_by values equal, g ≠ [] := by
  obtain ⟨m, hm⟩ : ∃ m, values.length ≤ m := ⟨values.length, le_refl _⟩
  induction m generalizing values with
  | zero =>
    have : values = [] := List.eq_nil_of_length_eq_zero (Nat.le_zero.mp hm)
    simp [this, group_by_nil]
  | succ m ih =>
    cases values with
    | nil => simp [group_by_nil]
    | cons x xs =>
      rw [group_by_cons]
      intro g hg
      rcases List.mem_cons.mp hg with h | h
      · simp [h]
      · have hlen : (xs.dropWhile (fun y => equal y x)).length ≤ m := by
          have := (List.dropWhile_sublist (l := xs) (fun y => equal y x)).length_le
          simp at hm
          omega
        exact ih _ hlen g h

theorem group_by_mem_of_mem_group (values : List α) (g : List α)
    (hg : g ∈ group_by values equal) (x : α) (hx : x ∈ g) : x ∈ values := by
  rw [← group_by_join equal values]
  exact List.mem_flatten.mpr ⟨g, hg, hx⟩

end GroupBy

/-! ### Soundness of the partition generator -/

theorem ruleAscInnerGo_exit (u f y : Nat) (h : y < u + 1) :
    ruleAscInnerGo u f y = [u + 1 + y] := by
  cases f with
  | zero => rfl
  | succ f => simp [ruleAscInnerGo, Nat.not_le.mpr h]

theorem ruleAscInnerGo_spec (u : Nat) :
    ∀ f y, y ≤ f →
      ruleAscInnerGo u f y = List.replicate (y / (u + 1)) (u + 1) ++ [u + 1 + y % (u + 1)] := by
  intro f
  induction f with
  | zero =>
    intro y hy
    have hy0 : y = 0 := Nat.le_zero.mp hy
    subst hy0
    simp [ruleAscInnerGo]
  | succ f ih =>
    intro y hy
    by_cases h : u + 1 ≤ y
    · have hrec := ih (y - (u + 1)) (by omega)
      have hdiv : y / (u + 1) = (y - (u + 1)) / (u + 1) + 1 := by
        rw [Nat.div_eq y (u + 1)]
        simp [h]
      have hmod : y % (u + 1) = (y - (u + 1)) % (u + 1) := Nat.mod_eq_sub_mod h
      simp only [ruleAscInnerGo, if_pos h, hrec, hdiv, hmod, List.replicate_succ]
      simp
    · simp only [ruleAscInnerGo, if_neg h]
      have h1 : y / (u + 1) = 0 := Nat.div_eq_of_lt (by omega)
      have h2 : y % (u + 1) = y := Nat.mod_eq_of_lt (by omega)
      simp [h1, h2]

/-- Closed form of the inner loop of `rule_asc`: on `y` it writes
`y / (u + 1)` copies of `u + 1` and finishes with `u + 1 + (y % (u + 1))`. -/
theorem ruleAscInner_closed (u y : Nat) :
    ruleAscInner u y = List.replicate (y / (u + 1)) (u + 1) ++ [u + 1 + y % (u + 1)] :=
  ruleAscInnerGo_spec u y y (le_refl _)

theorem ruleAscInner_sum (u y : Nat) : (ruleAscInner u y).sum = u + 1 + y := by
  rw [ruleAscInner_closed, List.sum_append]
  simp only [List.sum_replicate, smul_eq_mul, List.sum_cons, List.sum_nil]
  have h3 := Nat.div_add_mod y (u + 1)
  have h4 : (u + 1) * (y / (u + 1)) = y / (u + 1) * (u + 1) := Nat.mul_comm _ _
  omega

theorem ruleAscInner_ne_nil (u y : Nat) : ruleAscInner u y ≠ [] := by
  rw [ruleAscInner_closed]
  simp

theorem ruleAscInner_mem_ge (u y : Nat) : ∀ x ∈ ruleAscInner u y, u + 1 ≤ x := by
  rw [ruleAscInner_closed]
  intro x hx
  rcases List.mem_append.mp hx with h | h
  · have := List.eq_of_mem_replicate h
    omega
  · simp at h
    omega

theorem ruleAscInner_sorted (u y : Nat) : (ruleAscInner u y).Sorted (· ≤ ·) := by
  rw [ruleAscInner_closed, List.Sorted, List.pairwise_append]
  refine ⟨?_, by simp, ?_⟩
  · exact List.pairwise_replicate.mpr (Or.inr (le_refl _))
  · intro a ha b hb
    have := List.eq_of_mem_replicate ha
    simp at hb
    omega

theorem exists_append_two (p : List Nat) (h : 2 ≤ p.length) :
    ∃ q u v, p = q ++ [u, v] := by
  rcases hr : p.reverse with _ | ⟨v, t⟩
  · have hl := congrArg List.length hr
    simp only [List.length_reverse, List.length_nil] at hl
    omega
  · rcases t with _ | ⟨u, q1⟩
    · have hl := congrArg List.length hr
      simp only [List.length_reverse, List.length_cons, List.length_nil] at hl
      omega
    · refine ⟨q1.reverse, u, v, ?_⟩
      have : p = (v :: u :: q1).reverse := by
        rw [← hr, List.reverse_reverse]
      rw [this]
      simp

theorem ruleAscStep_append (q : List Nat) (u v : Nat) :
    ruleAscStep (q ++ [u, v]) = q ++ ruleAscInner u (v - 1) := by
  unfold ruleAscStep
  have hlen : (q ++ [u, v]).length = q.length + 2 := by simp
  have h2 : (q ++ [u, v]).length - 2 = q.length := by omega
  have h1 : (q ++ [u, v]).length - 1 = q.length + 1 := by omega
  rw [hlen]
  have hu : (q ++ [u, v]).getD (q.length + 2 - 2) 0 = u := by
    rw [List.getD_eq_getElem?_getD, List.getElem?_append_right (by omega)]
    simp
  have hv : (q ++ [u, v]).getD (q.length + 2 - 1) 0 = v := by
    rw [List.getD_eq_getElem?_getD, List.getElem?_append_right (by omega)]
    simp [show q.length + 2 - 1 - q.length = 1 by omega]
  have htake : (q ++ [u, v]).take (q.length + 2 - 2) = q := by
    rw [show q.length + 2 - 2 = q.length by omega]
    simp [List.take_append_eq_append_take]
  rw [hu, hv, htake]

/-- The invariant maintained by the `rule_asc` outer loop on every reachable
state after the first step: entries are positive, ascending, and sum to `n`. -/
def PartInv (n : Nat) (p : List Nat) : Prop :=
  p.sum = n ∧ (∀ x ∈ p, 1 ≤ x) ∧ p.Sorted (· ≤ ·)

theorem step_preserves (n : Nat) (q : List Nat) (u v : Nat)
    (h : PartInv n (q ++ [u, v])) : PartInv n (q ++ ruleAscInner u (v - 1)) := by
  obtain ⟨hsum, hpos, hsort⟩ := h
  have hv : 1 ≤ v := hpos v (by simp)
  have hqsort : q.Sorted (· ≤ ·) ∧ ∀ a ∈ q, a ≤ u := by
    rw [List.Sorted, List.pairwise_append] at hsort
    exact ⟨hsort.1, fun a ha => hsort.2.2 a ha u (by simp)⟩
  refine ⟨?_, ?_, ?_⟩
  · rw [List.sum_append, ruleAscInner_sum]
    rw [List.sum_append] at hsum
    simp at hsum ⊢
    omega
  · intro x hx
    rcases List.mem_append.mp hx with h | h
    · exact hpos x (List.mem_append.mpr (Or.inl h))
    · have := ruleAscInner_mem_ge u (v - 1) x h
      omega
  · rw [List.Sorted, List.pairwise_append]
    refine ⟨hqsort.1, ruleAscInner_sorted u (v - 1), ?_⟩
    intro a ha b hb
    have h1 := hqsort.2 a ha
    have h2 := ruleAscInner_mem_ge u (v - 1) b hb
    omega

theorem ruleAscRun_sound (n : Nat) :
    ∀ f p L, PartInv n p → ruleAscRun f p = some L →
      ∀ x ∈ L, PartInv n x ∧ 2 ≤ x.length := by
  intro f
  induction f with
  | zero =>
    intro p L _ h
    simp [ruleAscRun] at h
  | succ f ih =>
    intro p L hInv hrun
    rw [ruleAscRun] at hrun
    by_cases h1 : p.length ≤ 1
    · rw [if_pos h1] at hrun
      injection hrun with h
      subst h
      intro x hx
      simp at hx
    · rw [if_neg h1] at hrun
      obtain ⟨q, u, v, rfl⟩ := exists_append_two p (by omega)
      rw [ruleAscStep_append] at hrun
      have hInv1 : PartInv n (q ++ ruleAscInner u (v - 1)) := step_preserves n q u v hInv
      by_cases h2 : (q ++ ruleAscInner u (v - 1)).length ≤ 1
      · rw [if_pos h2] at hrun
        injection hrun with h
        subst h
        intro x hx
        simp at hx
      · rw [if_neg h2] at hrun
        cases hrest : ruleAscRun f (q ++ ruleAscInner u (v - 1)) with
        | none => rw [hrest] at hrun; exact absurd hrun (by simp)
        | some rest =>
          rw [hrest] at hrun
          injection hrun with h
          subst h
          intro x hx
          rcases List.mem_cons.mp hx with h | h
          · subst h
            exact ⟨hInv1, by omega⟩
          · exact ih _ rest hInv1 hrest x h

theorem PartInv_replicate (n : Nat) : PartInv n (List.replicate n 1) := by
  refine ⟨by simp, ?_, ?_⟩
  · intro x hx
    have := List.eq_of_mem_replicate hx
    omega
  · exact List.pairwise_replicate.mpr (Or.inr (le_refl _))

theorem ruleAscStep_init (n : Nat) (h : 1 ≤ n) :
    ruleAscStep [0, n] = List.replicate n 1 := by
  have h0 : ([0, n] : List Nat) = [] ++ [0, n] := rfl
  rw [h0, ruleAscStep_append, ruleAscInner_closed]
  simp only [Nat.zero_add, Nat.div_one, Nat.mod_one, Nat.add_zero, List.nil_append]
  rw [← List.replicate_succ' (n := n - 1)]
  congr 1
  omega

/-- Every element of `partition n` is a positive, ascending list with at
least two parts summing to `n`. -/
theorem partition_sound (n : Nat) :
    ∀ part ∈ partition n,
      part.sum = n ∧ (∀ x ∈ part, 1 ≤ x) ∧ part.Sorted (· ≤ ·) ∧ 2 ≤ part.length := by
  intro part hpart
  unfold partition at hpart
  by_cases hn : 0 < n
  · rw [if_pos hn] at hpart
    cases hrun : ruleAscRun (ruleAscFuel n) [0, n] with
    | none => rw [hrun] at hpart; simp at hpart
    | some L =>
      rw [hrun] at hpart
      simp at hpart
      obtain ⟨f, hf⟩ : ∃ f, ruleAscFuel n = f + 1 := ⟨(n + 1) ^ n + 1, rfl⟩
      rw [hf, ruleAscRun] at hrun
      have hl2 : ¬ (([0, n] : List Nat).length ≤ 1) := by simp
      rw [if_neg hl2] at hrun
      have hstep : ruleAscStep [0, n] = List.replicate n 1 := ruleAscStep_init n hn
      rw [hstep] at hrun
      by_cases hn1 : (List.replicate n 1).length ≤ 1
      · rw [if_pos hn1] at hrun
        injection hrun with h
        subst h
        simp at hpart
      · rw [if_neg hn1] at hrun
        cases hrest : ruleAscRun f (List.replicate n 1) with
        | none => rw [hrest] at hrun; exact absurd hrun (by simp)
        | some rest =>
          rw [hrest] at hrun
          injection hrun with h
          subst h
          rcases List.mem_cons.mp hpart with h | h
          · subst h
            obtain ⟨a, b, c⟩ := PartInv_replicate n
            simp at hn1
            exact ⟨a, b, c, by simp; omega⟩
          · obtain ⟨⟨a, b, c⟩, d⟩ :=
              ruleAscRun_sound n f (List.replicate n 1) rest (PartInv_replicate n) hrest part h
            exact ⟨a, b, c, d⟩
  · rw [if_neg hn] at hpart
    simp at hpart

theorem sum_ge_length (l : List Nat) (h : ∀ x ∈ l, 1 ≤ x) : l.length ≤ l.sum := by
  induction l with
  | nil => simp
  | cons x xs ih =>
    simp only [List.length_cons, List.sum_cons]
    have h1 := h x (by simp)
    have h2 := ih (fun y hy => h y (by simp [hy]))
    omega

/-- Every part of a partition of `n` produced by the generator is smaller
than `n` (a partition has at least two positive parts). -/
theorem partition_mem_lt (n : Nat) (part : List Nat) (hpart : part ∈ partition n) :
    ∀ k ∈ part, k < n := by
  obtain ⟨hsum, hpos, _, hlen⟩ := partition_sound n part hpart
  intro k hk
  obtain ⟨s, t, rfl⟩ := List.append_of_mem hk
  have hs : s.length ≤ s.sum := sum_ge_length s (fun x hx => hpos x (by simp [hx]))
  have ht : t.length ≤ t.sum := sum_ge_length t (fun x hx => hpos x (by simp [hx]))
  have h1 : (s ++ k :: t).sum = s.sum + k + t.sum := by simp; omega
  have h2 : (s ++ k :: t).length = s.length + 1 + t.length := by simp; omega
  omega

theorem group_partition_headD_mem (part : List Nat) (g : List Nat)
    (hg : g ∈ group_partition part) : g.headD 0 ∈ part := by
  have hne : g ≠ [] := group_by_ne_nil _ part g hg
  have hmem : g.headD 0 ∈ g := by
    cases g with
    | nil => exact absurd rfl hne
    | cons a t => simp
  exact group_by_mem_of_mem_group _ part g hg _ hmem

/-! ### The `num_shapes` recursion (claim C3) -/

theorem numShapesGo_congr (n : Nat) :
    ∀ f, n < f → numShapesGo f n = num_shapes n := by
  induction n using Nat.strong_induction_on with
  | _ n ih =>
    intro f hf
    obtain ⟨f1, rfl⟩ : ∃ f1, f = f1 + 1 := ⟨f - 1, by omega⟩
    unfold num_shapes
    by_cases hn : n ≤ 1
    · simp [numShapesGo, hn]
    · have hexp : ∀ f2, n ≤ f2 → numShapesGo (f2 + 1) n =
          ((partition n).map (fun part =>
            ((group_partition part).map (fun g =>
              Combination.comb_with_replacement (numShapesGo f2 (g.headD 0))
                (g.length : Int))).prod)).sum := by
        intro f2 hf2
        simp [numShapesGo, hn]
      rw [hexp f1 (by omega), hexp n (le_refl n)]
      congr 1
      apply List.map_congr_left
      intro part hpart
      congr 1
      apply List.map_congr_left
      intro g hg
      have hk : g.headD 0 < n := partition_mem_lt n part hpart _ (group_partition_headD_mem part g hg)
      rw [ih _ hk f1 (by omega), ih _ hk n hk]

/-- The recursive equation of Python `num_shapes` for `n ≥ 2`: a sum of
`num_tree_pairings` over all generated partitions of `n`. -/
theorem num_shapes_eq_sum (n : Nat) (h : 2 ≤ n) :
    num_shapes n = ((partition n).map num_tree_pairings).sum := by
  unfold num_shapes
  have hn : ¬ (n ≤ 1) := by omega
  simp only [numShapesGo, hn, if_false]
  congr 1
  apply List.map_congr_left
  intro part hpart
  unfold num_tree_pairings
  congr 1
  apply List.map_congr_left
  intro g hg
  have hk : g.headD 0 < n := partition_mem_lt n part hpart _ (group_partition_headD_mem part g hg)
  rw [numShapesGo_congr _ n hk]

/-- Claim C3, counterexample: the spec's literal sequence says
`num_shapes(3) = 1`, but the code (which enumerates arbitrary-arity shapes)
computes `num_shapes(3) = 2` (the star and the cherry-plus-leaf). -/
theorem C3_counterexample : ¬ (num_shapes 3 = 1) := by decide

/-- Claim C3 (amended): `num_shapes` satisfies `num_shapes(0) = 0`,
`num_shapes(1) = 1`, and for every `n ≥ 2` equals the sum of
`num_tree_pairings(part)` over all partitions of `n`; its values for
`n = 0..7` are the literal sequence `[0, 1, 1, 2, 5, 12, 33, 90]` (not the
binary-tree sequence `[0, 1, 1, 1, 2, 3, 6, 11]` stated in the spec). -/
theorem C3_amended :
    num_shapes 0 = 0 ∧ num_shapes 1 = 1 ∧
      (∀ n, 2 ≤ n → num_shapes n = ((partition n).map num_tree_pairings).sum) ∧
      [num_shapes 0, num_shapes 1, num_shapes 2, num_shapes 3, num_shapes 4,
          num_shapes 5, num_shapes 6, num_shapes 7] =
        [0, 1, 1, 2, 5, 12, 33, 90] :=
  ⟨by decide, by decide, fun n hn => num_shapes_eq_sum n hn, by decide⟩

/-- Witness for `C3_amended` at `n = 5`. -/
theorem C3_amended_witness :
    num_shapes 5 = ((partition 5).map num_tree_pairings).sum :=
  C3_amended.2.2.1 5 (by decide)

/-! ### Inverse theorems for combination ranking (claim C2) -/

namespace Combination

theorem comb_zero_right (m : Int) : comb m 0 = 1 :=
  comb_eq_one m 0 (by omega)

theorem comb_self (m : Nat) : comb (m : Int) (m : Int) = 1 :=
  comb_eq_one _ _ (by omega)

theorem comb_one_right (n : Nat) (h : 1 ≤ n) : comb (n : Int) 1 = (n : Int) := by
  have h1 : ((1 : Nat) : Int) = (1 : Int) := rfl
  rw [← h1, comb_eq_choose n 1 h, Nat.choose_one_right]

theorem comb_pascal (n k : Nat) (h : k < n) :
    comb ((n : Int) + 1) ((k : Int) + 1) = comb (n : Int) (k : Int) + comb (n : Int) ((k : Int) + 1) := by
  have h1 : (n : Int) + 1 = ((n + 1 : Nat) : Int) := by push_cast; ring
  have h2 : (k : Int) + 1 = ((k + 1 : Nat) : Int) := by push_cast; ring
  rw [h1, h2, comb_eq_choose (n + 1) (k + 1) (by omega), comb_eq_choose n k (le_of_lt h),
    comb_eq_choose n (k + 1) h]
  exact_mod_cast Nat.choose_succ_succ n k

theorem map_sub_one_map_add_one (idxs : List Nat) :
    (idxs.map (· + 1)).map (· - 1) = idxs := by
  rw [List.map_map]
  have h : ((· - 1) ∘ (· + 1) : Nat → Nat) = id := by
    funext x
    simp
  rw [h, List.map_id]

theorem from_range_rank_nonneg : ∀ (n : Nat) (c : List Nat), 0 ≤ from_range_rank c n := by
  intro n
  induction n with
  | zero =>
    intro c
    rw [from_range_rank.eq_def]
    split <;> simp
  | succ n ih =>
    intro c
    rw [from_range_rank.eq_def]
    split
    · simp
    · cases c with
      | nil => simp
      | cons j rest =>
        simp only
        by_cases hj : j = 0
        · rw [if_pos hj]
          exact ih _
        · rw [if_neg hj]
          have h1 := comb_pos ((n : Int) + 1 - 1) ((rest.length : Int) + 1 - 1)
          have h2 := ih ((j :: rest).map (· - 1))
          omega

theorem from_range_rank_nil (n : Nat) : from_range_rank [] n = 0 := by
  rw [from_range_rank.eq_def]
  simp

theorem from_range_rank_full (c : List Nat) : from_range_rank c c.length = 0 := by
  rw [from_range_rank.eq_def]
  simp

/-- Head-zero unfolding of `from_range_rank`. -/
theorem from_range_rank_zero_cons (idxs : List Nat) (n : Nat)
    (hlen : idxs.length + 1 ≠ n + 1) :
    from_range_rank (0 :: idxs.map (· + 1)) (n + 1) = from_range_rank idxs n := by
  rw [from_range_rank.eq_def]
  have h1 : ¬ ((0 :: idxs.map (· + 1)).length = 0 ∨ (0 :: idxs.map (· + 1)).length = n + 1) := by
    simp
    omega
  rw [if_neg h1]
  have h2 := map_sub_one_map_add_one idxs
  rw [List.map_map] at h2
  simp [h2]

/-- Positive-head unfolding of `from_range_rank`. -/
theorem from_range_rank_pos_cons (i0 : Nat) (it : List Nat) (n : Nat)
    (hlen : it.length + 1 ≠ n + 1) :
    from_range_rank ((i0 + 1) :: it.map (· + 1)) (n + 1) =
      comb (n : Int) (it.length : Int) + from_range_rank (i0 :: it) n := by
  rw [from_range_rank.eq_def]
  have h1 : ¬ (((i0 + 1) :: it.map (· + 1)).length = 0 ∨
      ((i0 + 1) :: it.map (· + 1)).length = n + 1) := by
    simp
    omega
  rw [if_neg h1]
  simp only
  rw [if_neg (by omega : ¬ (i0 + 1 = 0))]
  have h2 : (((i0 + 1) :: it.map (· + 1)).map (· - 1)) = i0 :: it := by
    simp only [List.map_cons]
    rw [map_sub_one_map_add_one]
    simp only [Nat.add_sub_cancel]
  rw [h2]
  have h3 : ((n : Int) + 1 - 1) = (n : Int) := by ring
  have h4 : (((it.map (· + 1)).length : Int) + 1 - 1) = (it.length : Int) := by
    push_cast [List.length_map]
    ring
  rw [h3, h4]

theorem pyIndex_cons_self [DecidableEq α] (a : α) (l : List α) :
    pyIndex (a :: l) a = 0 := by
  simp [pyIndex]

theorem pyIndex_cons_ne [DecidableEq α] (a x : α) (l : List α) (h : x ≠ a) :
    pyIndex (a :: l) x = pyIndex l x + 1 := by
  simp [pyIndex, h]

theorem map_pyIndex_shift [DecidableEq α] (a : α) (l c : List α) (h : a ∉ c) :
    c.map (pyIndex (a :: l)) = (c.map (pyIndex l)).map (· + 1) := by
  rw [List.map_map]
  apply List.map_congr_left
  intro x hx
  have : x ≠ a := fun he => h (he ▸ hx)
  simp [pyIndex_cons_ne a x l this]

theorem from_range_rank_len (c : List Nat) (n : Nat) (h : c.length = n) :
    from_range_rank c n = 0 := by
  rw [from_range_rank.eq_def]
  simp [h]

theorem rank_nonneg [DecidableEq α] (c l : List α) : 0 ≤ rank c l :=
  from_range_rank_nonneg _ _

theorem rank_nil_left [DecidableEq α] (l : List α) : rank ([] : List α) l = 0 :=
  from_range_rank_nil _

theorem rank_full [DecidableEq α] (c l : List α) (h : c.length = l.length) :
    rank c l = 0 :=
  from_range_rank_len _ _ (by simp [h])

/-- Ranking a combination that avoids the head of the universe. -/
theorem rank_cons_of_not_mem [DecidableEq α] (a : α) (l : List α) (x : α) (ct : List α)
    (h : a ∉ (x :: ct)) (hlen : (x :: ct).length ≠ (a :: l).length) :
    rank (x :: ct) (a :: l) =
      comb ((l.length : Int)) ((ct.length : Int)) + rank (x :: ct) l := by
  unfold rank
  rw [map_pyIndex_shift a l (x :: ct) h]
  simp only [List.map_cons, List.length_cons]
  rw [from_range_rank_pos_cons (pyIndex l x) (ct.map (pyIndex l)) l.length
    (by simp at hlen ⊢; omega)]
  simp

/-- Ranking a combination that starts with the head of the universe. -/
theorem rank_cons_self [DecidableEq α] (a : α) (l : List α) (ct : List α)
    (ha : a ∉ ct) (hlen : ct.length + 1 ≠ l.length + 1) :
    rank (a :: ct) (a :: l) = rank ct l := by
  unfold rank
  simp only [List.map_cons, pyIndex_cons_self, List.length_cons]
  rw [map_pyIndex_shift a l ct ha]
  rw [from_range_rank_zero_cons (ct.map (pyIndex l)) l.length (by simp; omega)]

/-- The rank of any combination (a sublist of a duplicate-free universe) is
below `comb(n, k)`. -/
theorem rank_lt_comb [DecidableEq α] {c l : List α} (hsub : c.Sublist l) :
    l.Nodup → rank c l < comb ((l.length : Int)) ((c.length : Int)) := by
  induction hsub with
  | slnil =>
    intro _
    rw [rank_nil_left]
    simp [comb_zero_right]
  | @cons c l a hsub ih =>
    intro hnd
    have hnd' : l.Nodup := (List.nodup_cons.mp hnd).2
    have hal : a ∉ l := (List.nodup_cons.mp hnd).1
    cases c with
    | nil =>
      rw [rank_nil_left]
      have := comb_pos (((a :: l).length : Int)) ((0 : Nat) : Int)
      simpa using this
    | cons x ct =>
      have hac : a ∉ (x :: ct) := fun hmem => hal (hsub.subset hmem)
      have hlt : ct.length + 1 ≤ l.length := by
        have := hsub.length_le
        simpa using this
      have hlen : (x :: ct).length ≠ (a :: l).length := by
        simp
        omega
      rw [rank_cons_of_not_mem a l x ct hac hlen]
      have h1 := ih hnd'
      have hpas := comb_pascal l.length ct.length (by omega)
      simp only [List.length_cons] at h1 ⊢
      push_cast at h1 ⊢
      omega
  | @cons₂ c l a hsub ih =>
    intro hnd
    have hnd' : l.Nodup := (List.nodup_cons.mp hnd).2
    have hal : a ∉ l := (List.nodup_cons.mp hnd).1
    by_cases hl : c.length = l.length
    · have hcl : c = l := hsub.eq_of_length hl
      rw [rank_full _ _ (by simp [hcl])]
      exact comb_pos _ _
    · have hac : a ∉ c := fun hmem => hal (hsub.subset hmem)
      have hle : c.length ≤ l.length := hsub.length_le
      rw [show rank (a :: c) (a :: l) = rank c l from
        rank_cons_self a l c hac (by omega)]
      have h1 := ih hnd'
      have hpas := comb_pascal l.length c.length (by omega)
      have h3 := comb_pos ((l.length : Int)) ((c.length : Int) + 1)
      simp only [List.length_cons] at h1 ⊢
      push_cast at h1 ⊢
      omega

theorem unrank_zero_full (l : List α) : unrank 0 l l.length = l := by
  induction l with
  | nil => rfl
  | cons e rest ih =>
    show unrank 0 (e :: rest) (rest.length + 1) = e :: rest
    rw [unrank]
    have h1 : comb ((rest.length : Int) + 1 - 1) ((rest.length : Int) + 1 - 1) = 1 := by
      have h2 : ((rest.length : Int) + 1 - 1) = (rest.length : Int) := by ring
      rw [h2]
      exact comb_self rest.length
    simp only [h1]
    rw [if_pos (by omega : (0 : Int) < 1)]
    rw [ih]

/-- Unfolding of the `unrank` recursion on a nonempty universe. -/
theorem unrank_cons (r : Int) (e : α) (rest : List α) (k : Nat) :
    unrank r (e :: rest) (k + 1) =
      if r < comb ((rest.length : Int)) ((k : Int)) then e :: unrank r rest k
      else unrank (r - comb ((rest.length : Int)) ((k : Int))) rest (k + 1) := by
  rw [unrank]
  have h1 : ((rest.length : Int) + 1 - 1) = (rest.length : Int) := by ring
  have h2 : ((k : Int) + 1 - 1) = (k : Int) := by ring
  rw [h1, h2]

/-- Python `Combination.unrank` applied to the rank of a combination
reconstructs that combination (the combination is a sublist of a
duplicate-free universe). -/
theorem unrank_rank [DecidableEq α] {c l : List α} (hsub : c.Sublist l) :
    l.Nodup → unrank (rank c l) l c.length = c := by
  induction hsub with
  | slnil =>
    intro _
    rfl
  | @cons c l a hsub ih =>
    intro hnd
    have hnd' : l.Nodup := (List.nodup_cons.mp hnd).2
    have hal : a ∉ l := (List.nodup_cons.mp hnd).1
    cases c with
    | nil =>
      rw [rank_nil_left]
      rfl
    | cons x ct =>
      have hac : a ∉ (x :: ct) := fun hmem => hal (hsub.subset hmem)
      have hlt : ct.length + 1 ≤ l.length := by
        have := hsub.length_le
        simpa using this
      rw [rank_cons_of_not_mem a l x ct hac (by simp; omega)]
      rw [show (x :: ct).length = ct.length + 1 from rfl, unrank_cons]
      have h0 := rank_nonneg (x :: ct) l
      rw [if_neg (by omega)]
      have h3 : comb ((l.length : Int)) ((ct.length : Int)) + rank (x :: ct) l -
          comb ((l.length : Int)) ((ct.length : Int)) = rank (x :: ct) l := by ring
      rw [h3]
      exact ih hnd'
  | @cons₂ c l a hsub ih =>
    intro hnd
    have hnd' : l.Nodup := (List.nodup_cons.mp hnd).2
    have hal : a ∉ l := (List.nodup_cons.mp hnd).1
    by_cases hl : c.length = l.length
    · have hcl : c = l := hsub.eq_of_length hl
      subst hcl
      rw [rank_full _ _ (by simp)]
      have : (a :: c).length = (a :: c).length := rfl
      exact unrank_zero_full (a :: c)
    · have hac : a ∉ c := fun hmem => hal (hsub.subset hmem)
      rw [rank_cons_self a l c hac (by omega)]
      rw [show (a :: c).length = c.length + 1 from rfl, unrank_cons]
      rw [if_pos (rank_lt_comb hsub hnd')]
      rw [ih hnd']

/-- For an in-range rank, `unrank` produces a size-`k` sublist of the
universe. -/
theorem unrank_sublist_len (l : List α) :
    ∀ (k : Nat) (r : Int), k ≤ l.length → 0 ≤ r → r < comb ((l.length : Int)) ((k : Int)) →
      (unrank r l k).Sublist l ∧ (unrank r l k).length = k := by
  induction l with
  | nil =>
    intro k r hk _ _
    have : k = 0 := by simpa using hk
    subst this
    exact ⟨List.Sublist.refl _, rfl⟩
  | cons e rest ih =>
    intro k r hk h0 hr
    cases k with
    | zero => exact ⟨List.nil_sublist _, rfl⟩
    | succ k =>
      rw [unrank_cons]
      by_cases hkfull : k = rest.length
      · subst hkfull
        have h1 : comb ((rest.length : Int)) ((rest.length : Int)) = 1 :=
          comb_self rest.length
        have hfull : comb ((rest.length : Int) + 1) ((rest.length : Int) + 1) = 1 := by
          have h2 := comb_self (rest.length + 1)
          push_cast at h2
          exact h2
        have hr0 : r = 0 := by
          simp only [List.length_cons] at hr
          push_cast at hr
          omega
        subst hr0
        rw [if_pos (by omega)]
        rw [unrank_zero_full rest]
        exact ⟨List.Sublist.refl _, rfl⟩
      · have hklt : k < rest.length := by
          simp at hk
          omega
        by_cases hc : r < comb ((rest.length : Int)) ((k : Int))
        · rw [if_pos hc]
          obtain ⟨hs, hlen⟩ := ih k r (by omega) h0 hc
          exact ⟨hs.cons₂ e, by simp [hlen]⟩
        · rw [if_neg hc]
          have hpas := comb_pascal rest.length k hklt
          have hlt2 : r - comb ((rest.length : Int)) ((k : Int)) <
              comb ((rest.length : Int)) ((k : Int) + 1) := by
            simp only [List.length_cons] at hr
            push_cast at hr
            omega
          obtain ⟨hs, hlen⟩ := ih (k + 1) (r - comb ((rest.length : Int)) ((k : Int)))
            (by omega) (by omega) (by push_cast; exact hlt2)
          exact ⟨hs.cons e, hlen⟩

/-- Python `Combination.rank` applied to an unranked combination returns the
original rank, for any in-range rank. -/
theorem rank_unrank [DecidableEq α] (l : List α) :
    ∀ (k : Nat) (r : Int), l.Nodup → k ≤ l.length → 0 ≤ r →
      r < comb ((l.length : Int)) ((k : Int)) →
      rank (unrank r l k) l = r := by
  induction l with
  | nil =>
    intro k r _ hk h0 hr
    have hk0 : k = 0 := by simpa using hk
    subst hk0
    have h1 : comb ((0 : Nat) : Int) ((0 : Nat) : Int) = 1 := comb_self 0
    simp only [List.length_nil] at hr
    push_cast at hr h1
    have hr0 : r = 0 := by omega
    subst hr0
    exact rank_nil_left []
  | cons e rest ih =>
    intro k r hnd hk h0 hr
    have hnd' : rest.Nodup := (List.nodup_cons.mp hnd).2
    have hae : e ∉ rest := (List.nodup_cons.mp hnd).1
    cases k with
    | zero =>
      have h1 : comb (((e :: rest).length : Int)) ((0 : Nat) : Int) = 1 :=
        comb_zero_right _
      push_cast at hr h1
      have hr0 : r = 0 := by omega
      subst hr0
      exact rank_nil_left _
    | succ k =>
      rw [unrank_cons]
      by_cases hkfull : k = rest.length
      · subst hkfull
        have h1 : comb ((rest.length : Int)) ((rest.length : Int)) = 1 :=
          comb_self rest.length
        have hfull : comb ((rest.length : Int) + 1) ((rest.length : Int) + 1) = 1 := by
          have h2 := comb_self (rest.length + 1)
          push_cast at h2
          exact h2
        have hr0 : r = 0 := by
          simp only [List.length_cons] at hr
          push_cast at hr
          omega
        subst hr0
        rw [if_pos (by omega), unrank_zero_full rest]
        exact rank_full _ _ rfl
      · have hklt : k < rest.length := by
          simp at hk
          omega
        by_cases hc : r < comb ((rest.length : Int)) ((k : Int))
        · rw [if_pos hc]
          obtain ⟨hs, hlen⟩ := unrank_sublist_len rest k r (by omega) h0 hc
          have hnm : e ∉ unrank r rest k := fun hmem => hae (hs.subset hmem)
          have hlen2 : (unrank r rest k).length + 1 ≠ rest.length + 1 := by omega
          rw [rank_cons_self e rest (unrank r rest k) hnm hlen2]
          exact ih k r hnd' (by omega) h0 hc
        · rw [if_neg hc]
          have hpas := comb_pascal rest.length k hklt
          have hlt2 : r - comb ((rest.length : Int)) ((k : Int)) <
              comb ((rest.length : Int)) ((k : Int) + 1) := by
            simp only [List.length_cons] at hr
            push_cast at hr
            omega
          obtain ⟨hs, hlen⟩ := unrank_sublist_len rest (k + 1)
            (r - comb ((rest.length : Int)) ((k : Int))) (by omega) (by omega)
            (by push_cast; exact hlt2)
          set c2 := unrank (r - comb ((rest.length : Int)) ((k : Int))) rest (k + 1) with hc2
          have hnm : e ∉ c2 := fun hmem => hae (hs.subset hmem)
          cases hcc : c2 with
          | nil =>
            rw [hcc] at hlen
            simp at hlen
          | cons x ct =>
            have hlen3 : (x :: ct).length ≠ (e :: rest).length := by
              rw [← hcc, hlen]
              simp
              omega
            rw [hcc] at hnm
            rw [rank_cons_of_not_mem e rest x ct hnm hlen3]
            have hctn : ct.length = k := by
              have h5 : (x :: ct).length = k + 1 := by rw [← hcc]; exact hlen
              simpa using h5
            have hct : (ct.length : Int) = (k : Int) := by exact_mod_cast hctn
            rw [hct]
            have hrec : rank c2 rest = r - comb ((rest.length : Int)) ((k : Int)) :=
              ih (k + 1) (r - comb ((rest.length : Int)) ((k : Int))) hnd'
                (by omega) (by omega) (by push_cast; exact hlt2)
            rw [hcc] at hrec
            rw [hrec]
            ring

/-! ### Inverse theorems for combinations with replacement -/

theorem cwr_zero_right (m : Int) : comb_with_replacement m 0 = 1 := by
  unfold comb_with_replacement
  exact comb_zero_right _

theorem cwr_pos (n k : Int) : 1 ≤ comb_with_replacement n k := comb_pos _ _

/-- Pascal-style recurrence for Python multichoose, valid for `n ≥ 2` (it
fails at `n = 1` because `comb_with_replacement(0, k+1)` is `1`, not `0`,
in the Python code). -/
theorem cwr_pascal (n k1 : Nat) (hn : 2 ≤ n) :
    comb_with_replacement (n : Int) ((k1 : Int) + 1) =
      comb_with_replacement ((n : Int) - 1) ((k1 : Int) + 1) +
        comb_with_replacement (n : Int) (k1 : Int) := by
  have e1 : comb_with_replacement (n : Int) ((k1 : Int) + 1) =
      (((n + k1).choose (k1 + 1) : Nat) : Int) := by
    have h := comb_with_replacement_eq_choose n (k1 + 1) (by omega)
    rw [show n + (k1 + 1) - 1 = n + k1 from by omega] at h
    push_cast at h
    exact h
  have e2 : comb_with_replacement ((n : Int) - 1) ((k1 : Int) + 1) =
      (((n - 1 + k1).choose (k1 + 1) : Nat) : Int) := by
    have h := comb_with_replacement_eq_choose (n - 1) (k1 + 1) (by omega)
    rw [show n - 1 + (k1 + 1) - 1 = n - 1 + k1 from by omega] at h
    have hc : ((n - 1 : Nat) : Int) = (n : Int) - 1 := by omega
    rw [hc] at h
    push_cast at h
    exact h
  have e3 : comb_with_replacement (n : Int) (k1 : Int) =
      (((n + k1 - 1).choose k1 : Nat) : Int) := comb_with_replacement_eq_choose n k1 (by omega)
  rw [e1, e2, e3]
  have hp : (n + k1).choose (k1 + 1) = (n + k1 - 1).choose k1 + (n - 1 + k1).choose (k1 + 1) := by
    have h := Nat.choose_succ_succ (n + k1 - 1) k1
    simp only [Nat.succ_eq_add_one] at h
    rw [show n + k1 - 1 + 1 = n + k1 from by omega] at h
    rw [show n - 1 + k1 = n + k1 - 1 from by omega]
    exact h
  rw [hp]
  push_cast
  ring

/-- Monotonicity of Python multichoose in `k`, for `n ≥ 1`. -/
theorem cwr_mono (n k1 : Nat) (hn : 1 ≤ n) :
    comb_with_replacement (n : Int) (k1 : Int) ≤
      comb_with_replacement (n : Int) ((k1 : Int) + 1) := by
  rcases Nat.lt_or_ge n 2 with h2 | h2
  · have hn1 : n = 1 := by omega
    subst hn1
    have ha : comb_with_replacement ((1 : Nat) : Int) (k1 : Int) = 1 := by
      unfold comb_with_replacement
      exact comb_eq_one _ _ (by omega)
    have hb : comb_with_replacement ((1 : Nat) : Int) ((k1 : Int) + 1) = 1 := by
      unfold comb_with_replacement
      exact comb_eq_one _ _ (by omega)
    rw [ha, hb]
  · rw [cwr_pascal n k1 h2]
    have := cwr_pos ((n : Int) - 1) ((k1 : Int) + 1)
    omega

/-- Partial sums of the multichoose terms scanned by
`with_replacement_rank`/`with_replacement_unrank`, starting at offset `i`. -/
def wrB (n : Int) (k1 : Nat) : Nat → Nat → Int
  | _, 0 => 0
  | i, j + 1 => comb_with_replacement (n - (i : Int)) (k1 : Int) + wrB n k1 (i + 1) j

theorem wrB_nonneg (n : Int) (k1 : Nat) : ∀ j i, 0 ≤ wrB n k1 i j := by
  intro j
  induction j with
  | zero => intro i; simp [wrB]
  | succ j ih =>
    intro i
    have h1 := cwr_pos (n - (i : Int)) ((k1 : Int))
    have h2 := ih (i + 1)
    simp only [wrB]
    omega

theorem wrB_succ_last (n : Int) (k1 : Nat) :
    ∀ j i, wrB n k1 i (j + 1) = wrB n k1 i j + comb_with_replacement (n - ((i : Int) + j)) (k1 : Int) := by
  intro j
  induction j with
  | zero =>
    intro i
    simp [wrB]
  | succ j ih =>
    intro i
    rw [show wrB n k1 i (j + 1 + 1) =
      comb_with_replacement (n - (i : Int)) (k1 : Int) + wrB n k1 (i + 1) (j + 1) from rfl]
    rw [show wrB n k1 i (j + 1) =
      comb_with_replacement (n - (i : Int)) (k1 : Int) + wrB n k1 (i + 1) j from rfl]
    rw [ih (i + 1)]
    have harg : n - (((i + 1 : Nat) : Int) + (j : Int)) = n - ((i : Int) + ((j + 1 : Nat) : Int)) := by
      push_cast
      ring
    rw [harg]
    ring

theorem wrPreceding_succ (n : Int) (k1 : Nat) (j : Nat) :
    wrPreceding n k1 (j + 1) = wrPreceding n k1 j +
      comb_with_replacement (n - (j : Int)) (k1 : Int) := by
  unfold wrPreceding
  rw [List.range_succ, List.map_append, List.sum_append]
  simp

theorem wrPreceding_eq_wrB (n : Int) (k1 : Nat) : ∀ j, wrPreceding n k1 j = wrB n k1 0 j := by
  intro j
  induction j with
  | zero => simp [wrPreceding, wrB]
  | succ j ih =>
    rw [wrPreceding_succ, ih, wrB_succ_last]
    simp

theorem wrB_mono_le (n : Int) (k1 : Nat) :
    ∀ j2 j1 i, j1 ≤ j2 → wrB n k1 i j1 ≤ wrB n k1 i j2 := by
  intro j2
  induction j2 with
  | zero =>
    intro j1 i h
    have : j1 = 0 := by omega
    subst this
    exact le_refl _
  | succ j2 ih =>
    intro j1 i h
    rcases Nat.eq_or_lt_of_le h with he | hlt
    · subst he
      exact le_refl _
    · have h1 := ih j1 i (by omega)
      rw [wrB_succ_last]
      have h2 := cwr_pos (n - ((i : Int) + j2)) ((k1 : Int))
      omega

theorem wrB_strict_mono (n : Int) (k1 : Nat) (j1 j2 : Nat) (h : j1 < j2) (i : Nat) :
    wrB n k1 i j1 + comb_with_replacement (n - ((i : Int) + j1)) (k1 : Int) ≤ wrB n k1 i j2 := by
  have h1 : wrB n k1 i (j1 + 1) ≤ wrB n k1 i j2 := wrB_mono_le n k1 j2 (j1 + 1) i (by omega)
  rw [wrB_succ_last] at h1
  exact h1

/-- The `while rank >= preceding` loop of `with_replacement_unrank` lands at
the unique offset whose partial-sum window contains the rank. -/
theorem wruLoop_spec (n : Int) (k1 : Nat) :
    ∀ (f : Nat) (r : Int) (i : Nat), 0 ≤ r → r < (f : Int) →
      ∃ j, wruLoop n k1 f r i = (i + j, r - wrB n k1 i j) ∧
        0 ≤ r - wrB n k1 i j ∧
        r - wrB n k1 i j < comb_with_replacement (n - ((i : Int) + j)) (k1 : Int) := by
  intro f
  induction f with
  | zero =>
    intro r i h0 hf
    exact absurd hf (by push_cast; omega)
  | succ f ih =>
    intro r i h0 hf
    by_cases hlt : r < comb_with_replacement (n - (i : Int)) ((k1 : Int))
    · refine ⟨0, ?_, ?_, ?_⟩
      · simp only [wruLoop, if_pos hlt, wrB]
        simp
      · simp [wrB, h0]
      · simpa [wrB] using hlt
    · have hpos := cwr_pos (n - (i : Int)) ((k1 : Int))
      obtain ⟨j, hj1, hj2, hj3⟩ := ih (r - comb_with_replacement (n - (i : Int)) ((k1 : Int)))
        (i + 1) (by omega) (by push_cast; push_cast at hf; omega)
      refine ⟨j + 1, ?_, ?_, ?_⟩
      · simp only [wruLoop, if_neg hlt]
        rw [hj1]
        have h5 : i + 1 + j = i + (j + 1) := by omega
        have h6 : r - comb_with_replacement (n - (i : Int)) ((k1 : Int)) - wrB n k1 (i + 1) j =
            r - wrB n k1 i (j + 1) := by
          rw [show wrB n k1 i (j + 1) =
            comb_with_replacement (n - (i : Int)) ((k1 : Int)) + wrB n k1 (i + 1) j from rfl]
          ring
        rw [h5, h6]
      · simp only [wrB]
        omega
      · simp only [wrB]
        have : n - ((i : Int) + ((j : Int) + 1)) = n - (((i + 1 : Nat) : Int) + j) := by
          push_cast
          ring
        rw [show (((j + 1 : Nat)) : Int) = (j : Int) + 1 by push_cast; ring]
        rw [this]
        omega

/-- Uniqueness of the landing offset. -/
theorem wrB_window_unique (n : Int) (k1 : Nat) (r : Int) (j1 j2 : Nat)
    (h1a : 0 ≤ r - wrB n k1 0 j1)
    (h1b : r - wrB n k1 0 j1 < comb_with_replacement (n - (j1 : Int)) (k1 : Int))
    (h2a : 0 ≤ r - wrB n k1 0 j2)
    (h2b : r - wrB n k1 0 j2 < comb_with_replacement (n - (j2 : Int)) (k1 : Int)) :
    j1 = j2 := by
  by_contra hne
  rcases Nat.lt_or_ge j1 j2 with h | h
  · have := wrB_strict_mono n k1 j1 j2 h 0
    simp only [Nat.cast_zero, zero_add] at this h1b h2b
    omega
  · have hlt : j2 < j1 := by omega
    have := wrB_strict_mono n k1 j2 j1 hlt 0
    simp only [Nat.cast_zero, zero_add] at this h1b h2b
    omega

theorem wrB_k0 (n : Int) : ∀ j i, wrB n 0 i j = (j : Int) := by
  intro j
  induction j with
  | zero => intro i; simp [wrB]
  | succ j ih =>
    intro i
    simp only [wrB]
    rw [ih (i + 1)]
    simp only [Nat.cast_zero]
    rw [cwr_zero_right]
    push_cast
    ring

theorem with_replacement_unrank_length (r n : Int) :
    ∀ k, (with_replacement_unrank r n k).length = k := by
  intro k
  induction k generalizing r n with
  | zero => rfl
  | succ k ih =>
    rw [with_replacement_unrank]
    simp [ih]

theorem wrr_nil (n : Int) : with_replacement_rank [] n = 0 := rfl

theorem wrr_single (j : Nat) (n : Int) : with_replacement_rank [j] n = (j : Int) := rfl

theorem wrr_cons_zero (c2 : List Nat) (n : Int) (h : c2 ≠ []) :
    with_replacement_rank (0 :: c2) n = with_replacement_rank c2 n := by
  cases c2 with
  | nil => exact absurd rfl h
  | cons a t => rfl

theorem wrr_cons_pos (j : Nat) (c2 : List Nat) (n : Int) (hne : c2 ≠ []) (hj : j ≠ 0) :
    with_replacement_rank (j :: c2) n =
      wrPreceding n c2.length j +
        with_replacement_rank (c2.map (· - j)) (n - (j : Int)) := by
  cases c2 with
  | nil => exact absurd rfl hne
  | cons a t =>
    show wrrGo n ((t.length + 1) + 1) (j :: a :: t) = _
    rw [wrrGo]
    rw [if_neg hj]
    have hl : ((a :: t).map (· - j)).length = t.length + 1 := by simp
    rw [with_replacement_rank, hl]
    simp

/-- Closed form of the partial sums with a zero window count. -/
theorem map_sub_add_cancel (c : List Nat) (j : Nat) (h : ∀ x ∈ c, j ≤ x) :
    (c.map (· - j)).map (· + j) = c := by
  rw [List.map_map]
  have : ∀ x ∈ c, ((· + j) ∘ (· - j)) x = id x := by
    intro x hx
    have := h x hx
    simp
    omega
  rw [List.map_congr_left this, List.map_id]

theorem map_add_sub_cancel (c : List Nat) (j : Nat) :
    (c.map (· + j)).map (· - j) = c := by
  rw [List.map_map]
  have : ∀ x ∈ c, ((· - j) ∘ (· + j)) x = id x := by
    intro x _
    simp
  rw [List.map_congr_left this, List.map_id]

/-- The prefix sums exhaust the whole multichoose count at the last window. -/
theorem wrPreceding_identity (n : Nat) (k1 : Nat) :
    ∀ j, j + 1 ≤ n →
      wrPreceding (n : Int) k1 j + comb_with_replacement ((n : Int) - (j : Int)) ((k1 : Int) + 1) =
        comb_with_replacement (n : Int) ((k1 : Int) + 1) := by
  intro j
  induction j with
  | zero =>
    intro _
    simp [wrPreceding]
  | succ j ih =>
    intro hj
    rw [wrPreceding_succ]
    have hc1 : ((n - j : Nat) : Int) = (n : Int) - (j : Int) := by omega
    have hpas := cwr_pascal (n - j) k1 (by omega)
    rw [hc1] at hpas
    have hc2 : (n : Int) - (j : Int) - 1 = (n : Int) - ((j : Int) + 1) := by ring
    rw [hc2] at hpas
    have hih := ih (by omega)
    push_cast
    push_cast at hih hpas
    omega

/-- Validity bounds for `with_replacement_rank` on sorted in-range input. -/
theorem wrr_bounds (m : Nat) : ∀ (c : List Nat) (n : Nat), c.length ≤ m →
    c.Sorted (· ≤ ·) → (∀ x ∈ c, x < n) →
    0 ≤ with_replacement_rank c (n : Int) ∧
      with_replacement_rank c (n : Int) <
        comb_with_replacement (n : Int) ((c.length : Int)) := by
  induction m with
  | zero =>
    intro c n hlen _ _
    have : c = [] := List.eq_nil_of_length_eq_zero (by omega)
    subst this
    rw [wrr_nil]
    refine ⟨le_refl _, ?_⟩
    simp only [List.length_nil, Nat.cast_zero]
    rw [cwr_zero_right]
    omega
  | succ m ih =>
    intro c n hlen hsort hb
    cases c with
    | nil =>
      rw [wrr_nil]
      refine ⟨le_refl _, ?_⟩
      simp only [List.length_nil, Nat.cast_zero]
      rw [cwr_zero_right]
      omega
    | cons j c2 =>
      have hn1 : 1 ≤ n := by
        have := hb j (by simp)
        omega
      have hjn : j < n := hb j (by simp)
      cases c2 with
      | nil =>
        rw [wrr_single]
        refine ⟨by omega, ?_⟩
        have h1 : comb_with_replacement (n : Int) (((1 : Nat)) : Int) = (n : Int) := by
          unfold comb_with_replacement
          have : (n : Int) + ((1 : Nat) : Int) - 1 = (n : Int) := by push_cast; ring
          rw [this]
          exact comb_one_right n hn1
        simp only [List.length_cons, List.length_nil]
        rw [show ((0 + 1 : Nat) : Int) = (((1 : Nat)) : Int) from by norm_num, h1]
        push_cast
        omega
      | cons a t =>
        have hsort2 : (a :: t).Sorted (· ≤ ·) := (List.sorted_cons.mp hsort).2
        have hjle : ∀ b ∈ (a :: t), j ≤ b := (List.sorted_cons.mp hsort).1
        by_cases hj : j = 0
        · subst hj
          rw [wrr_cons_zero (a :: t) _ (by simp)]
          obtain ⟨hnn, hbd⟩ := ih (a :: t) n (by simp at hlen ⊢; omega) hsort2
            (fun x hx => hb x (by simp [hx]))
          refine ⟨hnn, lt_of_lt_of_le hbd ?_⟩
          have := cwr_mono n (a :: t).length hn1
          simp only [List.length_cons] at this ⊢
          push_cast at this ⊢
          omega
        · rw [wrr_cons_pos j (a :: t) _ (by simp) hj]
          have hshift_sorted : ((a :: t).map (· - j)).Sorted (· ≤ ·) := by
            rw [List.Sorted, List.pairwise_map]
            exact hsort2.imp (fun hab => Nat.sub_le_sub_right hab j)
          have hshift_lt : ∀ x ∈ (a :: t).map (· - j), x < n - j := by
            intro x hx
            obtain ⟨y, hy, rfl⟩ := List.mem_map.mp hx
            have h1 := hb y (by simp [hy])
            have h2 := hjle y hy
            omega
          have hcast : ((n - j : Nat) : Int) = (n : Int) - (j : Int) := by omega
          obtain ⟨hnn, hbd⟩ := ih ((a :: t).map (· - j)) (n - j)
            (by simp at hlen ⊢; omega) hshift_sorted hshift_lt
          rw [hcast] at hnn hbd
          have hAnn : 0 ≤ wrPreceding (n : Int) (a :: t).length j := by
            rw [wrPreceding_eq_wrB]
            exact wrB_nonneg _ _ _ _
          have hid := wrPreceding_identity n (a :: t).length j (by omega)
          have hmono := cwr_mono (n - j) (a :: t).length (by omega)
          rw [hcast] at hmono
          have hlenmap : ((a :: t).map (· - j)).length = (a :: t).length := by simp
          rw [hlenmap] at hbd
          simp only [List.length_cons] at hbd hid hmono hAnn ⊢
          push_cast at hbd hid hmono hAnn ⊢
          omega

/-- Python `with_replacement_unrank` applied to `with_replacement_rank` of a
valid (sorted, in-range) combination with replacement reconstructs it. -/
theorem wru_wrr (m : Nat) : ∀ (c : List Nat) (n : Nat), c.length ≤ m →
    c.Sorted (· ≤ ·) → (∀ x ∈ c, x < n) →
    with_replacement_unrank (with_replacement_rank c (n : Int)) (n : Int) c.length = c := by
  induction m with
  | zero =>
    intro c n hlen _ _
    have : c = [] := List.eq_nil_of_length_eq_zero (by omega)
    subst this
    rfl
  | succ m ih =>
    intro c n hlen hsort hb
    cases c with
    | nil => rfl
    | cons j c2 =>
      have hn1 : 1 ≤ n := by
        have := hb j (by simp)
        omega
      have hjn : j < n := hb j (by simp)
      have hsort2 : c2.Sorted (· ≤ ·) := (List.sorted_cons.mp hsort).2
      have hjle : ∀ b ∈ c2, j ≤ b := (List.sorted_cons.mp hsort).1
      set r := with_replacement_rank (j :: c2) (n : Int) with hr
      obtain ⟨h0, hbd⟩ := wrr_bounds (m + 1) (j :: c2) n hlen hsort hb
      -- window membership of the true head `j`
      have hwindow : 0 ≤ r - wrB (n : Int) c2.length 0 j ∧
          r - wrB (n : Int) c2.length 0 j <
            comb_with_replacement ((n : Int) - ((0 : Int) + (j : Int))) ((c2.length : Int)) := by
        by_cases hj : j = 0
        · subst hj
          simp only [wrB, Nat.cast_zero, sub_zero, add_zero, zero_add]
          cases c2 with
          | nil =>
            rw [hr, wrr_single]
            refine ⟨by omega, ?_⟩
            simp only [List.length_nil, Nat.cast_zero]
            rw [cwr_zero_right]
            omega
          | cons a t =>
            rw [hr, wrr_cons_zero (a :: t) _ (by simp)]
            obtain ⟨hnn2, hbd2⟩ := wrr_bounds m (a :: t) n (by simp at hlen ⊢; omega)
              hsort2 (fun x hx => hb x (by simp [hx]))
            exact ⟨hnn2, hbd2⟩
        · cases c2 with
          | nil =>
            rw [hr, wrr_single]
            simp only [List.length_nil, Nat.cast_zero]
            rw [wrB_k0 (n : Int) j 0]
            refine ⟨by omega, ?_⟩
            rw [cwr_zero_right]
            omega
          | cons a t =>
            rw [hr, wrr_cons_pos j (a :: t) _ (by simp) hj]
            have hA := wrPreceding_eq_wrB (n : Int) (a :: t).length j
            rw [← hA]
            have hshift_sorted : ((a :: t).map (· - j)).Sorted (· ≤ ·) := by
              rw [List.Sorted, List.pairwise_map]
              exact hsort2.imp (fun hab => Nat.sub_le_sub_right hab j)
            have hshift_lt : ∀ x ∈ (a :: t).map (· - j), x < n - j := by
              intro x hx
              obtain ⟨y, hy, rfl⟩ := List.mem_map.mp hx
              have h1 := hb y (by simp [hy])
              have h2 := (List.sorted_cons.mp hsort).1 y hy
              omega
            have hcast : ((n - j : Nat) : Int) = (n : Int) - (j : Int) := by omega
            obtain ⟨hnn2, hbd2⟩ := wrr_bounds m ((a :: t).map (· - j)) (n - j)
              (by simp at hlen ⊢; omega) hshift_sorted hshift_lt
            rw [hcast] at hnn2 hbd2
            have hlenmap : ((a :: t).map (· - j)).length = (a :: t).length := by simp
            rw [hlenmap] at hbd2
            constructor
            · omega
            · simp only [zero_add]
              omega
      -- run the loop
      show with_replacement_unrank r (n : Int) (c2.length + 1) = j :: c2
      rw [with_replacement_unrank]
      obtain ⟨js, hloop, hw1, hw2⟩ := wruLoop_spec (n : Int) c2.length (r.toNat + 1) r 0
        h0 (by omega)
      have hjs : js = j := by
        apply wrB_window_unique (n : Int) c2.length r js j
        · simpa using hw1
        · simpa using hw2
        · exact hwindow.1
        · simpa using hwindow.2
      rw [hjs] at hloop
      rw [hloop]
      simp only [zero_add]
      -- the remaining rank is the shifted sub-rank
      by_cases hj : j = 0
      · subst hj
        have hB0 : wrB (n : Int) c2.length 0 0 = 0 := rfl
        rw [hB0]
        simp only [Nat.cast_zero, sub_zero]
        cases c2 with
        | nil => rfl
        | cons a t =>
          rw [hr, wrr_cons_zero (a :: t) _ (by simp)]
          have hrec := ih (a :: t) n (by simp at hlen ⊢; omega) hsort2
            (fun x hx => hb x (by simp [hx]))
          simp only [List.length_cons] at hrec
          simp [hrec]
      · cases c2 with
        | nil =>
          simp only [List.length_nil]
          rw [wrB_k0 (n : Int) j 0, hr, wrr_single]
          simp only [sub_self]
          rfl
        | cons a t =>
          have hA := wrPreceding_eq_wrB (n : Int) (a :: t).length j
          have hsub : r - wrB (n : Int) (a :: t).length 0 j =
              with_replacement_rank ((a :: t).map (· - j)) ((n : Int) - (j : Int)) := by
            rw [hr, wrr_cons_pos j (a :: t) _ (by simp) hj, ← hA]
            ring
          rw [hsub]
          have hshift_sorted : ((a :: t).map (· - j)).Sorted (· ≤ ·) := by
            rw [List.Sorted, List.pairwise_map]
            exact hsort2.imp (fun hab => Nat.sub_le_sub_right hab j)
          have hshift_lt : ∀ x ∈ (a :: t).map (· - j), x < n - j := by
            intro x hx
            obtain ⟨y, hy, rfl⟩ := List.mem_map.mp hx
            have h1 := hb y (by simp [hy])
            have h2 := hjle y hy
            omega
          have hcast : ((n - j : Nat) : Int) = (n : Int) - (j : Int) := by omega
          have hrec := ih ((a :: t).map (· - j)) (n - j) (by simp at hlen ⊢; omega)
            hshift_sorted hshift_lt
          rw [hcast] at hrec
          have hlenmap : ((a :: t).map (· - j)).length = t.length + 1 := by simp
          rw [hlenmap] at hrec
          simp only [List.length_cons]
          rw [hrec]
          rw [map_sub_add_cancel (a :: t) j hjle]

/-- Python `with_replacement_rank` applied to `with_replacement_unrank` of an
in-range rank returns the original rank. -/
theorem wrr_wru : ∀ (k : Nat) (n : Int) (r : Int), 0 ≤ r →
    r < comb_with_replacement n (k : Int) →
    with_replacement_rank (with_replacement_unrank r n k) n = r := by
  intro k
  induction k with
  | zero =>
    intro n r h0 hr
    simp only [Nat.cast_zero] at hr
    rw [cwr_zero_right] at hr
    have : r = 0 := by omega
    subst this
    rfl
  | succ k ih =>
    intro n r h0 hr
    rw [with_replacement_unrank]
    obtain ⟨js, hloop, hw1, hw2⟩ := wruLoop_spec n k (r.toNat + 1) r 0 h0 (by omega)
    rw [hloop]
    simp only [zero_add]
    set r2 := r - wrB n k 0 js with hr2
    have hlen := with_replacement_unrank_length r2 (n - (js : Int)) k
    cases k with
    | zero =>
      have hnil : with_replacement_unrank r2 (n - (js : Int)) 0 = [] := rfl
      rw [hnil]
      simp only [List.map_nil]
      rw [wrr_single]
      have hB : wrB n 0 0 js = (js : Int) := wrB_k0 n js 0
      simp only [Nat.cast_zero, zero_add] at hw1 hw2
      rw [hr2] at hw1 hw2
      rw [hB] at hw1 hw2
      rw [cwr_zero_right] at hw2
      omega
    | succ k2 =>
      set rest := with_replacement_unrank r2 (n - (js : Int)) (k2 + 1) with hrest
      have hrestne : rest ≠ [] := by
        intro hcon
        rw [hcon] at hlen
        simp at hlen
      have hmapne : rest.map (· + js) ≠ [] := by
        intro hcon
        have := congrArg List.length hcon
        simp at this
        rw [this] at hlen
        simp at hlen
      by_cases hj : js = 0
      · subst hj
        have hmap0 : rest.map (· + 0) = rest := by simp
        rw [hmap0, wrr_cons_zero rest n hrestne]
        have hr2b : r2 = r := by
          rw [hr2]
          simp [wrB]
        have hsub0 : n - ((0 : Nat) : Int) = n := by simp
        rw [hrest, hsub0]
        rw [hr2b] at hw2 ⊢
        simp only [wrB, Nat.cast_zero, zero_add, sub_zero] at hw2
        exact ih n r h0 hw2
      · rw [wrr_cons_pos js (rest.map (· + js)) n hmapne hj]
        rw [map_add_sub_cancel rest js]
        have hlen2 : (rest.map (· + js)).length = k2 + 1 := by
          rw [List.length_map, hlen]
        rw [hlen2]
        have hA := wrPreceding_eq_wrB n (k2 + 1) js
        rw [hA]
        have hrec := ih (n - (js : Int)) r2 (by rw [hr2]; exact hw1)
          (by rw [hr2]; simpa using hw2)
        rw [← hrest] at hrec
        rw [hrec, hr2]
        ring

end Combination

/-- Claim C2: all four combination rank/unrank pairs are exact inverses.
For plain combinations a valid input is a sublist (a strictly increasing
selection by position) of a duplicate-free universe, and a valid rank lies in
`[0, comb(n, k))` with `k ≤ n`; for combinations with replacement a valid
input is a non-decreasing list over `[0, n)` and a valid rank lies in
`[0, comb_with_replacement(n, k))`. -/
theorem C2_rank_unrank_inverses :
    (∀ (α : Type) [DecidableEq α] (elements combination : List α),
        elements.Nodup → combination.Sublist elements →
        Combination.unrank (Combination.rank combination elements) elements
          combination.length = combination) ∧
    (∀ (α : Type) [DecidableEq α] (elements : List α) (k : Nat) (r : Int),
        elements.Nodup → k ≤ elements.length → 0 ≤ r →
        r < Combination.comb ((elements.length : Int)) ((k : Int)) →
        Combination.rank (Combination.unrank r elements k) elements = r) ∧
    (∀ (combination : List Nat) (n : Nat),
        combination.Sorted (· ≤ ·) → (∀ x ∈ combination, x < n) →
        Combination.with_replacement_unrank
          (Combination.with_replacement_rank combination (n : Int)) (n : Int)
          combination.length = combination) ∧
    (∀ (n : Int) (k : Nat) (r : Int), 0 ≤ r →
        r < Combination.comb_with_replacement n (k : Int) →
        Combination.with_replacement_rank
          (Combination.with_replacement_unrank r n k) n = r) := by
  refine ⟨?_, ?_, ?_, ?_⟩
  · intro α _ elements c hnd hsub
    exact Combination.unrank_rank hsub hnd
  · intro α _ elements k r hnd hk h0 hr
    exact Combination.rank_unrank elements k r hnd hk h0 hr
  · intro c n hs hb
    exact Combination.wru_wrr c.length c n (le_refl _) hs hb
  · intro n k r h0 hr
    exact Combination.wrr_wru k n r h0 hr

/-- Witness for `C2_rank_unrank_inverses` at concrete inputs. -/
theorem C2_rank_unrank_inverses_witness :
    Combination.unrank (Combination.rank [0, 2] [0, 1, 2]) [0, 1, 2] 2 = ([0, 2] : List Nat) ∧
    Combination.rank (Combination.unrank 2 [0, 1, 2] 2) ([0, 1, 2] : List Nat) = 2 ∧
    Combination.with_replacement_unrank
      (Combination.with_replacement_rank [1, 1] ((3 : Nat) : Int)) ((3 : Nat) : Int) 2 = [1, 1] ∧
    Combination.with_replacement_rank (Combination.with_replacement_unrank 3 3 2) 3 = 3 := by
  refine ⟨?_, ?_, ?_, ?_⟩
  · exact C2_rank_unrank_inverses.1 Nat [0, 1, 2] [0, 2] (by decide)
      (List.Sublist.cons₂ 0 (List.Sublist.cons 1 (List.Sublist.refl [2])))
  · exact C2_rank_unrank_inverses.2.1 Nat [0, 1, 2] 2 2 (by decide) (by decide)
      (by decide) (by decide)
  · exact C2_rank_unrank_inverses.2.2.1 [1, 1] 3 (by decide) (by decide)
  · exact C2_rank_unrank_inverses.2.2.2 3 2 3 (by decide) (by decide)

/-! ### Completeness and ordering of the partition generator (claim C7) -/

theorem lex_append_left (q l1 l2 : List Nat) (h : List.Lex (· < ·) l1 l2) :
    List.Lex (· < ·) (q ++ l1) (q ++ l2) := by
  induction q with
  | nil => exact h
  | cons x q ih => exact List.Lex.cons ih

theorem ruleAscInner_pos (u y : Nat) (h : u + 1 ≤ y) :
    ruleAscInner u y = (u + 1) :: ruleAscInner u (y - (u + 1)) := by
  rw [ruleAscInner_closed, ruleAscInner_closed]
  have hdiv : y / (u + 1) = (y - (u + 1)) / (u + 1) + 1 := by
    rw [Nat.div_eq y (u + 1)]
    simp [h]
  have hmod : y % (u + 1) = (y - (u + 1)) % (u + 1) := Nat.mod_eq_sub_mod h
  rw [hdiv, hmod, List.replicate_succ]
  simp

theorem ruleAscInner_neg (u y : Nat) (h : y < u + 1) :
    ruleAscInner u y = [u + 1 + y] := by
  rw [ruleAscInner_closed]
  rw [Nat.div_eq_of_lt h, Nat.mod_eq_of_lt h]
  simp

/-- The inner-loop output is the lexicographically smallest ascending list
with entries at least `u + 1` and the prescribed sum. -/
theorem ruleAscInner_min (u : Nat) :
    ∀ (t : List Nat) (y : Nat), t ≠ [] → t.Sorted (· ≤ ·) → (∀ e ∈ t, u + 1 ≤ e) →
      t.sum = u + 1 + y →
      ruleAscInner u y = t ∨ List.Lex (· < ·) (ruleAscInner u y) t := by
  intro t
  induction t with
  | nil => intro y h; exact absurd rfl h
  | cons e t2 ih =>
    intro y _ hsort hge hsum
    have he : u + 1 ≤ e := hge e (by simp)
    by_cases hy : u + 1 ≤ y
    · rw [ruleAscInner_pos u y hy]
      by_cases hee : e = u + 1
      · subst hee
        cases t2 with
        | nil =>
          simp at hsum
          omega
        | cons b t3 =>
          have hne : (b :: t3) ≠ [] := by simp
          have hsort2 : (b :: t3).Sorted (· ≤ ·) := (List.sorted_cons.mp hsort).2
          have hge2 : ∀ x ∈ (b :: t3), u + 1 ≤ x := fun x hx => hge x (by simp [hx])
          have hsum2 : (b :: t3).sum = u + 1 + (y - (u + 1)) := by
            simp at hsum ⊢
            omega
          rcases ih (y - (u + 1)) hne hsort2 hge2 hsum2 with heq | hlex
          · left
            rw [heq]
          · right
            exact List.Lex.cons hlex
      · right
        exact List.Lex.rel (by omega)
    · rw [ruleAscInner_neg u y (by omega)]
      cases t2 with
      | nil =>
        left
        have he2 : e = u + 1 + y := by simp at hsum; omega
        rw [he2]
      | cons b t3 =>
        exfalso
        have hb : u + 1 ≤ b := hge b (by simp)
        have : (b :: t3).sum ≥ u + 1 := by
          simp
          omega
        simp at hsum
        omega

/-- Nothing with positive entries and total `s` is lexicographically above
`[s]`. -/
theorem no_lex_gt_total (s : Nat) :
    ∀ (t : List Nat), (∀ e ∈ t, 1 ≤ e) → t.sum = s → ¬ List.Lex (· < ·) [s] t := by
  intro t hpos hsum hlex
  cases hlex with
  | rel hr =>
    rename_i y t'
    simp at hsum
    omega
  | cons hlex2 =>
    rename_i t'
    cases hlex2 with
    | nil =>
      rename_i b t3
      have hb : 1 ≤ b := hpos b (by simp)
      simp at hsum
      omega

theorem sum_le_of_head (y : Nat) (t' : List Nat) : y ≤ (y :: t').sum := by
  simp

/-- Each step output of the generator is lexicographically above its input. -/
theorem step_lex_gt (q : List Nat) (u v : Nat) :
    List.Lex (· < ·) (q ++ [u, v]) (q ++ ruleAscInner u (v - 1)) := by
  apply lex_append_left
  obtain ⟨h, t0, heq⟩ : ∃ h t0, ruleAscInner u (v - 1) = h :: t0 := by
    cases hc : ruleAscInner u (v - 1) with
    | nil => exact absurd hc (ruleAscInner_ne_nil u (v - 1))
    | cons h t0 => exact ⟨h, t0, rfl⟩
  rw [heq]
  have hh : u + 1 ≤ h := ruleAscInner_mem_ge u (v - 1) h (by rw [heq]; simp)
  exact List.Lex.rel (by omega)

/-- The step output is the lexicographically least valid partition above the
input. -/
theorem step_minimal :
    ∀ (q : List Nat) (u v : Nat) (t : List Nat),
      (q ++ [u, v]).Sorted (· ≤ ·) → (∀ e ∈ q ++ [u, v], 1 ≤ e) →
      t.Sorted (· ≤ ·) → (∀ e ∈ t, 1 ≤ e) → t.sum = (q ++ [u, v]).sum →
      List.Lex (· < ·) (q ++ [u, v]) t →
      q ++ ruleAscInner u (v - 1) = t ∨
        List.Lex (· < ·) (q ++ ruleAscInner u (v - 1)) t := by
  intro q
  induction q with
  | nil =>
    intro u v t hsort hpos hts htp hsum hlex
    have hv1 : 1 ≤ v := hpos v (by simp)
    cases hlex with
    | rel hr =>
      rename_i y t'
      simp only [List.nil_append]
      have hyge : u + 1 ≤ y := by omega
      have htge : ∀ e ∈ (y :: t'), u + 1 ≤ e := by
        intro e hee
        rcases List.mem_cons.mp hee with h | h
        · omega
        · have := (List.sorted_cons.mp hts).1 e h
          omega
      have hsum2 : (y :: t').sum = u + 1 + (v - 1) := by
        simp at hsum ⊢
        omega
      exact ruleAscInner_min u (y :: t') (v - 1) (by simp) hts htge hsum2
    | cons hlex2 =>
      rename_i t'
      exfalso
      cases hlex2 with
      | rel hr =>
        rename_i z t''
        have : z ≤ (z :: t'').sum := sum_le_of_head z t''
        simp at hsum
        omega
      | cons hlex3 =>
        rename_i t''
        cases hlex3 with
        | nil =>
          rename_i b t3
          have hb : 1 ≤ b := htp b (by simp)
          simp at hsum
          omega
  | cons x q2 ih =>
    intro u v t hsort hpos hts htp hsum hlex
    cases hlex with
    | rel hr =>
      rename_i y t'
      right
      exact List.Lex.rel hr
    | cons hlex2 =>
      rename_i t'
      have hsort2 : (q2 ++ [u, v]).Sorted (· ≤ ·) := (List.sorted_cons.mp hsort).2
      have hpos2 : ∀ e ∈ q2 ++ [u, v], 1 ≤ e := fun e he => hpos e (by simp [he])
      have hts2 : t'.Sorted (· ≤ ·) := (List.sorted_cons.mp hts).2
      have htp2 : ∀ e ∈ t', 1 ≤ e := fun e he => htp e (by simp [he])
      have hsum2 : t'.sum = (q2 ++ [u, v]).sum := by
        simp at hsum ⊢
        omega
      rcases ih u v t' hsort2 hpos2 hts2 htp2 hsum2 hlex2 with heq | hlex3
      · left
        rw [List.cons_append, heq]
      · right
        exact List.Lex.cons hlex3

/-! Termination of the `rule_asc` outer loop: the base-(n+1) value of the
state, padded to length `n`, strictly increases at every step and is bounded
by `(n+1)^n`, so the fuel `ruleAscFuel n` always suffices. -/

def W0 (B : Nat) (l : List Nat) : Nat := l.foldl (fun acc x => acc * B + x) 0

def Wn (n : Nat) (p : List Nat) : Nat := W0 (n + 1) p * (n + 1) ^ (n - p.length)

theorem W0_foldl_init (B : Nat) :
    ∀ (l : List Nat), ∀ (s : Nat),
      l.foldl (fun acc x => acc * B + x) s = s * B ^ l.length + W0 B l := by
  intro l
  induction l with
  | nil => intro s; simp [W0]
  | cons x l ih =>
    intro s
    simp only [List.foldl_cons, List.length_cons]
    rw [ih (s * B + x)]
    have hx : W0 B (x :: l) = x * B ^ l.length + W0 B l := by
      simp only [W0, List.foldl_cons]
      rw [show 0 * B + x = x from by ring]
      exact ih x
    rw [hx]
    ring

theorem W0_cons (B x : Nat) (l : List Nat) :
    W0 B (x :: l) = x * B ^ l.length + W0 B l := by
  simp only [W0, List.foldl_cons]
  rw [show 0 * B + x = x from by ring]
  have h := W0_foldl_init B l x
  simp only [W0] at h
  exact h

theorem W0_pair (B u v : Nat) : W0 B [u, v] = u * B + v := by
  simp only [W0, List.foldl_cons, List.foldl_nil]
  ring

theorem W0_append (B : Nat) (a b : List Nat) :
    W0 B (a ++ b) = W0 B a * B ^ b.length + W0 B b := by
  have h := W0_foldl_init B b (W0 B a)
  simp only [W0] at h ⊢
  rw [List.foldl_append]
  exact h

theorem W0_lt (B : Nat) (hB : 1 ≤ B) :
    ∀ (l : List Nat), (∀ x ∈ l, x < B) → W0 B l < B ^ l.length := by
  intro l
  induction l with
  | nil => intro _; simp [W0]
  | cons x l ih =>
    intro hx
    rw [W0_cons]
    have h1 : W0 B l < B ^ l.length := ih (fun e he => hx e (by simp [he]))
    have h2 : x + 1 ≤ B := hx x (by simp)
    calc x * B ^ l.length + W0 B l < x * B ^ l.length + B ^ l.length := by omega
      _ = (x + 1) * B ^ l.length := by ring
      _ ≤ B * B ^ l.length := mul_le_mul_right' h2 _
      _ = B ^ (x :: l).length := by rw [List.length_cons, pow_succ]; ring

theorem mem_le_sum (l : List Nat) (x : Nat) (hx : x ∈ l) : x ≤ l.sum := by
  induction l with
  | nil => simp at hx
  | cons a l ih =>
    simp only [List.sum_cons]
    rcases List.mem_cons.mp hx with h | h
    · omega
    · have := ih h
      omega

theorem length_le_sum (l : List Nat) (h : ∀ x ∈ l, 1 ≤ x) : l.length ≤ l.sum := by
  induction l with
  | nil => simp
  | cons x l ih =>
    simp only [List.length_cons, List.sum_cons]
    have h1 := ih (fun e he => h e (by simp [he]))
    have h2 := h x (by simp)
    omega

theorem pow_step_lt (B Wq u v c m0 ep es : Nat)
    (hB : v < B) (h1 : m0 + es = ep + 1) (hc : (u + 1) * B ^ m0 ≤ c) :
    (Wq * B ^ 2 + (u * B + v)) * B ^ ep < (Wq * B ^ (m0 + 1) + c) * B ^ es := by
  have hBpos : 0 < B := by omega
  have hpe : 0 < B ^ ep := pow_pos hBpos ep
  have h3 : v * B ^ ep < B * B ^ ep := mul_lt_mul_of_pos_right hB hpe
  calc (Wq * B ^ 2 + (u * B + v)) * B ^ ep
      = Wq * B ^ (ep + 2) + u * B ^ (ep + 1) + v * B ^ ep := by ring
    _ < Wq * B ^ (ep + 2) + u * B ^ (ep + 1) + B * B ^ ep := by omega
    _ = Wq * B ^ (ep + 2) + (u + 1) * B ^ (ep + 1) := by ring
    _ = Wq * B ^ (m0 + 1 + es) + (u + 1) * B ^ (m0 + es) := by
        rw [h1, show m0 + 1 + es = ep + 2 from by omega]
    _ = (Wq * B ^ (m0 + 1) + (u + 1) * B ^ m0) * B ^ es := by ring
    _ ≤ (Wq * B ^ (m0 + 1) + c) * B ^ es := mul_le_mul_right' (by omega) _

/-- One outer-loop step strictly increases the padded base-(n+1) value of the
state. -/
theorem step_W_lt (n : Nat) (q : List Nat) (u v : Nat)
    (hInv : PartInv n (q ++ [u, v])) :
    Wn n (q ++ [u, v]) < Wn n (q ++ ruleAscInner u (v - 1)) := by
  obtain ⟨hsum, hpos, hsort⟩ := hInv
  have hInv2 : PartInv n (q ++ ruleAscInner u (v - 1)) :=
    step_preserves n q u v ⟨hsum, hpos, hsort⟩
  have hv : v ≤ n := by
    have h := mem_le_sum (q ++ [u, v]) v (by simp)
    omega
  have hlen1 : q.length + 2 ≤ n := by
    have h := length_le_sum (q ++ [u, v]) hpos
    rw [hsum] at h
    simpa using h
  obtain ⟨h, t0, hin⟩ : ∃ h t0, ruleAscInner u (v - 1) = h :: t0 := by
    cases hc : ruleAscInner u (v - 1) with
    | nil => exact absurd hc (ruleAscInner_ne_nil u (v - 1))
    | cons h t0 => exact ⟨h, t0, rfl⟩
  have hh : u + 1 ≤ h := ruleAscInner_mem_ge u (v - 1) h (by rw [hin]; simp)
  have hlen2 : q.length + (t0.length + 1) ≤ n := by
    have h2 := length_le_sum (q ++ ruleAscInner u (v - 1)) hInv2.2.1
    rw [hInv2.1, hin] at h2
    simpa using h2
  have hWin : (u + 1) * (n + 1) ^ t0.length ≤ W0 (n + 1) (ruleAscInner u (v - 1)) := by
    rw [hin, W0_cons]
    have := mul_le_mul_right' hh ((n + 1) ^ t0.length)
    omega
  have key := pow_step_lt (n + 1) (W0 (n + 1) q) u v
      (W0 (n + 1) (ruleAscInner u (v - 1)))
      t0.length (n - (q.length + 2)) (n - (q.length + (t0.length + 1)))
      (by omega) (by omega) hWin
  unfold Wn
  rw [W0_append, W0_append, W0_pair]
  have hl1 : (q ++ [u, v]).length = q.length + 2 := by simp
  have hl2 : (q ++ ruleAscInner u (v - 1)).length = q.length + (t0.length + 1) := by
    rw [List.length_append, hin]
    simp
  have hl3 : ([u, v] : List Nat).length = 2 := rfl
  have hl4 : (ruleAscInner u (v - 1)).length = t0.length + 1 := by rw [hin]; simp
  rw [hl1, hl2, hl3, hl4]
  exact key

theorem Wn_lt_bound (n : Nat) (p : List Nat) (hInv : PartInv n p) :
    Wn n p < (n + 1) ^ n := by
  obtain ⟨hsum, hpos, _⟩ := hInv
  have hlp : p.length ≤ n := by
    have := length_le_sum p hpos
    omega
  have hW := W0_lt (n + 1) (by omega) p (fun x hx => by
    have h1 := mem_le_sum p x hx
    omega)
  unfold Wn
  calc W0 (n + 1) p * (n + 1) ^ (n - p.length)
      < (n + 1) ^ p.length * (n + 1) ^ (n - p.length) :=
        mul_lt_mul_of_pos_right hW (pow_pos (by omega) _)
    _ = (n + 1) ^ n := by rw [← pow_add]; congr 1; omega

/-- The fuel-driven run always completes when given fuel exceeding the
remaining measure headroom. -/
theorem run_total (n : Nat) :
    ∀ (f : Nat) (p : List Nat), PartInv n p →
      (n + 1) ^ n < Wn n p + f → ∃ L, ruleAscRun f p = some L := by
  intro f
  induction f with
  | zero =>
    intro p hInv hb
    exact absurd hb (by have := Wn_lt_bound n p hInv; omega)
  | succ f ih =>
    intro p hInv hb
    rw [ruleAscRun]
    by_cases h1 : p.length ≤ 1
    · rw [if_pos h1]
      exact ⟨[], rfl⟩
    · rw [if_neg h1]
      obtain ⟨q, u, v, rfl⟩ := exists_append_two p (by omega)
      rw [ruleAscStep_append]
      by_cases h2 : (q ++ ruleAscInner u (v - 1)).length ≤ 1
      · rw [if_pos h2]
        exact ⟨[], rfl⟩
      · rw [if_neg h2]
        have hInv1 := step_preserves n q u v hInv
        have hW := step_W_lt n q u v hInv
        obtain ⟨L, hL⟩ := ih (q ++ ruleAscInner u (v - 1)) hInv1 (by omega)
        rw [hL]
        exact ⟨_, rfl⟩

/-- Every yielded state is lexicographically above the state the run started
from. -/
theorem run_yields_gt (n : Nat) :
    ∀ (f : Nat) (p : List Nat) (L : List (List Nat)), PartInv n p → 2 ≤ p.length →
      ruleAscRun f p = some L → ∀ x ∈ L, List.Lex (· < ·) p x := by
  intro f
  induction f with
  | zero =>
    intro p L _ _ h
    simp [ruleAscRun] at h
  | succ f ih =>
    intro p L hInv hlen hrun
    rw [ruleAscRun] at hrun
    rw [if_neg (by omega)] at hrun
    obtain ⟨q, u, v, rfl⟩ := exists_append_two p hlen
    rw [ruleAscStep_append] at hrun
    have hgt := step_lex_gt q u v
    by_cases h2 : (q ++ ruleAscInner u (v - 1)).length ≤ 1
    · rw [if_pos h2] at hrun
      injection hrun with h
      subst h
      intro x hx
      simp at hx
    · rw [if_neg h2] at hrun
      cases hrest : ruleAscRun f (q ++ ruleAscInner u (v - 1)) with
      | none => rw [hrest] at hrun; exact absurd hrun (by simp)
      | some rest =>
        rw [hrest] at hrun
        injection hrun with h
        subst h
        intro x hx
        rcases List.mem_cons.mp hx with h | h
        · subst h
          exact hgt
        · have h3 := ih (q ++ ruleAscInner u (v - 1)) rest
            (step_preserves n q u v hInv) (by omega) hrest x h
          exact Trans.trans hgt h3

/-- The yielded states of a run are pairwise lexicographically increasing. -/
theorem run_pairwise (n : Nat) :
    ∀ (f : Nat) (p : List Nat) (L : List (List Nat)), PartInv n p → 2 ≤ p.length →
      ruleAscRun f p = some L → L.Pairwise (List.Lex (· < ·)) := by
  intro f
  induction f with
  | zero =>
    intro p L _ _ h
    simp [ruleAscRun] at h
  | succ f ih =>
    intro p L hInv hlen hrun
    rw [ruleAscRun] at hrun
    rw [if_neg (by omega)] at hrun
    obtain ⟨q, u, v, rfl⟩ := exists_append_two p hlen
    rw [ruleAscStep_append] at hrun
    by_cases h2 : (q ++ ruleAscInner u (v - 1)).length ≤ 1
    · rw [if_pos h2] at hrun
      injection hrun with h
      subst h
      simp
    · rw [if_neg h2] at hrun
      cases hrest : ruleAscRun f (q ++ ruleAscInner u (v - 1)) with
      | none => rw [hrest] at hrun; exact absurd hrun (by simp)
      | some rest =>
        rw [hrest] at hrun
        injection hrun with h
        subst h
        refine List.Pairwise.cons ?_ ?_
        · exact run_yields_gt n f _ rest (step_preserves n q u v hInv) (by omega) hrest
        · exact ih _ rest (step_preserves n q u v hInv) (by omega) hrest

/-- Completeness of the run: every valid partition state lexicographically
above the current one gets yielded. -/
theorem run_complete (n : Nat) :
    ∀ (f : Nat) (p : List Nat) (L : List (List Nat)), PartInv n p → 2 ≤ p.length →
      ruleAscRun f p = some L →
      ∀ t, PartInv n t → 2 ≤ t.length → List.Lex (· < ·) p t → t ∈ L := by
  intro f
  induction f with
  | zero =>
    intro p L _ _ h
    simp [ruleAscRun] at h
  | succ f ih =>
    intro p L hInv hlen hrun t ht htlen hlex
    rw [ruleAscRun] at hrun
    rw [if_neg (by omega)] at hrun
    obtain ⟨q, u, v, rfl⟩ := exists_append_two p hlen
    rw [ruleAscStep_append] at hrun
    obtain ⟨hsum, hpos, hsort⟩ := hInv
    have hmin := step_minimal q u v t hsort hpos ht.2.2 ht.2.1 (by rw [ht.1, hsum]) hlex
    by_cases h2 : (q ++ ruleAscInner u (v - 1)).length ≤ 1
    · exfalso
      have hInv1 := step_preserves n q u v ⟨hsum, hpos, hsort⟩
      obtain ⟨w, hw⟩ : ∃ w, q ++ ruleAscInner u (v - 1) = [w] := by
        cases hc : q ++ ruleAscInner u (v - 1) with
        | nil =>
          rw [List.append_eq_nil] at hc
          exact absurd hc.2 (ruleAscInner_ne_nil u (v - 1))
        | cons a l =>
          cases l with
          | nil => exact ⟨a, rfl⟩
          | cons b l2 => rw [hc] at h2; simp at h2
      have hwn : w = n := by
        have hs := hInv1.1
        rw [hw] at hs
        simpa using hs
      rcases hmin with heq | hlex2
      · rw [heq] at hw
        rw [hw] at htlen
        simp at htlen
      · rw [hw, hwn] at hlex2
        exact no_lex_gt_total n t ht.2.1 ht.1 hlex2
    · rw [if_neg h2] at hrun
      cases hrest : ruleAscRun f (q ++ ruleAscInner u (v - 1)) with
      | none => rw [hrest] at hrun; exact absurd hrun (by simp)
      | some rest =>
        rw [hrest] at hrun
        injection hrun with h
        subst h
        rcases hmin with heq | hlex2
        · rw [heq]
          simp
        · have hmem := ih _ rest (step_preserves n q u v ⟨hsum, hpos, hsort⟩) (by omega)
            hrest t ht htlen hlex2
          exact List.mem_cons_of_mem _ hmem

/-- The full run behind `partition n` (for `n ≥ 2`) completes and begins with
the all-ones partition. -/
theorem partition_run (n : Nat) (hn : 2 ≤ n) :
    ∃ L', ruleAscRun ((n + 1) ^ n + 1) (List.replicate n 1) = some L' ∧
      partition n = List.replicate n 1 :: L' ∧
      ruleAscRun (ruleAscFuel n) [0, n] = some (List.replicate n 1 :: L') := by
  obtain ⟨L', hL'⟩ := run_total n ((n + 1) ^ n + 1) (List.replicate n 1)
    (PartInv_replicate n) (by omega)
  have hfull : ruleAscRun (ruleAscFuel n) [0, n] = some (List.replicate n 1 :: L') := by
    have hf : ruleAscFuel n = ((n + 1) ^ n + 1) + 1 := by unfold ruleAscFuel; omega
    rw [hf, ruleAscRun]
    rw [if_neg (by simp)]
    rw [show ruleAscStep [0, n] = List.replicate n 1 from ruleAscStep_init n (by omega)]
    rw [if_neg (by rw [List.length_replicate]; omega)]
    rw [hL']
  refine ⟨L', hL', ?_, hfull⟩
  unfold partition
  rw [if_pos (by omega), hfull]
  rfl

theorem replicate_min (n : Nat) (hn : 1 ≤ n) (t : List Nat) (hne : t ≠ [])
    (hsort : t.Sorted (· ≤ ·)) (hpos : ∀ e ∈ t, 1 ≤ e) (hsum : t.sum = n) :
    List.replicate n 1 = t ∨ List.Lex (· < ·) (List.replicate n 1) t := by
  have h0 : ruleAscInner 0 (n - 1) = List.replicate n 1 := by
    have h1 := ruleAscStep_append [] 0 n
    simp only [List.nil_append] at h1
    rw [← h1]
    exact ruleAscStep_init n hn
  rw [← h0]
  exact ruleAscInner_min 0 t (n - 1) hne hsort
    (fun e he => by have := hpos e he; omega) (by omega)

theorem valid_ne_single_len (n : Nat) (t : List Nat) (hpos : ∀ e ∈ t, 1 ≤ e)
    (hsum : t.sum = n) (hne : t ≠ [n]) (hn : 1 ≤ n) : 2 ≤ t.length := by
  cases t with
  | nil => simp at hsum; omega
  | cons a l =>
    cases l with
    | nil =>
      simp at hsum
      exact absurd (by rw [hsum]) hne
    | cons b l2 => simp

/-- **C7.** For every `n > 1`, `partition(n)` terminates (the generator run
completes within its fuel, so the yielded sequence is finite) and yields
exactly the ascending lists of positive integers summing to `n` other than
the single-part partition `[n]`, in strictly increasing lexicographic
order. -/
theorem C7_partition_generator (n : Nat) (hn : 2 ≤ n) :
    (∃ L, ruleAscRun (ruleAscFuel n) [0, n] = some L) ∧
    (∀ t : List Nat, t ∈ partition n ↔
      (t.sum = n ∧ (∀ e ∈ t, 1 ≤ e) ∧ t.Sorted (· ≤ ·) ∧ t ≠ [n])) ∧
    (partition n).Pairwise (List.Lex (· < ·)) := by
  obtain ⟨L', hL', hpart, hfull⟩ := partition_run n hn
  refine ⟨⟨_, hfull⟩, ?_, ?_⟩
  · intro t
    constructor
    · intro ht
      obtain ⟨h1, h2, h3, h4⟩ := partition_sound n t ht
      refine ⟨h1, h2, h3, ?_⟩
      intro hcon
      rw [hcon] at h4
      simp at h4
    · rintro ⟨h1, h2, h3, h4⟩
      have htlen : 2 ≤ t.length := valid_ne_single_len n t h2 h1 h4 (by omega)
      have hne : t ≠ [] := by
        intro hcon
        rw [hcon] at htlen
        simp at htlen
      rcases replicate_min n (by omega) t hne h3 h2 h1 with heq | hlex
      · rw [hpart, ← heq]
        simp
      · have hmem := run_complete n ((n + 1) ^ n + 1) (List.replicate n 1) L'
          (PartInv_replicate n) (by rw [List.length_replicate]; omega) hL'
          t ⟨h1, h2, h3⟩ htlen hlex
        rw [hpart]
        exact List.mem_cons_of_mem _ hmem
  · rw [hpart]
    refine List.Pairwise.cons ?_ ?_
    · exact run_yields_gt n ((n + 1) ^ n + 1) (List.replicate n 1) L'
        (PartInv_replicate n) (by rw [List.length_replicate]; omega) hL'
    · exact run_pairwise n ((n + 1) ^ n + 1) (List.replicate n 1) L'
        (PartInv_replicate n) (by rw [List.length_replicate]; omega) hL'

/-! ### Shape rank/unrank machinery: basic bounds and inversions -/

theorem int_prod_ge_one (l : List Int) (h : ∀ x ∈ l, 1 ≤ x) : 1 ≤ l.prod := by
  induction l with
  | nil => simp
  | cons a l ih =>
    simp only [List.prod_cons]
    have h1 := h a (by simp)
    have h2 := ih (fun x hx => h x (by simp [hx]))
    nlinarith

theorem num_tree_pairings_ge_one (part : List Nat) : 1 ≤ num_tree_pairings part := by
  unfold num_tree_pairings
  apply int_prod_ge_one
  intro x hx
  simp only [List.mem_map] at hx
  obtain ⟨g, _, rfl⟩ := hx
  exact Combination.cwr_pos _ _

theorem unrank_sublist_any :
    ∀ (l : List α) (k : Nat) (r : Int), (Combination.unrank r l k).Sublist l := by
  intro l
  induction l with
  | nil =>
    intro k r
    cases k <;> simp [Combination.unrank]
  | cons e rest ih =>
    intro k r
    cases k with
    | zero => simp [Combination.unrank]
    | succ k =>
      rw [Combination.unrank_cons]
      by_cases hc : r < Combination.comb ((rest.length : Int)) ((k : Int))
      · rw [if_pos hc]
        exact List.Sublist.cons₂ e (ih k r)
      · rw [if_neg hc]
        exact List.Sublist.cons e (ih (k + 1) _)

theorem unrank_zero_take : ∀ (l : List α) (k : Nat), Combination.unrank 0 l k = l.take k := by
  intro l
  induction l with
  | nil => intro k; cases k <;> rfl
  | cons e rest ih =>
    intro k
    cases k with
    | zero => rfl
    | succ k =>
      rw [Combination.unrank_cons,
        if_pos (by have := Combination.comb_pos ((rest.length : Int)) ((k : Int)); omega)]
      rw [ih, List.take_succ_cons]

theorem exceptMapList_congr (f g : α → Except PyErr β) (l : List α)
    (h : ∀ a ∈ l, f a = g a) : exceptMapList f l = exceptMapList g l := by
  induction l with
  | nil => rfl
  | cons a as ih =>
    rw [exceptMapList, exceptMapList, h a (by simp), ih (fun b hb => h b (by simp [hb]))]

theorem exceptMapList_ok_of (f : α → Except PyErr β) (g : α → β) (l : List α)
    (h : ∀ a ∈ l, f a = Except.ok (g a)) : exceptMapList f l = Except.ok (l.map g) := by
  induction l with
  | nil => rfl
  | cons a as ih =>
    rw [exceptMapList, h a (by simp), ih (fun b hb => h b (by simp [hb]))]
    rfl

theorem priorPairings_nonneg (part : List Nat) :
    ∀ L : List (List Nat), 0 ≤ priorPairings part L := by
  intro L
  induction L with
  | nil => simp [priorPairings]
  | cons p ps ih =>
    rw [priorPairings]
    by_cases h : p = part
    · simp [h]
    · rw [if_neg h]
      have := num_tree_pairings_ge_one p
      omega

theorem priorPairings_le_sum (part : List Nat) :
    ∀ L : List (List Nat), part ∈ L →
      priorPairings part L + num_tree_pairings part ≤ (L.map num_tree_pairings).sum := by
  intro L
  induction L with
  | nil => intro h; simp at h
  | cons p ps ih =>
    intro hmem
    rw [priorPairings]
    simp only [List.map_cons, List.sum_cons]
    by_cases h : p = part
    · rw [if_pos h, h]
      have : 0 ≤ (ps.map num_tree_pairings).sum :=
        List.sum_nonneg (by
          intro x hx
          simp only [List.mem_map] at hx
          obtain ⟨q, _, rfl⟩ := hx
          have := num_tree_pairings_ge_one q
          omega)
      omega
    · rw [if_neg h]
      have hmem2 : part ∈ ps := by
        rcases List.mem_cons.mp hmem with hc | hc
        · exact absurd hc.symm h
        · exact hc
      have := ih hmem2
      omega

theorem csrFindPart_mem :
    ∀ (L : List (List Nat)) (r : Int) (p : List Nat) (r2 : Int),
      csrFindPart r L = some (p, r2) → p ∈ L := by
  intro L
  induction L with
  | nil => intro r p r2 h; simp [csrFindPart] at h
  | cons q qs ih =>
    intro r p r2 h
    rw [csrFindPart] at h
    by_cases hc : r < num_tree_pairings q
    · rw [if_pos hc] at h
      injection h with h2
      injection h2 with h3 h4
      simp [h3]
    · rw [if_neg hc] at h
      exact List.mem_cons_of_mem _ (ih _ p r2 h)

theorem csrFindPart_some :
    ∀ (L : List (List Nat)) (r : Int), 0 ≤ r → r < (L.map num_tree_pairings).sum →
      ∃ p r2, csrFindPart r L = some (p, r2) ∧ 0 ≤ r2 ∧ r2 < num_tree_pairings p := by
  intro L
  induction L with
  | nil =>
    intro r h0 hr
    simp at hr
    omega
  | cons q qs ih =>
    intro r h0 hr
    rw [csrFindPart]
    by_cases hc : r < num_tree_pairings q
    · exact ⟨q, r, by rw [if_pos hc], h0, hc⟩
    · rw [if_neg hc]
      refine ih (r - num_tree_pairings q) (by omega) ?_
      simp only [List.map_cons, List.sum_cons] at hr
      omega

theorem csrFindPart_exact :
    ∀ (L : List (List Nat)) (part : List Nat) (gr : Int), part ∈ L → 0 ≤ gr →
      gr < num_tree_pairings part →
      csrFindPart (priorPairings part L + gr) L = some (part, gr) := by
  intro L
  induction L with
  | nil => intro part gr h; simp at h
  | cons q qs ih =>
    intro part gr hmem h0 hlt
    rw [csrFindPart, priorPairings]
    by_cases h : q = part
    · rw [if_pos h]
      subst h
      rw [if_pos (by omega)]
      norm_num
    · rw [if_neg h]
      have hmem2 : part ∈ qs := by
        rcases List.mem_cons.mp hmem with hc | hc
        · exact absurd hc.symm h
        · exact hc
      have hp0 : 0 ≤ priorPairings part qs := priorPairings_nonneg part qs
      rw [if_neg (by omega)]
      rw [show num_tree_pairings q + priorPairings part qs + gr - num_tree_pairings q =
        priorPairings part qs + gr from by ring]
      exact ih part gr hmem2 h0 hlt

theorem csr_ok_inv (rank : Int) (n : Nat) (part ranks : List Nat)
    (h : children_shape_ranks rank n = Except.ok (part, ranks)) :
    part ∈ partition n ∧ 1 < n ∧ 0 ≤ rank ∧ rank < num_shapes n := by
  unfold children_shape_ranks at h
  by_cases h1 : n ≤ 1
  · rw [if_pos h1] at h
    exact absurd h (by simp)
  · rw [if_neg h1] at h
    by_cases h2 : 0 ≤ rank ∧ rank < num_shapes n
    · rw [if_neg (by simpa using h2)] at h
      cases hf : csrFindPart rank (partition n) with
      | none =>
        rw [hf] at h
        exact absurd h (by simp)
      | some p =>
        obtain ⟨p1, r2⟩ := p
        rw [hf] at h
        injection h with h3
        injection h3 with h4 h5
        refine ⟨?_, by omega, h2.1, h2.2⟩
        rw [← h4]
        exact csrFindPart_mem _ _ _ _ hf
    · rw [if_pos (by simpa using h2)] at h
      exact absurd h (by simp)

theorem shape_unrankGo_congr :
    ∀ (m fuel1 fuel2 : Nat) (r : Int) (n : Nat), n ≤ m → n < fuel1 → n < fuel2 →
      RankTree.shape_unrankGo fuel1 r n = RankTree.shape_unrankGo fuel2 r n := by
  intro m
  induction m with
  | zero =>
    intro fuel1 fuel2 r n hm h1 h2
    obtain ⟨f1, rfl⟩ : ∃ f1, fuel1 = f1 + 1 := ⟨fuel1 - 1, by omega⟩
    obtain ⟨f2, rfl⟩ : ∃ f2, fuel2 = f2 + 1 := ⟨fuel2 - 1, by omega⟩
    have hn : n = 0 := by omega
    subst hn
    rfl
  | succ m ih =>
    intro fuel1 fuel2 r n hm h1 h2
    obtain ⟨f1, rfl⟩ : ∃ f1, fuel1 = f1 + 1 := ⟨fuel1 - 1, by omega⟩
    obtain ⟨f2, rfl⟩ : ∃ f2, fuel2 = f2 + 1 := ⟨fuel2 - 1, by omega⟩
    rw [RankTree.shape_unrankGo, RankTree.shape_unrankGo]
    by_cases hn1 : n = 1
    · simp [hn1]
    · rw [if_neg hn1, if_neg hn1]
      cases hcsr : children_shape_ranks r n with
      | error e => rfl
      | ok p =>
        obtain ⟨part, ranks⟩ := p
        have hmem := (csr_ok_inv r n part ranks hcsr).1
        have hlt := partition_mem_lt n part hmem
        dsimp only
        have hcong : exceptMapList (fun rk => RankTree.shape_unrankGo f1 ((rk.1 : Int)) rk.2)
            (ranks.zip part) =
            exceptMapList (fun rk => RankTree.shape_unrankGo f2 ((rk.1 : Int)) rk.2)
              (ranks.zip part) := by
          apply exceptMapList_congr
          intro a ha
          obtain ⟨rk, k⟩ := a
          have hk : k ∈ part := (List.of_mem_zip ha).2
          have hklt := hlt k hk
          exact ih f1 f2 (rk : Int) k (by omega) (by omega) (by omega)
        rw [hcong]

theorem shape_unrankGo_eq (fuel : Nat) (r : Int) (n : Nat) (h : n < fuel) :
    RankTree.shape_unrankGo fuel r n = RankTree.shape_unrank r n :=
  shape_unrankGo_congr n fuel (n + 1) r n (le_refl n) h (by omega)

theorem num_shapes_pos (n : Nat) (h : 1 ≤ n) : 1 ≤ num_shapes n := by
  rcases Nat.lt_or_ge n 2 with h2 | h2
  · have : n = 1 := by omega
    subst this
    decide
  · rw [num_shapes_eq_sum n h2]
    obtain ⟨L2, _, hpart, _⟩ := partition_run n h2
    rw [hpart]
    simp only [List.map_cons, List.sum_cons]
    have h3 := num_tree_pairings_ge_one (List.replicate n 1)
    have h4 : 0 ≤ (L2.map num_tree_pairings).sum :=
      List.sum_nonneg (by
        intro x hx
        simp only [List.mem_map] at hx
        obtain ⟨q, _, rfl⟩ := hx
        have := num_tree_pairings_ge_one q
        omega)
    omega

theorem cwr_one_left (k : Nat) : Combination.comb_with_replacement 1 (k : Int) = 1 := by
  unfold Combination.comb_with_replacement
  rw [show (1 : Int) + (k : Int) - 1 = ((k : Nat) : Int) from by push_cast; ring]
  exact Combination.comb_self k

/-- The full search sum of the `with_replacement_unrank` loop: summing the
window widths over all `n` start offsets reaches the total count. -/
theorem wrB_total (n : Nat) (k1 : Nat) (hn : 1 ≤ n) :
    Combination.wrB (n : Int) k1 0 n =
      Combination.comb_with_replacement (n : Int) ((k1 : Int) + 1) := by
  obtain ⟨m, rfl⟩ : ∃ m, n = m + 1 := ⟨n - 1, by omega⟩
  have hid := Combination.wrPreceding_identity (m + 1) k1 m (by omega)
  have hA := Combination.wrPreceding_eq_wrB ((m + 1 : Nat) : Int) k1 m
  have hlast : Combination.wrB ((m + 1 : Nat) : Int) k1 0 (m + 1) =
      Combination.wrB ((m + 1 : Nat) : Int) k1 0 m +
        Combination.comb_with_replacement (((m + 1 : Nat) : Int) - ((0 : Nat) + (m : Int))) (k1 : Int) := by
    have := Combination.wrB_succ_last ((m + 1 : Nat) : Int) k1 m 0
    rw [this]
  rw [hlast, ← hA]
  have h1 : (((m + 1 : Nat) : Int) - ((0 : Nat) + (m : Int))) = 1 := by push_cast; ring
  rw [h1]
  have h2 : Combination.comb_with_replacement 1 (k1 : Int) = 1 := cwr_one_left k1
  have h3 : Combination.comb_with_replacement (((m + 1 : Nat) : Int) - (m : Int)) ((k1 : Int) + 1) = 1 := by
    rw [show (((m + 1 : Nat) : Int) - (m : Int)) = 1 from by push_cast; ring]
    rw [show ((k1 : Int) + 1) = (((k1 + 1 : Nat) : Nat) : Int) from by push_cast; ring]
    exact cwr_one_left (k1 + 1)
  push_cast at hid h2 h3 ⊢
  omega

/-- Validity of `with_replacement_unrank` on in-range ranks: the output is a
sorted list of `k` values below `n`. -/
theorem wru_valid :
    ∀ (k : Nat) (n : Nat) (r : Int), 1 ≤ n → 0 ≤ r →
      r < Combination.comb_with_replacement (n : Int) (k : Int) →
      (Combination.with_replacement_unrank r (n : Int) k).Sorted (· ≤ ·) ∧
        (∀ x ∈ Combination.with_replacement_unrank r (n : Int) k, x < n) := by
  intro k
  induction k with
  | zero =>
    intro n r hn h0 hr
    exact ⟨List.sorted_nil, by simp [Combination.with_replacement_unrank]⟩
  | succ k ih =>
    intro n r hn h0 hr
    rw [Combination.with_replacement_unrank]
    obtain ⟨j, hloop, hw1, hw2⟩ :=
      Combination.wruLoop_spec (n : Int) k (r.toNat + 1) r 0 h0 (by push_cast; omega)
    rw [hloop]
    simp only [Nat.zero_add] at hw2 ⊢
    have hjn : j < n := by
      by_contra hge
      push_neg at hge
      have hmono := Combination.wrB_mono_le (n : Int) k j n 0 hge
      have htot := wrB_total n k hn
      have hr2 : Combination.wrB (n : Int) k 0 j ≤ r := by omega
      have : (k : Int) + 1 = ((k + 1 : Nat) : Int) := by push_cast; ring
      rw [this] at htot
      omega
    have hw2a : r - Combination.wrB (n : Int) k 0 j <
        Combination.comb_with_replacement (((n - j : Nat) : Int)) (k : Int) := by
      have hcast : (n : Int) - ((0 : Nat) + (j : Int)) = ((n - j : Nat) : Int) := by
        push_cast [Nat.cast_sub (le_of_lt hjn)]
        ring
      rw [← hcast]
      convert hw2 using 3
    obtain ⟨hsort, hbound⟩ := ih (n - j) (r - Combination.wrB (n : Int) k 0 j)
      (by omega) (by omega) hw2a
    have hres : Combination.with_replacement_unrank (r - Combination.wrB (n : Int) k 0 j)
        ((n : Int) - (j : Int)) k =
        Combination.with_replacement_unrank (r - Combination.wrB (n : Int) k 0 j)
          (((n - j : Nat) : Int)) k := by
      congr 1
      push_cast [Nat.cast_sub (le_of_lt hjn)]
      ring
    constructor
    · rw [List.sorted_cons]
      constructor
      · intro b hb
        simp only [List.mem_map] at hb
        obtain ⟨x, _, rfl⟩ := hb
        omega
      · rw [hres]
        exact List.Pairwise.map _ (fun a b (hab : a ≤ b) => by omega) hsort
    · intro x hx
      rcases List.mem_cons.mp hx with h | h
      · omega
      · simp only [List.mem_map] at h
        obtain ⟨y, hy, rfl⟩ := h
        rw [hres] at hy
        have := hbound y hy
        omega

theorem radix_div (q r R : Int) (h0 : 0 ≤ r) (hR : r < R) :
    (q * R + r) / R = q ∧ (q * R + r) % R = r := by
  constructor
  · rw [show q * R + r = r + q * R from by ring, Int.add_mul_ediv_right r q (by omega : R ≠ 0),
      Int.ediv_eq_zero_of_lt h0 hR]
    ring
  · rw [show q * R + r = r + q * R from by ring, Int.add_mul_emod_self,
      Int.emod_eq_of_lt h0 hR]

theorem dropWhile_head_false (p : α → Bool) :
    ∀ (l : List α) (x : α) (xs : List α), l.dropWhile p = x :: xs → p x = false := by
  intro l
  induction l with
  | nil => intro x xs h; simp [List.dropWhile] at h
  | cons a as ih =>
    intro x xs h
    rw [List.dropWhile_cons] at h
    by_cases hp : p a = true
    · rw [if_pos hp] at h
      exact ih x xs h
    · rw [if_neg hp] at h
      injection h with h1 h2
      subst h1
      simpa using hp

/-- Splitting the pairing count of an ascending partition at its first group:
the group of parts equal to the head `k` contributes one multichoose factor. -/
theorem num_tree_pairings_cons (k : Nat) (t : List Nat) :
    num_tree_pairings (k :: t) =
      Combination.comb_with_replacement (num_shapes k)
        (((t.takeWhile (fun y => decide (y = k))).length : Int) + 1) *
        num_tree_pairings (t.dropWhile (fun y => decide (y = k))) := by
  show ((group_partition (k :: t)).map (fun g =>
      Combination.comb_with_replacement (num_shapes (g.headD 0)) (g.length : Int))).prod = _
  unfold group_partition
  rw [group_by_cons]
  simp only [List.map_cons, List.prod_cons, List.headD_cons, List.length_cons]
  have hc : (((t.takeWhile (fun y => decide (y = k))).length + 1 : Nat) : Int) =
      ((t.takeWhile (fun y => decide (y = k))).length : Int) + 1 := by push_cast; ring
  rw [hc]
  rfl

/-- Sibling sort key order at the shape level: leaf counts ascending, and
shape ranks ascending within equal leaf counts. -/
def keyLe (a b : Nat × Nat) : Prop := a.1 < b.1 ∨ (a.1 = b.1 ∧ a.2 ≤ b.2)

/-- Validity of the `children_shape_ranks` group loop on in-range remainder
ranks: one shape rank per part, each within range for its part, and the
`(part, rank)` pairs are sorted by `keyLe`. -/
theorem csrGroups_valid :
    ∀ (m : Nat) (part : List Nat) (r2 : Int), part.length ≤ m →
      part.Sorted (· ≤ ·) → (∀ x ∈ part, 1 ≤ x) → 0 ≤ r2 → r2 < num_tree_pairings part →
      (csrGroups r2 part (group_partition part)).length = part.length ∧
        (∀ p ∈ part.zip (csrGroups r2 part (group_partition part)),
          (p.2 : Int) < num_shapes p.1) ∧
        (part.zip (csrGroups r2 part (group_partition part))).Pairwise keyLe := by
  intro m
  induction m with
  | zero =>
    intro part r2 hlen _ _ _ _
    have : part = [] := List.eq_nil_of_length_eq_zero (by omega)
    subst this
    refine ⟨rfl, by simp, by simp⟩
  | succ m ih =>
    intro part r2 hlen hsort hpos h0 hr
    cases part with
    | nil => refine ⟨rfl, by simp, by simp⟩
    | cons k t =>
      set run := t.takeWhile (fun y => decide (y = k)) with hrun
      set rest := t.dropWhile (fun y => decide (y = k)) with hrest
      have htr : run ++ rest = t := by
        rw [hrun, hrest]
        exact List.takeWhile_append_dropWhile _ _
      have hrunk : ∀ x ∈ run, x = k := by
        intro x hx
        have := List.mem_takeWhile_imp hx
        simpa using this
      have htmem : ∀ x ∈ t, k ≤ x := fun x hx => (List.sorted_cons.mp hsort).1 x hx
      have hrestgt : ∀ x ∈ rest, k < x := by
        intro x hx
        cases hrc : rest with
        | nil => rw [hrc] at hx; simp at hx
        | cons b bs =>
          have hb : ¬ (b = k) := by
            have := dropWhile_head_false (fun y => decide (y = k)) t b bs (by rw [← hrest, hrc])
            simpa using this
          have hbk : k ≤ b := htmem b (by rw [← htr, hrc]; simp)
          have hrs : rest.Sorted (· ≤ ·) := by
            have hts : t.Sorted (· ≤ ·) := (List.sorted_cons.mp hsort).2
            have : rest.Sublist t := by rw [hrest]; exact List.dropWhile_sublist _
            exact List.Pairwise.sublist this hts
          rw [hrc] at hrs hx
          rcases List.mem_cons.mp hx with hxx | hxx
          · omega
          · have := (List.sorted_cons.mp hrs).1 x hxx
            omega
      have hk1 : 1 ≤ k := hpos k (by simp)
      -- the partition grouping splits off the first run
      have hgp : group_partition (k :: t) = (k :: run) :: group_partition rest := by
        rw [hrun, hrest]
        unfold group_partition
        rw [group_by_cons]
      have hP := num_tree_pairings_ge_one rest
      have hpair := num_tree_pairings_cons k t
      rw [← hrun, ← hrest] at hpair
      rw [hgp]
      rw [csrGroups]
      simp only [List.headD_cons, List.length_cons]
      have hdrop : (k :: t).drop (run.length + 1) = rest := by
        have : (k :: t).drop (run.length + 1) = t.drop run.length := rfl
        rw [this, ← htr, List.drop_left]
      rw [hdrop]
      -- division bookkeeping
      have hq0 : 0 ≤ r2 / num_tree_pairings rest := Int.ediv_nonneg h0 (by omega)
      have hqlt : r2 / num_tree_pairings rest <
          Combination.comb_with_replacement (num_shapes k) ((run.length : Int) + 1) := by
        apply Int.ediv_lt_of_lt_mul (by omega)
        rw [← hpair]
        exact hr
      have hm0 : 0 ≤ r2 % num_tree_pairings rest := Int.emod_nonneg r2 (by omega)
      have hmlt : r2 % num_tree_pairings rest < num_tree_pairings rest :=
        Int.emod_lt_of_pos r2 (by omega)
      -- output of the with-replacement unrank for this group
      obtain ⟨S, hS⟩ : ∃ S : Nat, num_shapes k = (S : Nat) ∧ 1 ≤ S := by
        have h1 := num_shapes_pos k hk1
        exact ⟨(num_shapes k).toNat, by omega, by omega⟩
      have hq2 : r2 / num_tree_pairings rest <
          Combination.comb_with_replacement ((S : Int)) (((run.length + 1 : Nat)) : Int) := by
        rw [← hS.1]
        convert hqlt using 2
      obtain ⟨hwsort, hwlt⟩ := wru_valid (run.length + 1) S (r2 / num_tree_pairings rest)
        hS.2 hq0 hq2
      have hwlen := Combination.with_replacement_unrank_length
        (r2 / num_tree_pairings rest) (num_shapes k) (run.length + 1)
      -- recursive call on the remaining parts
      have hrests : rest.Sorted (· ≤ ·) := by
        have hts : t.Sorted (· ≤ ·) := (List.sorted_cons.mp hsort).2
        have : rest.Sublist t := by rw [hrest]; exact List.dropWhile_sublist _
        exact List.Pairwise.sublist this hts
      have hrestlen : rest.length ≤ m := by
        have h1 : rest.length ≤ t.length := by
          have : rest.Sublist t := by rw [hrest]; exact List.dropWhile_sublist _
          exact this.length_le
        simp only [List.length_cons] at hlen
        omega
      have hrestpos : ∀ x ∈ rest, 1 ≤ x := by
        intro x hx
        have := hrestgt x hx
        omega
      obtain ⟨ihlen, ihbound, ihpair⟩ := ih rest (r2 % num_tree_pairings rest)
        hrestlen hrests hrestpos hm0 hmlt
      -- assemble: the first block pairs each part `k` with a rank below `num_shapes k`
      set ranks1 := Combination.with_replacement_unrank (r2 / num_tree_pairings rest)
        (num_shapes k) (run.length + 1) with hranks1
      have hsplit : k :: t = (k :: run) ++ rest := by
        rw [List.cons_append, htr]
      have hzip : (k :: t).zip (ranks1 ++ csrGroups (r2 % num_tree_pairings rest) rest
          (group_partition rest)) =
          (k :: run).zip ranks1 ++ rest.zip (csrGroups (r2 % num_tree_pairings rest) rest
            (group_partition rest)) := by
        rw [hsplit]
        apply List.zip_append
        simp only [List.length_cons]
        omega
      have hS' : num_shapes k = (S : Int) := hS.1
      have hblockmem : ∀ p ∈ (k :: run).zip ranks1, p.1 = k ∧ p.2 ∈ ranks1 := by
        intro p hp
        obtain ⟨a, b⟩ := p
        have hmem := List.of_mem_zip hp
        refine ⟨?_, hmem.2⟩
        rcases List.mem_cons.mp hmem.1 with hc | hc
        · exact hc
        · exact hrunk a hc
      rw [hzip]
      refine ⟨?_, ?_, ?_⟩
      · simp only [List.length_append, List.length_cons]
        have hlen2 := congrArg List.length htr
        simp only [List.length_append] at hlen2
        omega
      · intro p hp
        rcases List.mem_append.mp hp with hc | hc
        · obtain ⟨hp1, hp2⟩ := hblockmem p hc
          rw [hp1, hS']
          have hp2a : p.2 ∈ Combination.with_replacement_unrank
              (r2 / num_tree_pairings rest) ((S : Int)) (run.length + 1) := by
            rw [← hS']
            exact hp2
          have := hwlt p.2 hp2a
          exact_mod_cast this
        · exact ihbound p hc
      · rw [List.pairwise_append]
        refine ⟨?_, ihpair, ?_⟩
        · -- within the first block: same part `k`, ranks sorted
          have hps : List.Pairwise (· ≤ ·) ranks1 := by
            rw [hranks1, hS']
            exact hwsort
          -- pairwise over the zip: all parts equal k
          have : ∀ (l1 : List Nat) (l2 : List Nat), (∀ x ∈ l1, x = k) →
              List.Pairwise (· ≤ ·) l2 → List.Pairwise keyLe (l1.zip l2) := by
            intro l1
            induction l1 with
            | nil => intro l2 _ _; simp
            | cons a l1 ihz =>
              intro l2 hall hp2
              cases l2 with
              | nil => simp
              | cons b l2 =>
                rw [List.zip_cons_cons]
                refine List.Pairwise.cons ?_ (ihz l2 (fun x hx => hall x (by simp [hx]))
                  (List.Pairwise.sublist (List.sublist_cons_self b l2) hp2))
                intro q hq
                obtain ⟨q1, q2⟩ := q
                have hmq := List.of_mem_zip hq
                have hq1 : q1 = k := hall q1 (by simp [hmq.1])
                have ha : a = k := hall a (by simp)
                right
                refine ⟨by rw [ha, hq1], ?_⟩
                have := (List.pairwise_cons.mp hp2).1 q2 hmq.2
                exact this
          exact this (k :: run) ranks1 (by
            intro x hx
            rcases List.mem_cons.mp hx with hc | hc
            · exact hc
            · exact hrunk x hc) hps
        · -- across the block boundary: later parts are strictly larger
          intro p hp q hq
          obtain ⟨hp1, _⟩ := hblockmem p hp
          obtain ⟨q1, q2⟩ := q
          have hmq := List.of_mem_zip hq
          left
          rw [hp1]
          exact hrestgt q1 hmq.1

theorem exceptMapList_ok_exists (f : α → Except PyErr β) :
    ∀ (l : List α), (∀ a ∈ l, ∃ b, f a = Except.ok b) →
      ∃ bs, exceptMapList f l = Except.ok bs ∧
        List.Forall₂ (fun a b => f a = Except.ok b) l bs := by
  intro l
  induction l with
  | nil => intro _; exact ⟨[], rfl, List.Forall₂.nil⟩
  | cons a as ih =>
    intro h
    obtain ⟨b, hb⟩ := h a (by simp)
    obtain ⟨bs, hbs, hall⟩ := ih (fun x hx => h x (by simp [hx]))
    refine ⟨b :: bs, ?_, List.Forall₂.cons hb hall⟩
    rw [exceptMapList, hb, hbs]

theorem mergeTwoGo_none : ∀ (f a b : Nat),
    mergeTwoGo f (List.replicate a none) (List.replicate b none) =
      List.replicate (a + b) (none : Option Nat) := by
  intro f
  induction f with
  | zero =>
    intro a b
    simp [mergeTwoGo, ← List.replicate_add]
  | succ f ih =>
    intro a b
    cases a with
    | zero => simp [mergeTwoGo.eq_def]
    | succ a =>
      cases b with
      | zero =>
        rw [mergeTwoGo.eq_def]
        simp [List.replicate_succ]
      | succ b =>
        rw [mergeTwoGo.eq_def]
        simp only [List.replicate_succ]
        have hle : optLe none none = true := rfl
        simp only [hle, if_true]
        rw [show (none :: List.replicate b (none : Option Nat)) =
          List.replicate (b + 1) (none : Option Nat) from rfl]
        rw [ih a (b + 1)]
        rw [show a + 1 + (b + 1) = (a + (b + 1)) + 1 from by omega]
        rfl

theorem mergeTwo_none (a b : Nat) :
    mergeTwo (List.replicate a none) (List.replicate b none) =
      List.replicate (a + b) (none : Option Nat) :=
  mergeTwoGo_none _ a b

mutual
theorem shapeOut_basic : ∀ t : RT, shapeOutB t = true →
    RankTree.labels t = List.replicate (RankTree.num_leaves t) none ∧
      1 ≤ RankTree.num_leaves t
  | RT.leaf l lr, h => by
    simp only [shapeOutB, Bool.and_eq_true, beq_iff_eq] at h
    rw [h.1]
    exact ⟨rfl, by simp [RankTree.num_leaves]⟩
  | RT.node cs sr lr, h => by
    simp only [shapeOutB, Bool.and_eq_true, beq_iff_eq, decide_eq_true_eq] at h
    obtain ⟨⟨⟨hlen, _⟩, _⟩, hcs⟩ := h
    have hL := shapeOut_basicL cs hcs
    refine ⟨?_, ?_⟩
    · show mergeAll (RankTree.labelsL cs) =
        List.replicate (RankTree.num_leavesL cs) (none : Option Nat)
      exact hL.1
    · show 1 ≤ RankTree.num_leavesL cs
      have := hL.2
      omega

theorem shapeOut_basicL : ∀ cs : List RT, shapeOutBL cs = true →
    mergeAll (RankTree.labelsL cs) =
        List.replicate (RankTree.num_leavesL cs) (none : Option Nat) ∧
      cs.length ≤ RankTree.num_leavesL cs
  | [], _ => ⟨rfl, by simp [RankTree.num_leavesL]⟩
  | c :: cs, h => by
    simp only [shapeOutBL, Bool.and_eq_true] at h
    have hc := shapeOut_basic c h.1
    have hcs := shapeOut_basicL cs h.2
    refine ⟨?_, ?_⟩
    · show mergeTwo (RankTree.labels c) (mergeAll (RankTree.labelsL cs)) =
        List.replicate (RankTree.num_leaves c + RankTree.num_leavesL cs) (none : Option Nat)
      rw [hc.1, hcs.1, mergeTwo_none]
    · show (c :: cs).length ≤ RankTree.num_leaves c + RankTree.num_leavesL cs
      simp only [List.length_cons]
      have h1 := hc.2
      have h2 := hcs.2
      omega
end

theorem adjOrdered_of_pairwise :
    ∀ (l : List (Nat × Int × Option Nat)),
      List.Pairwise (fun a b => RankTree.ordGt a b = false) l →
      RankTree.adjOrdered l = true := by
  intro l
  induction l with
  | nil => intro _; rfl
  | cons a l ih =>
    intro h
    cases l with
    | nil => rfl
    | cons b l2 =>
      rw [RankTree.adjOrdered]
      have h1 := (List.pairwise_cons.mp h).1 b (by simp)
      have h2 := (List.pairwise_cons.mp h).2
      simp [h1, ih h2]

theorem ordGt_false_shape (k1 k2 : Nat) (r1 r2 : Int)
    (h : k1 < k2 ∨ (k1 = k2 ∧ r1 ≤ r2)) :
    RankTree.ordGt (k1, r1, (none : Option Nat)) (k2, r2, none) = false := by
  unfold RankTree.ordGt
  rcases h with h | ⟨h1, h2⟩
  · rw [if_pos (by simp; omega)]
    simp
    omega
  · subst h1
    rw [if_neg (by simp)]
    by_cases hr : r1 = r2
    · subst hr
      rw [if_neg (by simp)]
    · rw [if_pos (by simpa using hr)]
      simp
      omega

theorem forall2_strengthen {R S : α → β → Prop} :
    ∀ (l : List α) (bs : List β), List.Forall₂ R l bs →
      (∀ a ∈ l, ∀ b, R a b → S a b) → List.Forall₂ S l bs := by
  intro l bs h
  induction h with
  | nil => intro _; exact List.Forall₂.nil
  | @cons a b l2 bs2 hr ht ih =>
    intro hmem
    exact List.Forall₂.cons (hmem a (by simp) b hr)
      (ih (fun x hx y hy => hmem x (by simp [hx]) y hy))

theorem forall2_right {P : β → Prop} :
    ∀ (l : List α) (bs : List β), List.Forall₂ (fun _ b => P b) l bs → ∀ b ∈ bs, P b := by
  intro l bs h
  induction h with
  | nil => intro b hb; simp at hb
  | @cons a b l2 bs2 hr ht ih =>
    intro x hx
    rcases List.mem_cons.mp hx with hc | hc
    · rw [hc]; exact hr
    · exact ih x hc

theorem forall2_map_eq {g : β → γ} {h : α → γ} :
    ∀ (l : List α) (bs : List β), List.Forall₂ (fun a b => g b = h a) l bs →
      bs.map g = l.map h := by
  intro l bs hf
  induction hf with
  | nil => rfl
  | @cons a b l2 bs2 hr ht ih => simp [ih, hr]

theorem forall2_leaves_sum :
    ∀ (l : List (Nat × Nat)) (bs : List RT),
      List.Forall₂ (fun a b => RankTree.num_leaves b = a.2) l bs →
      RankTree.num_leavesL bs = (l.map (fun a => a.2)).sum := by
  intro l bs hf
  induction hf with
  | nil => rfl
  | @cons a b l2 bs2 hr ht ih =>
    show RankTree.num_leaves b + RankTree.num_leavesL bs2 = _
    simp only [List.map_cons, List.sum_cons]
    omega

theorem shapeOutBL_of_forall : ∀ (bs : List RT), (∀ b ∈ bs, shapeOutB b = true) →
    shapeOutBL bs = true := by
  intro bs
  induction bs with
  | nil => intro _; rfl
  | cons b bs ih =>
    intro h
    show (shapeOutB b && shapeOutBL bs) = true
    rw [h b (by simp), ih (fun x hx => h x (by simp [hx]))]
    rfl

/-- Success and canonical form of `RankTree.shape_unrank` on every in-range
shape rank: the result is an unlabelled tree with `n` leaves, the given rank
cached at the root, and internal nodes listing at least two children in
non-decreasing canonical order. -/
theorem shape_unrank_ok :
    ∀ (m n : Nat) (r : Int), n ≤ m → 1 ≤ n → 0 ≤ r → r < num_shapes n →
      ∃ t2, RankTree.shape_unrank r n = Except.ok t2 ∧
        RankTree.num_leaves t2 = n ∧ RankTree.shape_rank t2 = r ∧ shapeOutB t2 = true := by
  intro m
  induction m with
  | zero =>
    intro n r hm h1 _ _
    omega
  | succ m ih =>
    intro n r hm h1 h0 hr
    by_cases hn1 : n = 1
    · subst hn1
      have hr1 : r = 0 := by
        have h2 : num_shapes 1 = 1 := by decide
        omega
      subst hr1
      exact ⟨RT.leaf none none, rfl, rfl, rfl, rfl⟩
    · have hn2 : 2 ≤ n := by omega
      unfold RankTree.shape_unrank
      rw [RankTree.shape_unrankGo]
      rw [if_neg hn1]
      have hsum : num_shapes n = ((partition n).map num_tree_pairings).sum :=
        num_shapes_eq_sum n hn2
      obtain ⟨part, r2, hfind, hr20, hr2lt⟩ :=
        csrFindPart_some (partition n) r h0 (by rw [← hsum]; exact hr)
      have hmem : part ∈ partition n := csrFindPart_mem _ _ _ _ hfind
      obtain ⟨hpsum, hppos, hpsort, hplen⟩ := partition_sound n part hmem
      have hplt := partition_mem_lt n part hmem
      have hcsr : children_shape_ranks r n =
          Except.ok (part, csrGroups r2 part (group_partition part)) := by
        unfold children_shape_ranks
        rw [if_neg (by omega), if_neg (by simp; omega), hfind]
      rw [hcsr]
      dsimp only
      obtain ⟨hlen, hbound, hpair⟩ :=
        csrGroups_valid part.length part r2 (le_refl _) hpsort hppos hr20 hr2lt
      set ranks := csrGroups r2 part (group_partition part) with hranks
      have hchild : ∀ a ∈ ranks.zip part,
          ∃ b, RankTree.shape_unrankGo n ((a.1 : Int)) a.2 = Except.ok b ∧
            RankTree.num_leaves b = a.2 ∧ RankTree.shape_rank b = (a.1 : Int) ∧
            shapeOutB b = true := by
        intro a ha
        obtain ⟨rk, k⟩ := a
        have hks := List.of_mem_zip ha
        have hklt : k < n := hplt k hks.2
        have hk1 : 1 ≤ k := hppos k hks.2
        have hswap : (k, rk) ∈ part.zip ranks := by
          have h2 : (k, rk) = Prod.swap (rk, k) := rfl
          rw [h2, ← List.zip_swap]
          exact List.mem_map.mpr ⟨(rk, k), ha, rfl⟩
        have hrklt : (rk : Int) < num_shapes k := hbound (k, rk) hswap
        obtain ⟨b, hok, hb1, hb2, hb3⟩ := ih k (rk : Int) (by omega) hk1 (by positivity) hrklt
        refine ⟨b, ?_, hb1, hb2, hb3⟩
        rw [shape_unrankGo_eq n (rk : Int) k hklt]
        exact hok
      obtain ⟨cs2, hmap, hall⟩ := exceptMapList_ok_exists _ (ranks.zip part)
        (fun a ha => by obtain ⟨b, hb, _⟩ := hchild a ha; exact ⟨b, hb⟩)
      have hallP : List.Forall₂ (fun a b => RankTree.num_leaves b = a.2 ∧
          RankTree.shape_rank b = (a.1 : Int) ∧ shapeOutB b = true)
          (ranks.zip part) cs2 := by
        apply forall2_strengthen _ _ hall
        intro a ha b hb
        obtain ⟨b2, hok2, hp1, hp2, hp3⟩ := hchild a ha
        rw [hok2] at hb
        injection hb with hb
        rw [← hb]
        exact ⟨hp1, hp2, hp3⟩
      rw [hmap]
      dsimp only
      refine ⟨RT.node cs2 r none, rfl, ?_, rfl, ?_⟩
      · show RankTree.num_leavesL cs2 = n
        have h2 := forall2_leaves_sum (ranks.zip part) cs2
          (forall2_strengthen _ _ hallP (fun a _ b hb => hb.1))
        rw [h2]
        have h3 : (ranks.zip part).map (fun a => a.2) = part := by
          have := List.map_snd_zip ranks part (by omega)
          simpa using this
        rw [h3, hpsum]
      · show (decide (2 ≤ cs2.length) && (none == none) &&
            RankTree.adjOrdered (cs2.map RankTree.canonical_order) && shapeOutBL cs2) = true
        have hlen2 : cs2.length = part.length := by
          have := List.Forall₂.length_eq hall
          rw [← this]
          rw [List.length_zip]
          omega
        have hkeys : cs2.map RankTree.canonical_order =
            (ranks.zip part).map (fun a => (a.2, (a.1 : Int), (none : Option Nat))) := by
          apply forall2_map_eq
          apply forall2_strengthen _ _ hallP
          intro a _ b hb
          obtain ⟨h1', h2', h3'⟩ := hb
          unfold RankTree.canonical_order
          rw [h1', h2']
          have hlab := (shapeOut_basic b h3').1
          have hge := (shapeOut_basic b h3').2
          unfold RankTree.min_label
          rw [hlab]
          congr 1
          rw [h1'] at hge ⊢
          cases hc : a.2 with
          | zero => omega
          | succ a2 => simp [List.replicate_succ]
        have hadj : RankTree.adjOrdered (cs2.map RankTree.canonical_order) = true := by
          rw [hkeys]
          apply adjOrdered_of_pairwise
          rw [List.pairwise_map]
          have hpair2 : (ranks.zip part).Pairwise
              (fun a b => keyLe (a.2, a.1) (b.2, b.1)) := by
            have hswapped : (ranks.zip part) = (part.zip ranks).map Prod.swap := by
              rw [List.zip_swap]
            rw [hswapped, List.pairwise_map]
            apply List.Pairwise.imp _ hpair
            intro a b hab
            exact hab
          apply List.Pairwise.imp _ hpair2
          intro a b hab
          exact ordGt_false_shape a.2 b.2 (a.1 : Int) (b.1 : Int)
            (by rcases hab with h | ⟨h1', h2'⟩
                · left; exact h
                · right; exact ⟨h1', by exact_mod_cast h2'⟩)
        rw [hadj, hlen2]
        have hout : shapeOutBL cs2 = true :=
          shapeOutBL_of_forall cs2
            (forall2_right _ _ (forall2_strengthen _ _ hallP (fun a _ b hb => hb.2.2)))
        rw [hout]
        simp
        omega

mutual
theorem is_canonical_of_shapeOut :
    ∀ t : RT, shapeOutB t = true → RankTree.is_canonical t = true
  | RT.leaf _ _, _ => rfl
  | RT.node cs sr lr, h => by
    simp only [shapeOutB, Bool.and_eq_true] at h
    show (RankTree.adjOrdered (cs.map RankTree.canonical_order) &&
      RankTree.is_canonicalL cs) = true
    rw [h.1.2, is_canonicalL_of_shapeOutL cs h.2]
    rfl

theorem is_canonicalL_of_shapeOutL :
    ∀ cs : List RT, shapeOutBL cs = true → RankTree.is_canonicalL cs = true
  | [], _ => rfl
  | c :: cs, h => by
    simp only [shapeOutBL, Bool.and_eq_true] at h
    show (RankTree.is_canonical c && RankTree.is_canonicalL cs) = true
    rw [is_canonical_of_shapeOut c h.1, is_canonicalL_of_shapeOutL cs h.2]
    rfl
end

theorem shapeOutBL_forall :
    ∀ cs : List RT, shapeOutBL cs = true → ∀ c ∈ cs, shapeOutB c = true := by
  intro cs
  induction cs with
  | nil => intro _ c hc; simp at hc
  | cons c cs ih =>
    intro h x hx
    have h2 : (shapeOutB c && shapeOutBL cs) = true := h
    rw [Bool.and_eq_true] at h2
    rcases List.mem_cons.mp hx with hc | hc
    · rw [hc]; exact h2.1
    · exact ih h2.2 x hc

theorem rtDepthL_bound : ∀ (cs : List RT) (c : RT), c ∈ cs →
    RankTree.rtDepth c ≤ RankTree.rtDepthL cs := by
  intro cs
  induction cs with
  | nil => intro c hc; simp at hc
  | cons x cs ih =>
    intro c hc
    show RankTree.rtDepth c ≤ max (RankTree.rtDepth x) (RankTree.rtDepthL cs)
    rcases List.mem_cons.mp hc with h | h
    · rw [h]; exact le_max_left _ _
    · exact le_trans (ih c h) (le_max_right _ _)

/-! ### Positivity of the labelling counts -/

theorem int_one_le_mul (a b : Int) (ha : 1 ≤ a) (hb : 1 ≤ b) : 1 ≤ a * b := by nlinarith

theorem int_one_le_pow (x : Int) (h : 1 ≤ x) (n : Nat) : 1 ≤ x ^ n := by
  calc (1 : Int) = 1 ^ n := (one_pow n).symm
    _ ≤ x ^ n := pow_le_pow_left (by norm_num) h n

theorem naigProd_ge_one (k : Nat) : ∀ m, 1 ≤ naigProd k m := by
  intro m
  induction m with
  | zero => simp [naigProd]
  | succ m ih =>
    rw [naigProd]
    have h1 := Combination.comb_pos ((k : Int) * ((m : Int) + 1) - 1) ((k : Int) - 1)
    nlinarith

theorem num_assignments_ge_one (g : List RT) : 1 ≤ num_assignments_in_group g := by
  unfold num_assignments_in_group
  by_cases h : g.length = 0
  · simp [h]
  · rw [if_neg h]
    exact naigProd_ge_one _ _

theorem nlglF_ge_one (numLab : RT → Int) (h : ∀ t, 1 ≤ numLab t) :
    ∀ (gs : List (List RT)) (rem : Int), 1 ≤ nlglF numLab rem gs := by
  intro gs
  induction gs with
  | nil => intro rem; simp [nlglF]
  | cons g gs ih =>
    intro rem
    rw [nlglF]
    have h1 := Combination.comb_pos rem ((g.length : Int) * (RankTree.num_leaves (rtHead g) : Int))
    have h2 := num_assignments_ge_one g
    have h3 : 1 ≤ numLab (rtHead g) ^ g.length := int_one_le_pow _ (h _) _
    have h4 := ih (rem - (g.length : Int) * (RankTree.num_leaves (rtHead g) : Int))
    exact int_one_le_mul _ _ (int_one_le_mul _ _ h1 (int_one_le_mul _ _ h2 h3)) h4

theorem num_labellingsGo_ge_one : ∀ (fuel : Nat) (t : RT),
    1 ≤ RankTree.num_labellingsGo fuel t := by
  intro fuel
  induction fuel with
  | zero => intro t; simp [RankTree.num_labellingsGo]
  | succ fuel ih =>
    intro t
    rw [RankTree.num_labellingsGo]
    by_cases h : RankTree.is_leaf t = true
    · simp [h]
    · rw [if_neg h]
      exact nlglF_ge_one _ ih _ _

theorem num_labellings_ge_one (t : RT) : 1 ≤ RankTree.num_labellings t :=
  num_labellingsGo_ge_one _ t

theorem num_group_labellings_ge_one (g : List RT) : 1 ≤ num_group_labellings g := by
  unfold num_group_labellings
  have h1 := num_assignments_ge_one g
  have h2 : 1 ≤ RankTree.num_labellings (rtHead g) ^ g.length :=
    int_one_le_pow _ (num_labellings_ge_one _) _
  exact int_one_le_mul _ _ h1 h2

theorem num_list_of_group_labellings_ge_one (gs : List (List RT)) :
    1 ≤ num_list_of_group_labellings gs :=
  nlglF_ge_one _ num_labellings_ge_one _ _

/-! ### Label distribution at label rank 0 -/

theorem set_minus_take (lbls : List Nat) (hnd : lbls.Nodup) (j : Nat) :
    set_minus lbls (lbls.take j) = lbls.drop j := by
  unfold set_minus
  rw [show lbls.filter (fun x => decide (x ∉ lbls.take j)) =
      (lbls.take j ++ lbls.drop j).filter (fun x => decide (x ∉ lbls.take j)) from by
    rw [List.take_append_drop]]
  rw [List.filter_append]
  have h1 : (lbls.take j).filter (fun x => decide (x ∉ lbls.take j)) = [] := by
    apply List.filter_eq_nil.mpr
    intro x hx
    simp [hx]
  have h2 : (lbls.drop j).filter (fun x => decide (x ∉ lbls.take j)) = lbls.drop j := by
    apply List.filter_eq_self.mpr
    intro x hx
    have hdisj := List.disjoint_take_drop (l := lbls) hnd (le_refl j)
    simp only [decide_eq_true_eq]
    intro hmem
    exact hdisj hmem hx
  rw [h1, h2, List.nil_append]

theorem labelBlocks_take : ∀ (g : List RT) (lbls : List Nat) (N : Nat),
    RankTree.num_leavesL g ≤ N → labelBlocks g (lbls.take N) = labelBlocks g lbls := by
  intro g
  induction g with
  | nil => intro lbls N _; rfl
  | cons c cs ih =>
    intro lbls N h
    have hk : RankTree.num_leaves c ≤ N := by
      have : RankTree.num_leavesL (c :: cs) =
        RankTree.num_leaves c + RankTree.num_leavesL cs := rfl
      omega
    rw [labelBlocks, labelBlocks]
    have e1 : (lbls.take N).take (RankTree.num_leaves c) = lbls.take (RankTree.num_leaves c) := by
      rw [List.take_take]
      congr 1
      omega
    have e2 : (lbls.take N).drop (RankTree.num_leaves c) =
        (lbls.drop (RankTree.num_leaves c)).take (N - RankTree.num_leaves c) := by
      rw [List.drop_take]
    rw [e1, e2, ih (lbls.drop (RankTree.num_leaves c)) (N - RankTree.num_leaves c) (by
      have h2 : RankTree.num_leavesL (c :: cs) =
        RankTree.num_leaves c + RankTree.num_leavesL cs := rfl
      omega)]

theorem labelBlocks_append : ∀ (xs ys : List RT) (lbls : List Nat),
    labelBlocks (xs ++ ys) lbls =
      labelBlocks xs lbls ++ labelBlocks ys (lbls.drop (RankTree.num_leavesL xs)) := by
  intro xs
  induction xs with
  | nil => intro ys lbls; rfl
  | cons c cs ih =>
    intro ys lbls
    rw [List.cons_append, labelBlocks, labelBlocks, ih, List.cons_append]
    congr 2
    rw [List.drop_drop]
    rfl

theorem group_by_head_equal (equal : α → α → Bool) :
    ∀ (values : List α) (g : List α), g ∈ group_by values equal →
      ∃ x g2, g = x :: g2 ∧ ∀ c ∈ g2, equal c x = true := by
  intro values
  obtain ⟨m, hm⟩ : ∃ m, values.length ≤ m := ⟨values.length, le_refl _⟩
  induction m generalizing values with
  | zero =>
    have : values = [] := List.eq_nil_of_length_eq_zero (Nat.le_zero.mp hm)
    subst this
    intro g hg
    simp [group_by_nil] at hg
  | succ m ih =>
    cases values with
    | nil => intro g hg; simp [group_by_nil] at hg
    | cons x xs =>
      intro g hg
      rw [group_by_cons] at hg
      rcases List.mem_cons.mp hg with h | h
      · refine ⟨x, xs.takeWhile (fun y => equal y x), h, ?_⟩
        intro c hc
        have h2 := List.mem_takeWhile_imp hc
        simpa using h2
      · have hlen : (xs.dropWhile (fun y => equal y x)).length ≤ m := by
          have := (List.dropWhile_sublist (l := xs) (fun y => equal y x)).length_le
          simp at hm
          omega
        exact ih _ hlen g h

theorem num_leavesL_append (xs ys : List RT) :
    RankTree.num_leavesL (xs ++ ys) = RankTree.num_leavesL xs + RankTree.num_leavesL ys := by
  induction xs with
  | nil =>
    show RankTree.num_leavesL ys = RankTree.num_leavesL [] + RankTree.num_leavesL ys
    show RankTree.num_leavesL ys = 0 + RankTree.num_leavesL ys
    omega
  | cons c cs ih =>
    show RankTree.num_leaves c + RankTree.num_leavesL (cs ++ ys) = _
    rw [ih]
    show _ = RankTree.num_leaves c + RankTree.num_leavesL cs + RankTree.num_leavesL ys
    omega

theorem num_leavesL_const (g : List RT) (k : Nat) (h : ∀ c ∈ g, RankTree.num_leaves c = k) :
    RankTree.num_leavesL g = k * g.length := by
  induction g with
  | nil => simp [RankTree.num_leavesL]
  | cons c cs ih =>
    show RankTree.num_leaves c + RankTree.num_leavesL cs = k * (c :: cs).length
    rw [h c (by simp), ih (fun x hx => h x (by simp [hx]))]
    simp only [List.length_cons]
    ring

/-- `group_label_ranks` at label rank 0 hands each tree of the group the
prefix of the remaining labels of its leaf count, and gives every tree label
rank 0. -/
theorem group_label_ranks_zero :
    ∀ (g : List RT) (lbls : List Nat), lbls.Nodup →
      (∀ c ∈ g, 1 ≤ RankTree.num_leaves c) →
      RankTree.num_leavesL g ≤ lbls.length →
      group_label_ranks 0 g lbls =
        Except.ok (labelBlocks g lbls, List.replicate g.length 0) := by
  intro g
  induction g with
  | nil => intro lbls _ _ _; rfl
  | cons t ts ih =>
    intro lbls hnd hpos hlen
    have hk1 : 1 ≤ RankTree.num_leaves t := hpos t (by simp)
    have hlent : RankTree.num_leavesL (t :: ts) =
        RankTree.num_leaves t + RankTree.num_leavesL ts := rfl
    rw [group_label_ranks.eq_def]
    simp only
    cases hlb : lbls with
    | nil =>
      exfalso
      rw [hlb] at hlen
      simp at hlen
      omega
    | cons l0 lrest =>
      simp only [Int.zero_ediv, Int.zero_emod]
      have htl : (l0 : Nat) :: Combination.unrank 0 lrest (RankTree.num_leaves t - 1) =
          (l0 :: lrest).take (RankTree.num_leaves t) := by
        conv_rhs => rw [show RankTree.num_leaves t = (RankTree.num_leaves t - 1) + 1 from by omega]
        rw [List.take_succ_cons, unrank_zero_take]
      rw [htl]
      have hnd2 : (l0 :: lrest).Nodup := by rw [← hlb]; exact hnd
      rw [set_minus_take (l0 :: lrest) hnd2 (RankTree.num_leaves t)]
      have hlen2 : RankTree.num_leavesL ts ≤ ((l0 :: lrest).drop (RankTree.num_leaves t)).length := by
        rw [List.length_drop]
        rw [hlb] at hlen
        omega
      rw [ih ((l0 :: lrest).drop (RankTree.num_leaves t))
        (hnd2.sublist (List.drop_sublist _ _))
        (fun c hc => hpos c (by simp [hc])) hlen2]
      dsimp only
      rw [labelBlocks]
      rfl

/-- `children_label_ranks` at label rank 0: every child receives label rank 0
and the prefix chunk of labels matching its leaf count, in order. -/
theorem children_label_ranks_zero :
    ∀ (groups : List (List RT)) (lbls : List Nat), lbls.Nodup →
      (∀ g ∈ groups, ∀ c ∈ g, RankTree.num_leaves c = RankTree.num_leaves (rtHead g)) →
      (∀ g ∈ groups, ∀ c ∈ g, 1 ≤ RankTree.num_leaves c) →
      (∀ g ∈ groups, g ≠ []) →
      RankTree.num_leavesL groups.flatten ≤ lbls.length →
      children_label_ranks groups 0 lbls =
        Except.ok (labelBlocks groups.flatten lbls,
          List.replicate groups.flatten.length 0) := by
  intro groups
  induction groups with
  | nil => intro lbls _ _ _ _ _; rfl
  | cons g gs ih =>
    intro lbls hnd heq hpos hnenil hlen
    have hgne : g ≠ [] := hnenil g (by simp)
    have hgleaves : RankTree.num_leavesL g =
        RankTree.num_leaves (rtHead g) * g.length :=
      num_leavesL_const g _ (fun c hc => heq g (by simp) c hc)
    have hflat : (g :: gs).flatten = g ++ gs.flatten := rfl
    have hlenapp : RankTree.num_leavesL (g ++ gs.flatten) =
        RankTree.num_leavesL g + RankTree.num_leavesL gs.flatten := num_leavesL_append _ _
    rw [hflat] at hlen
    rw [hlenapp] at hlen
    rw [children_label_ranks.eq_def]
    simp only [Int.zero_ediv, Int.zero_emod]
    rw [unrank_zero_take]
    have htake : lbls.take (RankTree.num_leaves (rtHead g) * g.length) =
        lbls.take (RankTree.num_leavesL g) := by rw [hgleaves]
    rw [htake]
    have hglen : RankTree.num_leavesL g ≤ lbls.length := by omega
    have htklen : (lbls.take (RankTree.num_leavesL g)).length = RankTree.num_leavesL g := by
      rw [List.length_take]
      omega
    rw [group_label_ranks_zero g (lbls.take (RankTree.num_leavesL g))
      (hnd.sublist (List.take_sublist _ _))
      (fun c hc => hpos g (by simp) c hc) (by omega)]
    dsimp only
    rw [set_minus_take lbls hnd (RankTree.num_leavesL g)]
    rw [ih (lbls.drop (RankTree.num_leavesL g)) (hnd.sublist (List.drop_sublist _ _))
      (fun g2 hg2 c hc => heq g2 (by simp [hg2]) c hc)
      (fun g2 hg2 c hc => hpos g2 (by simp [hg2]) c hc)
      (fun g2 hg2 => hnenil g2 (by simp [hg2]))
      (by rw [List.length_drop]; omega)]
    dsimp only
    rw [labelBlocks_take g lbls (RankTree.num_leavesL g) (le_refl _)]
    rw [hflat, labelBlocks_append]
    simp only [List.length_append, List.replicate_add]

/-- Labelling with label rank 0 succeeds on every `shape_unrank`-shaped tree
and writes the given labels onto the leaves from left to right. -/
theorem label_unrank_zero_ok :
    ∀ (d : Nat) (t : RT) (lbls : List Nat), RankTree.rtDepth t < d → shapeOutB t = true →
      lbls.Nodup → lbls.length = RankTree.num_leaves t →
      ∃ t2, RankTree.label_unrankGo d t 0 lbls = Except.ok t2 ∧
        leafLabelsLR t2 = lbls.map some := by
  intro d
  induction d with
  | zero => intro t lbls hd _ _ _; omega
  | succ d ih =>
    intro t lbls hd hout hnd hlen
    rw [RankTree.label_unrankGo]
    cases t with
    | leaf l lr =>
      have hleaf : RankTree.is_leaf (RT.leaf l lr) = true := rfl
      simp only [hleaf, if_true]
      have hlen1 : lbls.length = 1 := by
        rw [hlen]
        rfl
      rw [if_pos hlen1]
      cases lbls with
      | nil => simp at hlen1
      | cons x rest =>
        have hrest : rest = [] := by
          simp only [List.length_cons] at hlen1
          exact List.eq_nil_of_length_eq_zero (by omega)
        subst hrest
        exact ⟨RT.leaf (some x) (some 0), rfl, rfl⟩
    | node cs sr lr =>
      simp only [shapeOutB, Bool.and_eq_true, decide_eq_true_eq] at hout
      obtain ⟨⟨⟨hcslen, _⟩, hadj⟩, hcsout⟩ := hout
      have hleaf : RankTree.is_leaf (RT.node cs sr lr) = false := by
        unfold RankTree.is_leaf RankTree.children
        cases cs with
        | nil => simp at hcslen
        | cons c cs2 => rfl
      simp only [hleaf, Bool.false_eq_true, if_false]
      have hflat : (RankTree.group_children_by_shape (RT.node cs sr lr)).flatten = cs :=
        group_by_join _ _
      have hgmem : ∀ g ∈ RankTree.group_children_by_shape (RT.node cs sr lr), ∀ c ∈ g, c ∈ cs :=
        fun g hg c hc => group_by_mem_of_mem_group _ _ g hg c hc
      have hcsforall := shapeOutBL_forall cs hcsout
      have hclr := children_label_ranks_zero
        (RankTree.group_children_by_shape (RT.node cs sr lr)) lbls hnd
        (by
          intro g hg c hc
          obtain ⟨x, g2, hgx, hall⟩ := group_by_head_equal _ _ g hg
          have hhead : rtHead g = x := by rw [hgx]; rfl
          rw [hhead]
          rcases (by rw [hgx] at hc; exact List.mem_cons.mp hc : c = x ∨ c ∈ g2) with hcc | hcc
          · rw [hcc]
          · have heq2 := hall c hcc
            simp only [Bool.and_eq_true, beq_iff_eq] at heq2
            exact heq2.1)
        (by
          intro g hg c hc
          exact (shapeOut_basic c (hcsforall c (hgmem g hg c hc))).2)
        (fun g hg => group_by_ne_nil _ _ g hg)
        (by rw [hflat, hlen]; exact le_refl _)
      rw [hclr]
      dsimp only
      rw [hflat]
      -- the zip recursion hands each child its own prefix chunk
      have hzipmap : ∀ (cs3 : List RT) (lb : List Nat),
          (∀ c ∈ cs3, c ∈ cs) → lb.Nodup → RankTree.num_leavesL cs3 = lb.length →
          ∃ bs, exceptMapList
              (fun trip => RankTree.label_unrankGo d trip.1 trip.2.1 trip.2.2)
              (cs3.zip ((List.replicate cs3.length 0).zip (labelBlocks cs3 lb))) =
            Except.ok bs ∧ leafLabelsLRL bs = lb.map some := by
        intro cs3
        induction cs3 with
        | nil =>
          intro lb _ _ hlb
          have : lb = [] := by
            have h2 : RankTree.num_leavesL ([] : List RT) = 0 := rfl
            rw [h2] at hlb
            exact List.eq_nil_of_length_eq_zero hlb.symm
          subst this
          exact ⟨[], rfl, rfl⟩
        | cons c cs4 ihz =>
          intro lb hsub hlbnd hlb
          have hc : c ∈ cs := hsub c (by simp)
          have hk1 : 1 ≤ RankTree.num_leaves c := (shapeOut_basic c (hcsforall c hc)).2
          have hlct : RankTree.num_leavesL (c :: cs4) =
              RankTree.num_leaves c + RankTree.num_leavesL cs4 := rfl
          have hkle : RankTree.num_leaves c ≤ lb.length := by omega
          have hdc : RankTree.rtDepth c < d := by
            have h1 : RankTree.rtDepth c ≤ RankTree.rtDepthL cs := rtDepthL_bound cs c hc
            have h2 : RankTree.rtDepth (RT.node cs sr lr) = RankTree.rtDepthL cs + 1 := rfl
            omega
          obtain ⟨b, hbok, hbLR⟩ := ih c (lb.take (RankTree.num_leaves c)) hdc
            (hcsforall c hc) (hlbnd.sublist (List.take_sublist _ _))
            (by rw [List.length_take]; omega)
          obtain ⟨bs, hbsok, hbsLR⟩ := ihz (lb.drop (RankTree.num_leaves c))
            (fun x hx => hsub x (by simp [hx]))
            (hlbnd.sublist (List.drop_sublist _ _))
            (by rw [List.length_drop]; omega)
          refine ⟨b :: bs, ?_, ?_⟩
          · rw [show labelBlocks (c :: cs4) lb = lb.take (RankTree.num_leaves c) ::
              labelBlocks cs4 (lb.drop (RankTree.num_leaves c)) from rfl]
            rw [show (c :: cs4).length = cs4.length + 1 from rfl, List.replicate_succ,
              List.zip_cons_cons, List.zip_cons_cons, exceptMapList]
            rw [hbok, hbsok]
          · show leafLabelsLR b ++ leafLabelsLRL bs = lb.map some
            rw [hbLR, hbsLR, ← List.map_append, List.take_append_drop]
      obtain ⟨bs, hbsok, hbsLR⟩ := hzipmap cs lbls (fun c hc => hc) hnd (by rw [hlen]; rfl)
      rw [show RankTree.children (RT.node cs sr lr) = cs from rfl]
      rw [hbsok]
      exact ⟨RT.node bs sr (some 0), rfl, hbsLR⟩

/-! ### Leaf labels of `shape_unrank` (claim C8) -/

/-- **C8.**  For every `num_leaves ≥ 1` and every shape rank in
`[0, num_shapes n)`, the module-level `shape_unrank` — which is
`RankTree.unrank((shape_rank, 0), n)` followed by the external `to_tsk_tree`
conversion that preserves leaf labels — succeeds and labels the leaves
`0 .. n-1` in increasing order from left to right. -/
theorem C8_shape_unrank_leaf_labels (n : Nat) (r : Int) (h1 : 1 ≤ n) (h0 : 0 ≤ r)
    (hr : r < num_shapes n) :
    ∃ t2, RankTree.unrank (r, 0) n = Except.ok t2 ∧
      leafLabelsLR t2 = (List.range n).map some := by
  obtain ⟨u, hok, hnl, hsr, hout⟩ := shape_unrank_ok n n r (le_refl n) h1 h0 hr
  unfold RankTree.unrank
  rw [hok]
  dsimp only
  unfold RankTree.label_unrank
  rw [hnl]
  obtain ⟨t2, hok2, hLR⟩ := label_unrank_zero_ok (RankTree.rtDepth u + 1) u
    (List.range n) (by omega) hout (List.nodup_range n) (by rw [List.length_range, hnl])
  exact ⟨t2, hok2, hLR⟩

/-- **C8, witness** at `n = 4`, `shape_rank = 2`. -/
theorem C8_shape_unrank_leaf_labels_witness :
    (1 ≤ 4) ∧ ((0 : Int) ≤ 2) ∧ ((2 : Int) < num_shapes 4) ∧
      (∃ t2, RankTree.unrank (2, 0) 4 = Except.ok t2 ∧
        leafLabelsLR t2 = (List.range 4).map some) :=
  ⟨by decide, by decide, by decide,
    C8_shape_unrank_leaf_labels 4 2 (by decide) (by decide) (by decide)⟩

/-! ### Rank/unrank round trip at the shape level: support lemmas -/

theorem takeWhile_ext (p q : α → Bool) (h : ∀ x, p x = q x) :
    ∀ l : List α, l.takeWhile p = l.takeWhile q := by
  intro l
  induction l with
  | nil => rfl
  | cons x xs ih =>
    rw [List.takeWhile_cons, List.takeWhile_cons, h x, ih]

theorem dropWhile_ext (p q : α → Bool) (h : ∀ x, p x = q x) :
    ∀ l : List α, l.dropWhile p = l.dropWhile q := by
  intro l
  induction l with
  | nil => rfl
  | cons x xs ih =>
    rw [List.dropWhile_cons, List.dropWhile_cons, h x, ih]

theorem group_by_ext (eq1 eq2 : α → α → Bool) (h : ∀ a b, eq1 a b = eq2 a b) :
    ∀ l : List α, group_by l eq1 = group_by l eq2 := by
  intro l
  obtain ⟨m, hm⟩ : ∃ m, l.length ≤ m := ⟨l.length, le_refl _⟩
  induction m generalizing l with
  | zero =>
    have : l = [] := List.eq_nil_of_length_eq_zero (Nat.le_zero.mp hm)
    subst this
    rfl
  | succ m ih =>
    cases l with
    | nil => rfl
    | cons x xs =>
      rw [group_by_cons, group_by_cons]
      rw [takeWhile_ext _ _ (fun y => h y x) xs, dropWhile_ext _ _ (fun y => h y x) xs]
      congr 1
      apply ih
      have := (List.dropWhile_sublist (l := xs) (fun y => eq2 y x)).length_le
      simp at hm
      omega

theorem group_by_map (f : α → β) (eqb : β → β → Bool) :
    ∀ l : List α,
      group_by (l.map f) eqb = (group_by l (fun a b => eqb (f a) (f b))).map (List.map f) := by
  intro l
  obtain ⟨m, hm⟩ : ∃ m, l.length ≤ m := ⟨l.length, le_refl _⟩
  induction m generalizing l with
  | zero =>
    have : l = [] := List.eq_nil_of_length_eq_zero (Nat.le_zero.mp hm)
    subst this
    rfl
  | succ m ih =>
    cases l with
    | nil => rfl
    | cons x xs =>
      rw [List.map_cons, group_by_cons, group_by_cons]
      have htw : (xs.map f).takeWhile (fun y => eqb y (f x)) =
          (xs.takeWhile (fun a => eqb (f a) (f x))).map f := by
        rw [List.takeWhile_map]
        rfl
      have hdw : (xs.map f).dropWhile (fun y => eqb y (f x)) =
          (xs.dropWhile (fun a => eqb (f a) (f x))).map f := by
        rw [List.dropWhile_map]
        rfl
      rw [htw, hdw]
      rw [ih (xs.dropWhile (fun a => eqb (f a) (f x))) (by
        have := (List.dropWhile_sublist (l := xs) (fun a => eqb (f a) (f x))).length_le
        simp at hm
        omega)]
      simp

theorem num_leavesL_eq_sum_map : ∀ cs : List RT,
    RankTree.num_leavesL cs = (cs.map RankTree.num_leaves).sum := by
  intro cs
  induction cs with
  | nil => rfl
  | cons c cs ih =>
    show RankTree.num_leaves c + RankTree.num_leavesL cs = _
    simp only [List.map_cons, List.sum_cons]
    omega

mutual
theorem wfShape_pos : ∀ t : RT, wfShapeB t = true → 1 ≤ RankTree.num_leaves t
  | RT.leaf _ _, _ => le_refl 1
  | RT.node cs sr lr, h => by
    simp only [wfShapeB, Bool.and_eq_true, decide_eq_true_eq] at h
    obtain ⟨⟨⟨hlen, _⟩, _⟩, hcs⟩ := h
    have hL := wfShapeL_pos cs hcs
    show 1 ≤ RankTree.num_leavesL cs
    omega

theorem wfShapeL_pos : ∀ cs : List RT, wfShapeBL cs = true →
    cs.length ≤ RankTree.num_leavesL cs
  | [], _ => le_refl 0
  | c :: cs, h => by
    simp only [wfShapeBL, Bool.and_eq_true] at h
    have h1 := wfShape_pos c h.1
    have h2 := wfShapeL_pos cs h.2
    show (c :: cs).length ≤ RankTree.num_leaves c + RankTree.num_leavesL cs
    simp only [List.length_cons]
    omega
end

theorem wfShapeBL_forall :
    ∀ cs : List RT, wfShapeBL cs = true → ∀ c ∈ cs, wfShapeB c = true := by
  intro cs
  induction cs with
  | nil => intro _ c hc; simp at hc
  | cons c cs ih =>
    intro h x hx
    have h2 : (wfShapeB c && wfShapeBL cs) = true := h
    rw [Bool.and_eq_true] at h2
    rcases List.mem_cons.mp hx with hc | hc
    · rw [hc]; exact h2.1
    · exact ih h2.2 x hc

/-- Integer-rank sibling key order (leaf count, then cached rank). -/
def keyLeI (a b : Nat × Int) : Prop := a.1 < b.1 ∨ (a.1 = b.1 ∧ a.2 ≤ b.2)

theorem keyLeI_trans : Transitive keyLeI := by
  intro a b c hab hbc
  rcases hab with h | ⟨h1, h2⟩ <;> rcases hbc with h' | ⟨h1', h2'⟩
  · left; omega
  · left; omega
  · left; omega
  · right; exact ⟨by omega, le_trans h2 h2'⟩

theorem ordGt_false_keyLeI (a b : Nat × Int × Option Nat)
    (h : RankTree.ordGt a b = false) : keyLeI (a.1, a.2.1) (b.1, b.2.1) := by
  unfold RankTree.ordGt at h
  by_cases h1 : a.1 = b.1
  · rw [if_neg (by simpa using h1)] at h
    by_cases h2 : a.2.1 = b.2.1
    · right
      exact ⟨h1, by rw [h2]⟩
    · rw [if_pos (by simpa using h2)] at h
      simp only [decide_eq_false_iff_not, not_lt] at h
      right
      exact ⟨h1, h⟩
  · rw [if_pos (by simpa using h1)] at h
    simp only [decide_eq_false_iff_not, not_lt] at h
    left
    omega

theorem adjOrdered_chain :
    ∀ (l : List (Nat × Int × Option Nat)), RankTree.adjOrdered l = true →
      List.Chain' (fun a b => RankTree.ordGt a b = false) l := by
  intro l
  induction l with
  | nil => intro _; exact List.chain'_nil
  | cons a l ih =>
    intro h
    cases l with
    | nil => simp
    | cons b l2 =>
      have h2 : (!RankTree.ordGt a b && RankTree.adjOrdered (b :: l2)) = true := h
      rw [Bool.and_eq_true, Bool.not_eq_true'] at h2
      exact List.Chain'.cons h2.1 (ih h2.2)

/-- From the canonical sibling order: the `(num_leaves, shape_rank)` keys are
pairwise `keyLeI`-sorted. -/
theorem adjOrdered_pairwise_keys (cs : List RT)
    (h : RankTree.adjOrdered (cs.map RankTree.canonical_order) = true) :
    (cs.map (fun c => (RankTree.num_leaves c, RankTree.shape_rank c))).Pairwise keyLeI := by
  have hch := adjOrdered_chain _ h
  have hch2 : List.Chain' (fun a b => keyLeI (a.1, a.2.1) (b.1, b.2.1))
      (cs.map RankTree.canonical_order) :=
    List.Chain'.imp (fun a b hab => ordGt_false_keyLeI a b hab) hch
  have hch3 : List.Chain' keyLeI
      ((cs.map RankTree.canonical_order).map (fun a => (a.1, a.2.1))) := by
    rw [List.chain'_map]
    exact hch2
  rw [List.map_map] at hch3
  have hch4 : List.Chain' keyLeI
      (cs.map (fun c => (RankTree.num_leaves c, RankTree.shape_rank c))) := by
    convert hch3 using 2
  have : IsTrans (Nat × Int) keyLeI := ⟨fun a b c hab hbc => keyLeI_trans hab hbc⟩
  exact List.chain'_iff_pairwise.mp hch4

/-- Completeness of `partition`: every valid ascending partition other than
`[n]` is generated. -/
theorem partition_complete (n : Nat) (hn : 2 ≤ n) (t : List Nat)
    (h1 : t.sum = n) (h2 : ∀ e ∈ t, 1 ≤ e) (h3 : t.Sorted (· ≤ ·)) (h4 : t ≠ [n]) :
    t ∈ partition n := by
  obtain ⟨L2, hL2, hpart, _⟩ := partition_run n hn
  have htlen : 2 ≤ t.length := valid_ne_single_len n t h2 h1 h4 (by omega)
  have hne : t ≠ [] := by
    intro hcon
    rw [hcon] at htlen
    simp at htlen
  rcases replicate_min n (by omega) t hne h3 h2 h1 with heq | hlex
  · rw [hpart, ← heq]
    simp
  · have hmem := run_complete n ((n + 1) ^ n + 1) (List.replicate n 1) L2
      (PartInv_replicate n) (by rw [List.length_replicate]; omega) hL2
      t ⟨h1, h2, h3⟩ htlen hlex
    rw [hpart]
    exact List.mem_cons_of_mem _ hmem

/-- The group loop of `compute_shape_rank` is exactly inverted by the group
loop of `children_shape_ranks`: applied to the rank it computes, the latter
returns the children's own cached shape ranks; and that rank is in range for
the children's leaf partition. -/
theorem shapeGroups_exact :
    ∀ (m : Nat) (cs : List RT), cs.length ≤ m →
      (∀ c ∈ cs, 0 ≤ RankTree.shape_rank c ∧
        RankTree.shape_rank c < num_shapes (RankTree.num_leaves c) ∧
        1 ≤ RankTree.num_leaves c) →
      (cs.map (fun c => (RankTree.num_leaves c, RankTree.shape_rank c))).Pairwise keyLeI →
      (0 ≤ shapeGroupsRank (cs.map RankTree.num_leaves)
          (group_by cs (fun c1 c2 => RankTree.num_leaves c1 == RankTree.num_leaves c2)) ∧
        shapeGroupsRank (cs.map RankTree.num_leaves)
          (group_by cs (fun c1 c2 => RankTree.num_leaves c1 == RankTree.num_leaves c2)) <
          num_tree_pairings (cs.map RankTree.num_leaves)) ∧
      csrGroups (shapeGroupsRank (cs.map RankTree.num_leaves)
          (group_by cs (fun c1 c2 => RankTree.num_leaves c1 == RankTree.num_leaves c2)))
          (cs.map RankTree.num_leaves)
          (group_partition (cs.map RankTree.num_leaves)) =
        cs.map (fun c => (RankTree.shape_rank c).toNat) := by
  intro m
  induction m with
  | zero =>
    intro cs hlen _ _
    have : cs = [] := List.eq_nil_of_length_eq_zero (by omega)
    subst this
    refine ⟨⟨le_refl _, ?_⟩, rfl⟩
    show (0 : Int) < num_tree_pairings []
    have := num_tree_pairings_ge_one []
    omega
  | succ m ih =>
    intro cs hlen hA hord
    cases cs with
    | nil =>
      refine ⟨⟨le_refl _, ?_⟩, rfl⟩
      show (0 : Int) < num_tree_pairings []
      have := num_tree_pairings_ge_one []
      omega
    | cons c0 cs2 =>
      set eqNl : RT → RT → Bool :=
        fun c1 c2 => RankTree.num_leaves c1 == RankTree.num_leaves c2 with heqNl
      set run := cs2.takeWhile (fun y => eqNl y c0) with hrunD
      set rest := cs2.dropWhile (fun y => eqNl y c0) with hrestD
      have hsplit : c0 :: cs2 = (c0 :: run) ++ rest := by
        rw [List.cons_append]
        congr 1
        rw [hrunD, hrestD]
        exact (List.takeWhile_append_dropWhile _ _).symm
      have hgb : group_by (c0 :: cs2) eqNl = (c0 :: run) :: group_by rest eqNl := by
        rw [group_by_cons]
      have hrunnl : ∀ c ∈ run, RankTree.num_leaves c = RankTree.num_leaves c0 := by
        intro c hc
        rw [hrunD] at hc
        have := List.mem_takeWhile_imp hc
        simp only [heqNl, beq_iff_eq] at this
        exact this
      have hrestsub : rest.Sublist cs2 := by
        rw [hrestD]
        exact List.dropWhile_sublist _
      have hrestlen : rest.length ≤ m := by
        have := hrestsub.length_le
        simp only [List.length_cons] at hlen
        omega
      -- the mapped leaf partition splits the same way
      have htwmap : (cs2.map RankTree.num_leaves).takeWhile
          (fun y => decide (y = RankTree.num_leaves c0)) = run.map RankTree.num_leaves := by
        rw [List.takeWhile_map, hrunD]
        congr 1
      have hdwmap : (cs2.map RankTree.num_leaves).dropWhile
          (fun y => decide (y = RankTree.num_leaves c0)) = rest.map RankTree.num_leaves := by
        rw [List.dropWhile_map, hrestD]
        congr 1
      have hgp : group_partition ((c0 :: cs2).map RankTree.num_leaves) =
          (RankTree.num_leaves c0 :: run.map RankTree.num_leaves) ::
            group_partition (rest.map RankTree.num_leaves) := by
        unfold group_partition
        rw [List.map_cons, group_by_cons, htwmap, hdwmap]
      have hpairsplit : num_tree_pairings ((c0 :: cs2).map RankTree.num_leaves) =
          Combination.comb_with_replacement (num_shapes (RankTree.num_leaves c0))
            ((run.length : Int) + 1) *
            num_tree_pairings (rest.map RankTree.num_leaves) := by
        rw [List.map_cons, num_tree_pairings_cons, htwmap, hdwmap]
        rw [List.length_map]
      -- within the first group the cached ranks ascend
      have hordsub : ∀ (l2 : List RT), l2.Sublist (c0 :: cs2) →
          (l2.map (fun c => (RankTree.num_leaves c, RankTree.shape_rank c))).Pairwise keyLeI :=
        fun l2 hsub => List.Pairwise.sublist (List.Sublist.map _ hsub) hord
      have hblocksub : (c0 :: run).Sublist (c0 :: cs2) := by
        rw [hsplit]
        exact (List.sublist_append_left _ _)
      have hblockord := hordsub (c0 :: run) hblocksub
      -- abbreviations for the group quantities
      obtain ⟨S, hS, hS1⟩ : ∃ S : Nat, num_shapes (RankTree.num_leaves c0) = (S : Int) ∧
          1 ≤ S := by
        have h1 := num_shapes_pos (RankTree.num_leaves c0) (hA c0 (by simp)).2.2
        exact ⟨(num_shapes (RankTree.num_leaves c0)).toNat, by omega, by omega⟩
      set ranks1 : List Nat := (c0 :: run).map (fun c => (RankTree.shape_rank c).toNat)
        with hranks1
      have hmemnl : ∀ a ∈ (c0 :: run), RankTree.num_leaves a = RankTree.num_leaves c0 := by
        intro a ha
        rcases List.mem_cons.mp ha with h | h
        · rw [h]
        · exact hrunnl a h
      have hmemcs : ∀ a ∈ (c0 :: run), a ∈ c0 :: cs2 := by
        intro a ha
        rw [hsplit]
        exact List.mem_append.mpr (Or.inl ha)
      have hranks1sorted : ranks1.Sorted (· ≤ ·) := by
        rw [hranks1, List.Sorted, List.pairwise_map]
        have h2 : List.Pairwise
            (fun a b : RT => keyLeI (RankTree.num_leaves a, RankTree.shape_rank a)
              (RankTree.num_leaves b, RankTree.shape_rank b)) (c0 :: run) := by
          have h3 := hblockord
          rwa [List.pairwise_map] at h3
        apply List.Pairwise.imp_of_mem _ h2
        intro a b ha hb hab
        rcases hab with h | h
        · rw [hmemnl a ha, hmemnl b hb] at h
          omega
        · exact Int.toNat_le_toNat h.2
      have hranks1lt : ∀ x ∈ ranks1, x < S := by
        intro x hx
        rw [hranks1] at hx
        simp only [List.mem_map] at hx
        obtain ⟨c, hc, rfl⟩ := hx
        obtain ⟨hge, hlt, _⟩ := hA c (hmemcs c hc)
        rw [hmemnl c hc, hS] at hlt
        omega
      have hranks1len : ranks1.length = run.length + 1 := by
        rw [hranks1]
        simp
      have hwrrB := Combination.wrr_bounds ranks1.length ranks1 S (le_refl _)
        hranks1sorted hranks1lt
      have hwruW := Combination.wru_wrr ranks1.length ranks1 S (le_refl _)
        hranks1sorted hranks1lt
      -- the recursive data for the remaining groups
      have hArest : ∀ c ∈ rest, 0 ≤ RankTree.shape_rank c ∧
          RankTree.shape_rank c < num_shapes (RankTree.num_leaves c) ∧
          1 ≤ RankTree.num_leaves c := by
        intro c hc
        refine hA c ?_
        rw [hsplit]
        exact List.mem_append.mpr (Or.inr hc)
      have hordrest := hordsub rest (by
        rw [hsplit]
        exact List.sublist_append_right _ _)
      obtain ⟨⟨hge0R, hltR⟩, hcsrR⟩ := ih rest hrestlen hArest hordrest
      -- unfold one step of the shape-rank group loop
      have hhead : rtHead (c0 :: run) = c0 := rfl
      have hdrop : ((c0 :: cs2).map RankTree.num_leaves).drop (run.length + 1) =
          rest.map RankTree.num_leaves := by
        rw [show (c0 :: cs2) = (c0 :: run) ++ rest from hsplit, List.map_append]
        rw [show run.length + 1 = ((c0 :: run).map RankTree.num_leaves).length from by simp]
        exact List.drop_left _ _
      have hgrunfold : shapeGroupsRank ((c0 :: cs2).map RankTree.num_leaves)
          ((c0 :: run) :: group_by rest eqNl) =
          Combination.with_replacement_rank ranks1 (num_shapes (RankTree.num_leaves c0)) *
            num_tree_pairings (rest.map RankTree.num_leaves) +
          shapeGroupsRank (rest.map RankTree.num_leaves) (group_by rest eqNl) := by
        rw [shapeGroupsRank]
        rw [hhead]
        rw [show (c0 :: run).length = run.length + 1 from by simp]
        rw [hdrop]
      have hQcast : Combination.comb_with_replacement ((S : Int)) ((ranks1.length : Int)) =
          Combination.comb_with_replacement (num_shapes (RankTree.num_leaves c0))
            ((run.length : Int) + 1) := by
        rw [hS, hranks1len]
        norm_cast
      set grk := Combination.with_replacement_rank ranks1 (num_shapes (RankTree.num_leaves c0))
        with hgrk
      have hgrkS : grk = Combination.with_replacement_rank ranks1 ((S : Int)) := by
        rw [hgrk, hS]
      set P := num_tree_pairings (rest.map RankTree.num_leaves) with hP
      have hP1 : 1 ≤ P := num_tree_pairings_ge_one _
      set grRest := shapeGroupsRank (rest.map RankTree.num_leaves) (group_by rest eqNl)
        with hgrRest
      have hgrk0 : 0 ≤ grk := by rw [hgrkS]; exact hwrrB.1
      have hgrkQ : grk < Combination.comb_with_replacement
          (num_shapes (RankTree.num_leaves c0)) ((run.length : Int) + 1) := by
        rw [hgrkS, ← hQcast]
        exact hwrrB.2
      have hdiv := radix_div grk grRest P hge0R hltR
      -- assemble the three conclusions
      rw [hgb, hgrunfold, hgp, hpairsplit]
      refine ⟨⟨?_, ?_⟩, ?_⟩
      · nlinarith
      · have e1 : (grk + 1) * P = grk * P + P := by ring
        have e2 : (grk + 1) * P ≤ Combination.comb_with_replacement
            (num_shapes (RankTree.num_leaves c0)) ((run.length : Int) + 1) * P :=
          mul_le_mul_of_nonneg_right (by omega) (by omega)
        omega
      · rw [csrGroups]
        simp only [List.headD_cons]
        have hlen1 : (RankTree.num_leaves c0 :: run.map RankTree.num_leaves).length =
            run.length + 1 := by simp
        rw [hlen1, hdrop, hdiv.1, hdiv.2, hcsrR]
        have hwru2 : Combination.with_replacement_unrank grk
            (num_shapes (RankTree.num_leaves c0)) (run.length + 1) = ranks1 := by
          rw [hgrkS, hS, ← hranks1len]
          exact hwruW
        rw [hwru2]
        rw [show (c0 :: cs2) = (c0 :: run) ++ rest from hsplit, List.map_append, hranks1]

/-! ### The shape rank/unrank round trip (claims C1 and C10) -/


theorem stripShapeL_eq_map : ∀ cs : List RT, stripShapeL cs = cs.map stripShape
  | [] => rfl
  | c :: cs => by rw [stripShapeL, List.map_cons, stripShapeL_eq_map cs]

theorem compute_shape_rank_leaf (l : Option Nat) (lr : Option Int) :
    RankTree.compute_shape_rank (RT.leaf l lr) = 0 := rfl

theorem wf_shape_rank_eq : ∀ t : RT, wfShapeB t = true →
    RankTree.shape_rank t = RankTree.compute_shape_rank t := by
  intro t hwf
  cases t with
  | leaf l lr => rfl
  | node cs sr lr =>
    have hwf2 : (((decide (2 ≤ cs.length) &&
        (sr == RankTree.compute_shape_rank (RT.node cs sr lr))) &&
        RankTree.adjOrdered (cs.map RankTree.canonical_order)) && wfShapeBL cs) = true := hwf
    simp only [Bool.and_eq_true, beq_iff_eq, decide_eq_true_eq] at hwf2
    exact hwf2.1.1.2

theorem pairwise_keys_fst_sorted (cs : List RT)
    (h : (cs.map (fun c => (RankTree.num_leaves c, RankTree.shape_rank c))).Pairwise keyLeI) :
    (cs.map RankTree.num_leaves).Sorted (· ≤ ·) := by
  rw [List.pairwise_map] at h
  rw [List.Sorted, List.pairwise_map]
  exact h.imp (fun hab => by rcases hab with h1 | ⟨h1, _⟩ <;> omega)

theorem num_leavesL_ge_length (cs : List RT) (h : ∀ x ∈ cs, 1 ≤ RankTree.num_leaves x) :
    cs.length ≤ RankTree.num_leavesL cs := by
  induction cs with
  | nil => exact Nat.le_refl 0
  | cons c cs ih =>
    have h1 := h c (by simp)
    have h2 := ih (fun x hx => h x (by simp [hx]))
    show (c :: cs).length ≤ RankTree.num_leaves c + RankTree.num_leavesL cs
    simp only [List.length_cons]
    omega

theorem num_leavesL_member_bound (cs : List RT) (h : ∀ x ∈ cs, 1 ≤ RankTree.num_leaves x) :
    ∀ c ∈ cs, RankTree.num_leaves c + cs.length ≤ RankTree.num_leavesL cs + 1 := by
  induction cs with
  | nil => intro c hc; simp at hc
  | cons x xs ih =>
    intro c hc
    have hx1 := h x (by simp)
    have hxs : ∀ y ∈ xs, 1 ≤ RankTree.num_leaves y := fun y hy => h y (by simp [hy])
    have hlenxs := num_leavesL_ge_length xs hxs
    show RankTree.num_leaves c + (x :: xs).length ≤
      RankTree.num_leaves x + RankTree.num_leavesL xs + 1
    simp only [List.length_cons]
    rcases List.mem_cons.mp hc with hcx | hcx
    · subst hcx; omega
    · have := ih hxs c hcx
      have h1c := h c hc
      omega

theorem exceptMapList_map (f : β → Except PyErr γ) (h : α → β) (l : List α) :
    exceptMapList f (l.map h) = exceptMapList (fun a => f (h a)) l := by
  induction l with
  | nil => rfl
  | cons a as ih => rw [List.map_cons, exceptMapList, exceptMapList, ih]

/-- `compute_shape_rank` of a well-formed canonical tree is in range and
`shape_unrank` inverts it, reproducing the tree's unlabelled skeleton. -/
theorem shape_rank_unrank :
    ∀ (m : Nat) (t : RT), RankTree.num_leaves t ≤ m → wfShapeB t = true →
      (0 ≤ RankTree.compute_shape_rank t ∧
        RankTree.compute_shape_rank t < num_shapes (RankTree.num_leaves t)) ∧
      RankTree.shape_unrank (RankTree.compute_shape_rank t) (RankTree.num_leaves t) =
        Except.ok (stripShape t) := by
  intro m
  induction m with
  | zero =>
    intro t hm hwf
    have := wfShape_pos t hwf
    omega
  | succ m ih =>
    intro t hm hwf
    cases t with
    | leaf l lr =>
      have h0 : RankTree.compute_shape_rank (RT.leaf l lr) = 0 := compute_shape_rank_leaf l lr
      refine ⟨⟨h0.ge, ?_⟩, ?_⟩
      · rw [h0]
        show (0 : Int) < num_shapes 1
        decide
      · rw [h0]
        rfl
    | node cs sr lr =>
      have hwf2 : (((decide (2 ≤ cs.length) &&
          (sr == RankTree.compute_shape_rank (RT.node cs sr lr))) &&
          RankTree.adjOrdered (cs.map RankTree.canonical_order)) && wfShapeBL cs) = true := hwf
      simp only [Bool.and_eq_true, beq_iff_eq, decide_eq_true_eq] at hwf2
      obtain ⟨⟨⟨hlen, hcache⟩, hadj⟩, hwfL⟩ := hwf2
      have hchildwf : ∀ c ∈ cs, wfShapeB c = true := wfShapeBL_forall cs hwfL
      have hchild1 : ∀ c ∈ cs, 1 ≤ RankTree.num_leaves c :=
        fun c hc => wfShape_pos c (hchildwf c hc)
      have hnl : RankTree.num_leaves (RT.node cs sr lr) = RankTree.num_leavesL cs := rfl
      have hlenle : cs.length ≤ RankTree.num_leavesL cs := wfShapeL_pos cs hwfL
      have hn2 : 2 ≤ RankTree.num_leavesL cs := by omega
      have hm2 : RankTree.num_leavesL cs ≤ m + 1 := by rw [← hnl]; exact hm
      have hchildlt : ∀ c ∈ cs, RankTree.num_leaves c ≤ m := by
        intro c hc
        have := num_leavesL_member_bound cs hchild1 c hc
        omega
      have hihc : ∀ c ∈ cs,
          (0 ≤ RankTree.compute_shape_rank c ∧
            RankTree.compute_shape_rank c < num_shapes (RankTree.num_leaves c)) ∧
          RankTree.shape_unrank (RankTree.compute_shape_rank c) (RankTree.num_leaves c) =
            Except.ok (stripShape c) :=
        fun c hc => ih c (hchildlt c hc) (hchildwf c hc)
      have hsrc : ∀ c ∈ cs, RankTree.shape_rank c = RankTree.compute_shape_rank c :=
        fun c hc => wf_shape_rank_eq c (hchildwf c hc)
      have hbounds : ∀ c ∈ cs, 0 ≤ RankTree.shape_rank c ∧
          RankTree.shape_rank c < num_shapes (RankTree.num_leaves c) ∧
          1 ≤ RankTree.num_leaves c := by
        intro c hc
        have h1 := (hihc c hc).1
        rw [hsrc c hc]
        exact ⟨h1.1, h1.2, hchild1 c hc⟩
      have hkeys := adjOrdered_pairwise_keys cs hadj
      obtain ⟨⟨hge0, hltp⟩, hcsr⟩ := shapeGroups_exact cs.length cs (le_refl _) hbounds hkeys
      have hsorted := pairwise_keys_fst_sorted cs hkeys
      have hsum : (cs.map RankTree.num_leaves).sum = RankTree.num_leavesL cs :=
        (num_leavesL_eq_sum_map cs).symm
      have hmem1 : ∀ e ∈ cs.map RankTree.num_leaves, 1 ≤ e := by
        intro e he
        simp only [List.mem_map] at he
        obtain ⟨c, hc, rfl⟩ := he
        exact hchild1 c hc
      have hnotsingle : cs.map RankTree.num_leaves ≠ [RankTree.num_leavesL cs] := by
        intro hcon
        have := congrArg List.length hcon
        simp only [List.length_map, List.length_singleton] at this
        omega
      have hpartmem : cs.map RankTree.num_leaves ∈ partition (RankTree.num_leavesL cs) :=
        partition_complete _ hn2 _ hsum hmem1 hsorted hnotsingle
      set G := shapeGroupsRank (cs.map RankTree.num_leaves)
        (group_by cs (fun c1 c2 => RankTree.num_leaves c1 == RankTree.num_leaves c2)) with hG
      have hcr : RankTree.compute_shape_rank (RT.node cs sr lr) =
          priorPairings (cs.map RankTree.num_leaves)
            (partition (RankTree.num_leavesL cs)) + G := rfl
      have hprior0 := priorPairings_nonneg (cs.map RankTree.num_leaves)
        (partition (RankTree.num_leavesL cs))
      have hpriorle := priorPairings_le_sum (cs.map RankTree.num_leaves)
        (partition (RankTree.num_leavesL cs)) hpartmem
      have hshapesum := num_shapes_eq_sum (RankTree.num_leavesL cs) hn2
      have hrange : 0 ≤ RankTree.compute_shape_rank (RT.node cs sr lr) ∧
          RankTree.compute_shape_rank (RT.node cs sr lr) <
            num_shapes (RankTree.num_leavesL cs) := by
        rw [hcr]
        refine ⟨by omega, ?_⟩
        rw [hshapesum]
        omega
      refine ⟨⟨hrange.1, hrange.2⟩, ?_⟩
      show RankTree.shape_unrank (RankTree.compute_shape_rank (RT.node cs sr lr))
          (RankTree.num_leavesL cs) = Except.ok (stripShape (RT.node cs sr lr))
      have hfind : csrFindPart (RankTree.compute_shape_rank (RT.node cs sr lr))
          (partition (RankTree.num_leavesL cs)) =
          some (cs.map RankTree.num_leaves, G) := by
        rw [hcr]
        exact csrFindPart_exact _ _ _ hpartmem hge0 hltp
      have hcsrk : children_shape_ranks (RankTree.compute_shape_rank (RT.node cs sr lr))
          (RankTree.num_leavesL cs) =
          Except.ok (cs.map RankTree.num_leaves,
            cs.map (fun c => (RankTree.shape_rank c).toNat)) := by
        unfold children_shape_ranks
        rw [if_neg (by omega : ¬ RankTree.num_leavesL cs ≤ 1)]
        rw [if_neg (not_not_intro ⟨hrange.1, hrange.2⟩)]
        rw [hfind]
        dsimp only
        rw [hcsr]
      have hzip : (cs.map (fun c => (RankTree.shape_rank c).toNat)).zip
          (cs.map RankTree.num_leaves) =
          cs.map (fun c => ((RankTree.shape_rank c).toNat, RankTree.num_leaves c)) :=
        List.zip_map' _ _ cs
      have hml : exceptMapList
          (fun rk => RankTree.shape_unrankGo (RankTree.num_leavesL cs) ((rk.1 : Int)) rk.2)
          ((cs.map (fun c => (RankTree.shape_rank c).toNat)).zip
            (cs.map RankTree.num_leaves)) =
          Except.ok (cs.map stripShape) := by
        rw [hzip, exceptMapList_map]
        apply exceptMapList_ok_of
        intro c hc
        dsimp only
        have h0c : (0 : Int) ≤ RankTree.shape_rank c := (hbounds c hc).1
        rw [Int.toNat_of_nonneg h0c]
        have hclt : RankTree.num_leaves c < RankTree.num_leavesL cs := by
          have := num_leavesL_member_bound cs hchild1 c hc
          omega
        rw [shape_unrankGo_eq _ _ _ hclt]
        rw [hsrc c hc]
        exact (hihc c hc).2
      unfold RankTree.shape_unrank
      rw [RankTree.shape_unrankGo]
      rw [if_neg (by omega : ¬ RankTree.num_leavesL cs = 1)]
      rw [hcsrk]
      dsimp only
      rw [hml]
      dsimp only
      rw [show stripShape (RT.node cs sr lr) = RT.node (stripShapeL cs) sr none from rfl]
      rw [stripShapeL_eq_map]
      rw [← hcache]

/-! ### Shape equality versus shape rank (claim C10) -/


mutual
theorem stripShape_num_leaves : ∀ t : RT,
    RankTree.num_leaves (stripShape t) = RankTree.num_leaves t
  | RT.leaf _ _ => rfl
  | RT.node cs _ _ => by
    show RankTree.num_leavesL (stripShapeL cs) = RankTree.num_leavesL cs
    exact stripShapeL_num_leaves cs

theorem stripShapeL_num_leaves : ∀ cs : List RT,
    RankTree.num_leavesL (stripShapeL cs) = RankTree.num_leavesL cs
  | [] => rfl
  | c :: cs => by
    show RankTree.num_leaves (stripShape c) + RankTree.num_leavesL (stripShapeL cs) = _
    rw [stripShape_num_leaves c, stripShapeL_num_leaves cs]
    rfl
end

theorem stripShape_shape_rank : ∀ t : RT,
    RankTree.shape_rank (stripShape t) = RankTree.shape_rank t
  | RT.leaf _ _ => rfl
  | RT.node _ _ _ => rfl

mutual
theorem shape_equal_of_strip : ∀ t1 t2 : RT, stripShape t1 = stripShape t2 →
    RankTree.shape_equal t1 t2 = true
  | RT.leaf _ _, RT.leaf _ _, _ => rfl
  | RT.leaf _ _, RT.node cs _ _, h => by
    rw [stripShape, stripShape] at h
    exact absurd h (by simp)
  | RT.node cs _ _, RT.leaf _ _, h => by
    rw [stripShape, stripShape] at h
    exact absurd h (by simp)
  | RT.node cs1 sr1 lr1, RT.node cs2 sr2 lr2, h => by
    rw [stripShape, stripShape] at h
    injection h with hcs hsr hlr
    exact shape_equalL_of_stripL cs1 cs2 hcs

theorem shape_equalL_of_stripL : ∀ cs1 cs2 : List RT, stripShapeL cs1 = stripShapeL cs2 →
    RankTree.shape_equalL cs1 cs2 = true
  | [], [], _ => rfl
  | [], c :: cs, h => by rw [stripShapeL, stripShapeL] at h; exact absurd h (by simp)
  | c :: cs, [], h => by rw [stripShapeL, stripShapeL] at h; exact absurd h (by simp)
  | c1 :: cs1, c2 :: cs2, h => by
    rw [stripShapeL, stripShapeL] at h
    injection h with hc hcs
    rw [RankTree.shape_equalL, shape_equal_of_strip c1 c2 hc,
      shape_equalL_of_stripL cs1 cs2 hcs]
    rfl
end

/-- The child sort key read by `compute_shape_rank`'s grouping and ranking:
the pair of leaf count and cached shape rank. -/
def csk (c : RT) : Nat × Int := (RankTree.num_leaves c, RankTree.shape_rank c)

theorem shapeGroupsRank_congr_keys :
    ∀ (gs1 gs2 : List (List RT)) (partRest : List Nat),
      gs1.map (List.map csk) = gs2.map (List.map csk) →
      shapeGroupsRank partRest gs1 = shapeGroupsRank partRest gs2 := by
  intro gs1
  induction gs1 with
  | nil =>
    intro gs2 partRest h
    have : gs2 = [] := by
      cases gs2 with
      | nil => rfl
      | cons g gs => exact absurd h (by simp)
    subst this
    rfl
  | cons g1 gs1 ih =>
    intro gs2 partRest h
    cases gs2 with
    | nil => exact absurd h (by simp)
    | cons g2 gs2 =>
      simp only [List.map_cons, List.cons.injEq] at h
      obtain ⟨hg, hgs⟩ := h
      have hlen : g1.length = g2.length := by
        have := congrArg List.length hg
        simpa using this
      have hhead : RankTree.num_leaves (rtHead g1) = RankTree.num_leaves (rtHead g2) := by
        cases g1 with
        | nil =>
          cases g2 with
          | nil => rfl
          | cons c2 cs2 => exact absurd hg (by simp)
        | cons c1 cs1 =>
          cases g2 with
          | nil => exact absurd hg (by simp)
          | cons c2 cs2 =>
            simp only [List.map_cons, List.cons.injEq] at hg
            have := congrArg Prod.fst hg.1
            exact this
      have hranks : g1.map (fun c => (RankTree.shape_rank c).toNat) =
          g2.map (fun c => (RankTree.shape_rank c).toNat) := by
        have e1 : ∀ g : List RT, g.map (fun c => (RankTree.shape_rank c).toNat) =
            (g.map csk).map (fun p => p.2.toNat) := by
          intro g
          rw [List.map_map]
          rfl
        rw [e1, e1, hg]
      rw [shapeGroupsRank, shapeGroupsRank]
      rw [hhead, hranks, hlen, ih gs2 _ hgs]

theorem compute_shape_rank_keys (cs1 cs2 : List RT) (a a' : Int) (b b' : Option Int)
    (h : cs1.map csk = cs2.map csk) :
    RankTree.compute_shape_rank (RT.node cs1 a b) =
      RankTree.compute_shape_rank (RT.node cs2 a' b') := by
  have hnl : cs1.map RankTree.num_leaves = cs2.map RankTree.num_leaves := by
    have e1 : ∀ cs : List RT, cs.map RankTree.num_leaves = (cs.map csk).map Prod.fst := by
      intro cs
      rw [List.map_map]
      rfl
    rw [e1, e1, h]
  have hn : RankTree.num_leavesL cs1 = RankTree.num_leavesL cs2 := by
    rw [num_leavesL_eq_sum_map, num_leavesL_eq_sum_map, hnl]
  have hgb : ∀ cs : List RT,
      (group_by cs (fun c1 c2 => RankTree.num_leaves c1 == RankTree.num_leaves c2)).map
          (List.map csk) =
        group_by (cs.map csk) (fun p q => p.1 == q.1) := by
    intro cs
    rw [group_by_ext (fun c1 c2 => RankTree.num_leaves c1 == RankTree.num_leaves c2)
      (fun c1 c2 => (csk c1).1 == (csk c2).1) (fun a b => rfl) cs]
    rw [group_by_map csk (fun p q => p.1 == q.1) cs]
  have hgroups :
      (group_by cs1 (fun c1 c2 => RankTree.num_leaves c1 == RankTree.num_leaves c2)).map
          (List.map csk) =
        (group_by cs2 (fun c1 c2 => RankTree.num_leaves c1 == RankTree.num_leaves c2)).map
          (List.map csk) := by
    rw [hgb, hgb, h]
  show priorPairings (cs1.map RankTree.num_leaves) (partition (RankTree.num_leavesL cs1)) +
      shapeGroupsRank (cs1.map RankTree.num_leaves)
        (group_by cs1 (fun c1 c2 => RankTree.num_leaves c1 == RankTree.num_leaves c2)) = _
  rw [hnl, hn, shapeGroupsRank_congr_keys _ _ _ hgroups]
  rfl

mutual
theorem shape_equal_rank : ∀ t1 t2 : RT, wfShapeB t1 = true → wfShapeB t2 = true →
    RankTree.shape_equal t1 t2 = true →
    RankTree.num_leaves t1 = RankTree.num_leaves t2 ∧
      RankTree.shape_rank t1 = RankTree.shape_rank t2
  | RT.leaf _ _, RT.leaf _ _, _, _, _ => ⟨rfl, rfl⟩
  | RT.leaf a b, RT.node cs sr lr, _, h2, he => by
    have hcs : cs = [] := by
      have : cs.isEmpty = true := he
      simpa [List.isEmpty_iff] using this
    subst hcs
    have h2b : (((decide (2 ≤ ([] : List RT).length) &&
        (sr == RankTree.compute_shape_rank (RT.node [] sr lr))) &&
        RankTree.adjOrdered (([] : List RT).map RankTree.canonical_order)) &&
        wfShapeBL []) = true := h2
    simp at h2b
  | RT.node cs sr lr, RT.leaf a b, h1, _, he => by
    have hcs : cs = [] := by
      have : cs.isEmpty = true := he
      simpa [List.isEmpty_iff] using this
    subst hcs
    have h1b : (((decide (2 ≤ ([] : List RT).length) &&
        (sr == RankTree.compute_shape_rank (RT.node [] sr lr))) &&
        RankTree.adjOrdered (([] : List RT).map RankTree.canonical_order)) &&
        wfShapeBL []) = true := h1
    simp at h1b
  | RT.node cs1 sr1 lr1, RT.node cs2 sr2 lr2, h1, h2, he => by
    have h1b : (((decide (2 ≤ cs1.length) &&
        (sr1 == RankTree.compute_shape_rank (RT.node cs1 sr1 lr1))) &&
        RankTree.adjOrdered (cs1.map RankTree.canonical_order)) && wfShapeBL cs1) = true := h1
    have h2b : (((decide (2 ≤ cs2.length) &&
        (sr2 == RankTree.compute_shape_rank (RT.node cs2 sr2 lr2))) &&
        RankTree.adjOrdered (cs2.map RankTree.canonical_order)) && wfShapeBL cs2) = true := h2
    simp only [Bool.and_eq_true, beq_iff_eq, decide_eq_true_eq] at h1b h2b
    have hL := shape_equal_rankL cs1 cs2 h1b.2 h2b.2 he
    constructor
    · show RankTree.num_leavesL cs1 = RankTree.num_leavesL cs2
      rw [num_leavesL_eq_sum_map, num_leavesL_eq_sum_map]
      have e1 : ∀ cs : List RT, cs.map RankTree.num_leaves = (cs.map csk).map Prod.fst := by
        intro cs
        rw [List.map_map]
        rfl
      rw [e1, e1, hL]
    · show sr1 = sr2
      rw [h1b.1.1.2, h2b.1.1.2]
      exact compute_shape_rank_keys cs1 cs2 sr1 sr2 lr1 lr2 hL

theorem shape_equal_rankL : ∀ cs1 cs2 : List RT, wfShapeBL cs1 = true → wfShapeBL cs2 = true →
    RankTree.shape_equalL cs1 cs2 = true → cs1.map csk = cs2.map csk
  | [], [], _, _, _ => rfl
  | [], _ :: _, _, _, he => by exact absurd he (by rw [RankTree.shape_equalL]; simp)
  | _ :: _, [], _, _, he => by exact absurd he (by rw [RankTree.shape_equalL]; simp)
  | c1 :: cs1, c2 :: cs2, h1, h2, he => by
    have h1b : (wfShapeB c1 && wfShapeBL cs1) = true := h1
    have h2b : (wfShapeB c2 && wfShapeBL cs2) = true := h2
    rw [Bool.and_eq_true] at h1b h2b
    have heb : (RankTree.shape_equal c1 c2 && RankTree.shape_equalL cs1 cs2) = true := he
    rw [Bool.and_eq_true] at heb
    have hhd := shape_equal_rank c1 c2 h1b.1 h2b.1 heb.1
    have htl := shape_equal_rankL cs1 cs2 h1b.2 h2b.2 heb.2
    simp only [List.map_cons, htl, List.cons.injEq, and_true]
    show (RankTree.num_leaves c1, RankTree.shape_rank c1) = _
    rw [hhd.1, hhd.2]
    rfl
end

theorem rank_shape_equal (t1 t2 : RT) (h1 : wfShapeB t1 = true) (h2 : wfShapeB t2 = true)
    (hn : RankTree.num_leaves t1 = RankTree.num_leaves t2)
    (hr : RankTree.shape_rank t1 = RankTree.shape_rank t2) :
    RankTree.shape_equal t1 t2 = true := by
  obtain ⟨_, hu1⟩ := shape_rank_unrank (RankTree.num_leaves t1) t1 (le_refl _) h1
  obtain ⟨_, hu2⟩ := shape_rank_unrank (RankTree.num_leaves t2) t2 (le_refl _) h2
  rw [← wf_shape_rank_eq t1 h1] at hu1
  rw [← wf_shape_rank_eq t2 h2] at hu2
  rw [hn, hr] at hu1
  have heq : Except.ok (ε := PyErr) (stripShape t1) = Except.ok (stripShape t2) := by
    rw [← hu1, ← hu2]
  injection heq with heq2
  exact shape_equal_of_strip t1 t2 heq2

theorem takeWhile_ext_mem (p q : α → Bool) :
    ∀ l : List α, (∀ x ∈ l, p x = q x) → l.takeWhile p = l.takeWhile q := by
  intro l
  induction l with
  | nil => intro _; rfl
  | cons x xs ih =>
    intro h
    rw [List.takeWhile_cons, List.takeWhile_cons, h x (by simp)]
    by_cases hq : q x = true
    · rw [if_pos hq, if_pos hq, ih (fun y hy => h y (by simp [hy]))]
    · rw [if_neg hq, if_neg hq]

theorem dropWhile_ext_mem (p q : α → Bool) :
    ∀ l : List α, (∀ x ∈ l, p x = q x) → l.dropWhile p = l.dropWhile q := by
  intro l
  induction l with
  | nil => intro _; rfl
  | cons x xs ih =>
    intro h
    rw [List.dropWhile_cons, List.dropWhile_cons, h x (by simp)]
    by_cases hq : q x = true
    · rw [if_pos hq, if_pos hq, ih (fun y hy => h y (by simp [hy]))]
    · rw [if_neg hq, if_neg hq]

theorem group_by_ext_mem (eq1 eq2 : α → α → Bool) :
    ∀ l : List α, (∀ a ∈ l, ∀ b ∈ l, eq1 a b = eq2 a b) →
      group_by l eq1 = group_by l eq2 := by
  intro l
  obtain ⟨m, hm⟩ : ∃ m, l.length ≤ m := ⟨l.length, le_refl _⟩
  induction m generalizing l with
  | zero =>
    have : l = [] := List.eq_nil_of_length_eq_zero (Nat.le_zero.mp hm)
    subst this
    intro _
    rfl
  | succ m ih =>
    cases l with
    | nil => intro _; rfl
    | cons x xs =>
      intro h
      rw [group_by_cons, group_by_cons]
      have htw : xs.takeWhile (fun y => eq1 y x) = xs.takeWhile (fun y => eq2 y x) :=
        takeWhile_ext_mem _ _ xs (fun y hy => h y (by simp [hy]) x (by simp))
      have hdw : xs.dropWhile (fun y => eq1 y x) = xs.dropWhile (fun y => eq2 y x) :=
        dropWhile_ext_mem _ _ xs (fun y hy => h y (by simp [hy]) x (by simp))
      rw [htw, hdw]
      congr 1
      apply ih
      · have := (List.dropWhile_sublist (l := xs) (fun y => eq2 y x)).length_le
        simp at hm
        omega
      · intro a ha b hb
        have hsub := (List.dropWhile_sublist (l := xs) (fun y => eq2 y x)).subset
        exact h a (by simp [hsub ha]) b (by simp [hsub hb])

/-- Claim C10: on well-formed canonical trees with equally many leaves,
structural shape equality holds exactly when the cached shape ranks agree;
consequently `group_children_by_shape`, which groups consecutive children by
equality of the pair `(num_leaves, _shape_rank)`, groups exactly the
shape-equal children. -/
theorem C10_shape_equal_iff_shape_rank :
    (∀ t1 t2 : RT, wfShapeB t1 = true → wfShapeB t2 = true →
      RankTree.num_leaves t1 = RankTree.num_leaves t2 →
      (RankTree.shape_equal t1 t2 = true ↔
        RankTree.shape_rank t1 = RankTree.shape_rank t2)) ∧
    (∀ t : RT, wfShapeB t = true →
      RankTree.group_children_by_shape t =
        group_by (RankTree.children t) (fun c1 c2 => RankTree.shape_equal c1 c2)) := by
  constructor
  · intro t1 t2 h1 h2 hn
    constructor
    · intro he
      exact (shape_equal_rank t1 t2 h1 h2 he).2
    · intro hr
      exact rank_shape_equal t1 t2 h1 h2 hn hr
  · intro t hwf
    have hcwf : ∀ c ∈ RankTree.children t, wfShapeB c = true := by
      cases t with
      | leaf l lr => intro c hc; exact absurd hc (by simp [RankTree.children])
      | node cs sr lr =>
        have hb : (((decide (2 ≤ cs.length) &&
            (sr == RankTree.compute_shape_rank (RT.node cs sr lr))) &&
            RankTree.adjOrdered (cs.map RankTree.canonical_order)) && wfShapeBL cs) =
            true := hwf
        rw [Bool.and_eq_true] at hb
        exact wfShapeBL_forall cs hb.2
    apply group_by_ext_mem
    intro a ha b hb
    have hwa := hcwf a ha
    have hwb := hcwf b hb
    by_cases hse : RankTree.shape_equal a b = true
    · have := shape_equal_rank a b hwa hwb hse
      rw [hse]
      simp [this.1, this.2]
    · rw [Bool.not_eq_true] at hse
      rw [hse]
      rw [Bool.and_eq_false_iff]
      by_cases hnl : RankTree.num_leaves a = RankTree.num_leaves b
      · right
        rw [beq_eq_false_iff_ne]
        intro hsr
        rw [← Bool.not_eq_true] at hse
        exact hse (rank_shape_equal a b hwa hwb hnl hsr)
      · left
        rw [beq_eq_false_iff_ne]
        exact hnl

/-- Witness for C10: the 3-leaf star and the 3-leaf caterpillar are both
well-formed, share the leaf count, and are told apart by rank exactly as by
structure; the caterpillar's children grouped by shape. -/
theorem C10_shape_equal_iff_shape_rank_witness :
    (RankTree.shape_equal (RT.node [RT.leaf none none, RT.leaf none none, RT.leaf none none] 0 none)
        (RT.node [RT.leaf none none, RT.node [RT.leaf none none, RT.leaf none none] 0 none] 1 none) =
          true ↔
      RankTree.shape_rank
          (RT.node [RT.leaf none none, RT.leaf none none, RT.leaf none none] 0 none) =
        RankTree.shape_rank
          (RT.node [RT.leaf none none,
            RT.node [RT.leaf none none, RT.leaf none none] 0 none] 1 none)) ∧
    RankTree.group_children_by_shape
        (RT.node [RT.leaf none none,
          RT.node [RT.leaf none none, RT.leaf none none] 0 none] 1 none) =
      group_by
        (RankTree.children
          (RT.node [RT.leaf none none,
            RT.node [RT.leaf none none, RT.leaf none none] 0 none] 1 none))
        (fun c1 c2 => RankTree.shape_equal c1 c2) :=
  ⟨C10_shape_equal_iff_shape_rank.1
      (RT.node [RT.leaf none none, RT.leaf none none, RT.leaf none none] 0 none)
      (RT.node [RT.leaf none none, RT.node [RT.leaf none none, RT.leaf none none] 0 none] 1 none)
      (by decide) (by decide) (by decide),
    C10_shape_equal_iff_shape_rank.2
      (RT.node [RT.leaf none none,
        RT.node [RT.leaf none none, RT.leaf none none] 0 none] 1 none)
      (by decide)⟩

/-! ### Sorted-label bookkeeping for `label_unrank` -/


theorem mem_set_minus (l s : List Nat) (x : Nat) :
    x ∈ set_minus l s ↔ x ∈ l ∧ x ∉ s := by
  unfold set_minus
  rw [List.mem_filter]
  simp

theorem set_minus_nil_right (l : List Nat) : set_minus l [] = l := by
  unfold set_minus
  apply List.filter_eq_self.mpr
  intro x _
  simp

theorem set_minus_sublist (l s : List Nat) : (set_minus l s).Sublist l := by
  unfold set_minus
  exact List.filter_sublist l

theorem set_minus_pairwise (r : Nat → Nat → Prop) (l s : List Nat) (h : l.Pairwise r) :
    (set_minus l s).Pairwise r := by
  unfold set_minus
  exact h.filter _

theorem set_minus_sub_sublist (g l s : List Nat) (h : g.Sublist l) :
    (set_minus g s).Sublist (set_minus l s) := by
  unfold set_minus
  exact h.filter _

theorem set_minus_cons_not_mem (a : Nat) (l s : List Nat) (h : a ∉ s) :
    set_minus (a :: l) s = a :: set_minus l s := by
  unfold set_minus
  rw [List.filter_cons, if_pos (by simpa using h)]

theorem set_minus_cons_drop (a : Nat) (l s : List Nat) (hal : a ∉ l) :
    set_minus (a :: l) (a :: s) = set_minus l s := by
  unfold set_minus
  rw [List.filter_cons, if_neg (by simp)]
  apply List.filter_congr
  intro x hx
  have hxa : x ≠ a := fun hc => hal (hc ▸ hx)
  simp [hxa]

theorem set_minus_length (l : List Nat) :
    ∀ s : List Nat, l.Nodup → s.Sublist l → (set_minus l s).length + s.length = l.length := by
  induction l with
  | nil =>
    intro s _ hs
    have : s = [] := List.sublist_nil.mp hs
    subst this
    rfl
  | cons a l ih =>
    intro s hnd hs
    have hal : a ∉ l := (List.nodup_cons.mp hnd).1
    have hndl : l.Nodup := (List.nodup_cons.mp hnd).2
    cases hs with
    | cons _ hs2 =>
      have hans : a ∉ s := fun hc => hal (hs2.subset hc)
      rw [set_minus_cons_not_mem a l s hans]
      have := ih s hndl hs2
      simp only [List.length_cons]
      omega
    | cons₂ _ hs2 =>
      rw [set_minus_cons_drop _ _ _ hal]
      have := ih _ hndl hs2
      simp only [List.length_cons]
      omega

theorem mergeTwoGo_nil_left : ∀ (f : Nat) (ys : List (Option Nat)),
    mergeTwoGo f [] ys = ys
  | 0, ys => List.nil_append ys
  | f + 1, ys => rfl

theorem mergeTwoGo_nil_right : ∀ (f : Nat) (xs : List (Option Nat)),
    mergeTwoGo f xs [] = xs
  | 0, xs => List.append_nil xs
  | f + 1, [] => rfl
  | f + 1, x :: xs => rfl

theorem mergeTwo_nil_left (ys : List (Option Nat)) : mergeTwo [] ys = ys :=
  mergeTwoGo_nil_left _ ys

theorem mergeTwo_nil_right (xs : List (Option Nat)) : mergeTwo xs [] = xs :=
  mergeTwoGo_nil_right _ xs

theorem mergeTwoGo_fuel : ∀ (f1 : Nat) (xs ys : List (Option Nat)) (f2 : Nat),
    xs.length + ys.length ≤ f1 → xs.length + ys.length ≤ f2 →
    mergeTwoGo f1 xs ys = mergeTwoGo f2 xs ys := by
  intro f1
  induction f1 with
  | zero =>
    intro xs ys f2 h1 _
    have hx : xs = [] := by
      cases xs with
      | nil => rfl
      | cons a as => simp at h1
    subst hx
    rw [mergeTwoGo_nil_left, mergeTwoGo_nil_left]
  | succ f1 ih =>
    intro xs ys f2 h1 h2
    cases xs with
    | nil => rw [mergeTwoGo_nil_left, mergeTwoGo_nil_left]
    | cons x xs2 =>
      cases ys with
      | nil => rw [mergeTwoGo_nil_right, mergeTwoGo_nil_right]
      | cons y ys2 =>
        cases f2 with
        | zero => simp at h2
        | succ f2 =>
          rw [mergeTwoGo.eq_def, mergeTwoGo.eq_def]
          dsimp only
          simp only [List.length_cons] at h1 h2
          by_cases hle : optLe x y = true
          · rw [if_pos hle, if_pos hle,
              ih xs2 (y :: ys2) f2 (by simp only [List.length_cons]; omega)
                (by simp only [List.length_cons]; omega)]
          · rw [if_neg hle, if_neg hle,
              ih (x :: xs2) ys2 f2 (by simp only [List.length_cons]; omega)
                (by simp only [List.length_cons]; omega)]

theorem mergeTwo_cons_cons (x y : Option Nat) (xs ys : List (Option Nat)) :
    mergeTwo (x :: xs) (y :: ys) =
      if optLe x y then x :: mergeTwo xs (y :: ys) else y :: mergeTwo (x :: xs) ys := by
  have e : (x :: xs).length + (y :: ys).length = xs.length + ys.length + 1 + 1 := by
    simp only [List.length_cons]
    omega
  unfold mergeTwo
  rw [e, mergeTwoGo.eq_def]
  dsimp only
  by_cases hle : optLe x y = true
  · rw [if_pos hle, if_pos hle]
    congr 1
  · rw [if_neg hle, if_neg hle]
    congr 1
    exact mergeTwoGo_fuel _ _ _ _ (by simp only [List.length_cons]; omega)
      (by simp only [List.length_cons]; omega)

/-- Merging a sublist of a strictly sorted list with its complement
reconstructs the list. -/
theorem mergeTwo_complement :
    ∀ (lbls s : List Nat), List.Pairwise (· < ·) lbls → s.Sublist lbls →
      mergeTwo (s.map some) ((set_minus lbls s).map some) = lbls.map some := by
  intro lbls
  induction lbls with
  | nil =>
    intro s _ hs
    have : s = [] := List.sublist_nil.mp hs
    subst this
    rfl
  | cons a l ih =>
    intro s hsort hs
    have hal : ∀ x ∈ l, a < x := (List.pairwise_cons.mp hsort).1
    have hsl : l.Pairwise (· < ·) := (List.pairwise_cons.mp hsort).2
    have hanl : a ∉ l := fun hc => lt_irrefl a (hal a hc)
    cases hs with
    | cons _ hs2 =>
      have hans : a ∉ s := fun hc => hanl (hs2.subset hc)
      rw [set_minus_cons_not_mem a l s hans]
      cases s with
      | nil =>
        rw [List.map_nil, mergeTwo_nil_left, set_minus_nil_right]
      | cons b s2 =>
        have hbmem : b ∈ l := hs2.subset (by simp)
        have hab : a < b := hal b hbmem
        rw [List.map_cons, List.map_cons, mergeTwo_cons_cons]
        rw [if_neg (by simp only [optLe, decide_eq_true_eq]; omega)]
        have hihr := ih (b :: s2) hsl hs2
        rw [List.map_cons] at hihr
        rw [hihr, List.map_cons]
    | cons₂ _ hs2 =>
      rename_i s2
      rw [set_minus_cons_drop a l _ hanl, List.map_cons]
      cases hsm : set_minus l s2 with
      | nil =>
        rw [List.map_nil, mergeTwo_nil_right]
        have hihr := ih s2 hsl hs2
        rw [hsm, List.map_nil, mergeTwo_nil_right] at hihr
        rw [hihr, List.map_cons]
      | cons w ws =>
        rw [List.map_cons, mergeTwo_cons_cons]
        have hw : w ∈ l := (set_minus_sublist l s2).subset (by rw [hsm]; simp)
        rw [if_pos (by simp only [optLe, decide_eq_true_eq]; exact le_of_lt (hal w hw))]
        have hihr := ih s2 hsl hs2
        rw [hsm, List.map_cons] at hihr
        rw [hihr, List.map_cons]

/-- `isSplit lbls blocks rem`: the successive blocks are carved out of `lbls`
exactly as the `set_minus` bookkeeping of `children_label_ranks` does, leaving
`rem`. -/
def isSplit : List Nat → List (List Nat) → List Nat → Prop
  | lbls, [], rem => rem = lbls
  | lbls, s :: ss, rem => s.Sublist lbls ∧ isSplit (set_minus lbls s) ss rem

theorem isSplit_append : ∀ (xs ys : List (List Nat)) (lbls rem1 rem2 : List Nat),
    isSplit lbls xs rem1 → isSplit rem1 ys rem2 → isSplit lbls (xs ++ ys) rem2 := by
  intro xs
  induction xs with
  | nil =>
    intro ys lbls rem1 rem2 h1 h2
    have he : rem1 = lbls := h1
    rw [List.nil_append]
    rw [← he]
    exact h2
  | cons s ss ih =>
    intro ys lbls rem1 rem2 h1 h2
    obtain ⟨hsub, hrest⟩ := h1
    exact ⟨hsub, ih ys _ rem1 rem2 hrest h2⟩

theorem isSplit_mem_sublist : ∀ (ss : List (List Nat)) (lbls rem : List Nat),
    isSplit lbls ss rem → ∀ s ∈ ss, s.Sublist lbls := by
  intro ss
  induction ss with
  | nil => intro lbls rem _ s hs; simp at hs
  | cons s0 ss ih =>
    intro lbls rem h s hs
    obtain ⟨hsub, hrest⟩ := h
    rcases List.mem_cons.mp hs with hc | hc
    · rw [hc]; exact hsub
    · exact (ih _ _ hrest s hc).trans (set_minus_sublist lbls s0)

theorem set_minus_set_minus (lbls s1 s : List Nat) (hsub : s1.Sublist s) :
    set_minus (set_minus lbls s1) (set_minus s s1) = set_minus lbls s := by
  unfold set_minus
  rw [List.filter_filter]
  apply List.filter_congr
  intro x hx
  by_cases h1 : x ∈ s1
  · have hxs : x ∈ s := hsub.subset h1
    simp [h1, hxs]
  · by_cases h2 : x ∈ s
    · have hmf : x ∈ s.filter (fun y => decide (y ∉ s1)) :=
        List.mem_filter.mpr ⟨h2, by simp [h1]⟩
      simp [h1, h2, hmf]
    · have hmf : x ∉ s.filter (fun y => decide (y ∉ s1)) :=
        fun hc => h2 (List.mem_filter.mp hc).1
      simp [h1, h2, hmf]

theorem isSplit_sub : ∀ (ss : List (List Nat)) (s lbls : List Nat),
    s.Sublist lbls → isSplit s ss [] → isSplit lbls ss (set_minus lbls s) := by
  intro ss
  induction ss with
  | nil =>
    intro s lbls hsub h
    have hs : ([] : List Nat) = s := h
    show set_minus lbls s = lbls
    rw [← hs, set_minus_nil_right]
  | cons s1 ss ih =>
    intro s lbls hsub h
    obtain ⟨hs1, hrest⟩ := h
    refine ⟨hs1.trans hsub, ?_⟩
    have hlift := ih (set_minus s s1) (set_minus lbls s1)
      (set_minus_sub_sublist _ _ _ hsub) hrest
    rw [set_minus_set_minus lbls s1 s hs1] at hlift
    exact hlift

/-- The sorted merge of the per-child label lists of an `isSplit`
decomposition that uses all labels reconstructs the full sorted label list. -/
theorem mergeAll_decomp : ∀ (lss : List (List Nat)) (lbls : List Nat),
    List.Pairwise (· < ·) lbls → isSplit lbls lss [] →
    mergeAll (lss.map (List.map some)) = lbls.map some := by
  intro lss
  induction lss with
  | nil =>
    intro lbls _ h
    have : ([] : List Nat) = lbls := h
    rw [← this]
    rfl
  | cons s ss ih =>
    intro lbls hsort h
    obtain ⟨hsub, hrest⟩ := h
    rw [List.map_cons, mergeAll]
    rw [ih (set_minus lbls s) (set_minus_pairwise _ _ _ hsort) hrest]
    exact mergeTwo_complement lbls s hsort hsub

/-! ### Congruence of the labelling counts under `stripShape` -/


mutual
theorem rtDepth_strip : ∀ t : RT, RankTree.rtDepth (stripShape t) = RankTree.rtDepth t
  | RT.leaf _ _ => rfl
  | RT.node cs _ _ => by
    show RankTree.rtDepthL (stripShapeL cs) + 1 = RankTree.rtDepthL cs + 1
    rw [rtDepthL_strip cs]

theorem rtDepthL_strip : ∀ cs : List RT,
    RankTree.rtDepthL (stripShapeL cs) = RankTree.rtDepthL cs
  | [] => rfl
  | c :: cs => by
    show max (RankTree.rtDepth (stripShape c)) (RankTree.rtDepthL (stripShapeL cs)) = _
    rw [rtDepth_strip c, rtDepthL_strip cs]
    rfl
end

theorem labelsL_eq_map : ∀ cs : List RT, RankTree.labelsL cs = cs.map RankTree.labels
  | [] => rfl
  | c :: cs => by rw [RankTree.labelsL, List.map_cons, labelsL_eq_map cs]

theorem rtHead_mem (g : List RT) (h : g ≠ []) : rtHead g ∈ g := by
  cases g with
  | nil => exact absurd rfl h
  | cons c cs => exact List.mem_cons_self c cs

theorem is_leaf_strip : ∀ t : RT, RankTree.is_leaf (stripShape t) = RankTree.is_leaf t
  | RT.leaf _ _ => rfl
  | RT.node cs _ _ => by
    show (stripShapeL cs).isEmpty = cs.isEmpty
    rw [stripShapeL_eq_map]
    cases cs <;> rfl

theorem group_by_map_strip (cs : List RT) :
    group_by (cs.map stripShape)
        (fun c1 c2 => RankTree.num_leaves c1 == RankTree.num_leaves c2 &&
          RankTree.shape_rank c1 == RankTree.shape_rank c2) =
      (group_by cs (fun c1 c2 => RankTree.num_leaves c1 == RankTree.num_leaves c2 &&
          RankTree.shape_rank c1 == RankTree.shape_rank c2)).map (List.map stripShape) := by
  rw [group_by_map stripShape _ cs]
  congr 1
  apply group_by_ext
  intro a b
  rw [stripShape_num_leaves, stripShape_num_leaves, stripShape_shape_rank,
    stripShape_shape_rank]

theorem gcbs_strip (cs : List RT) (a a2 : Int) (b b2 : Option Int) :
    RankTree.group_children_by_shape (RT.node (stripShapeL cs) a2 b2) =
      (RankTree.group_children_by_shape (RT.node cs a b)).map (List.map stripShape) := by
  show group_by (stripShapeL cs) _ = _
  rw [stripShapeL_eq_map]
  exact group_by_map_strip cs

theorem naig_strip (g : List RT) :
    num_assignments_in_group (g.map stripShape) = num_assignments_in_group g := by
  unfold num_assignments_in_group
  rw [List.length_map]
  have hhead : rtHead (g.map stripShape) = stripShape (rtHead g) := by
    cases g <;> rfl
  rw [hhead, stripShape_num_leaves]

theorem groupsLeaves_map_strip : ∀ gs : List (List RT),
    groupsLeaves (gs.map (List.map stripShape)) = groupsLeaves gs := by
  intro gs
  induction gs with
  | nil => rfl
  | cons g gs ih =>
    unfold groupsLeaves at ih ⊢
    simp only [List.map_cons, List.sum_cons]
    rw [ih]
    have hhead : rtHead (g.map stripShape) = stripShape (rtHead g) := by
      cases g <;> rfl
    rw [List.length_map, hhead, stripShape_num_leaves]

theorem nlglF_strip : ∀ (gs : List (List RT)) (r : Int) (f : RT → Int),
    (∀ c : RT, f (stripShape c) = f c) →
    nlglF f r (gs.map (List.map stripShape)) = nlglF f r gs := by
  intro gs
  induction gs with
  | nil => intro r f _; rfl
  | cons g gs ih =>
    intro r f hf
    have hhead : rtHead (g.map stripShape) = stripShape (rtHead g) := by
      cases g <;> rfl
    simp only [List.map_cons, nlglF]
    rw [hhead, stripShape_num_leaves, hf, List.length_map, naig_strip, ih _ f hf]

theorem nlglF_congr : ∀ (gs : List (List RT)) (f1 f2 : RT → Int) (r : Int),
    (∀ g ∈ gs, f1 (rtHead g) = f2 (rtHead g)) → nlglF f1 r gs = nlglF f2 r gs := by
  intro gs
  induction gs with
  | nil => intro f1 f2 r _; rfl
  | cons g gs ih =>
    intro f1 f2 r h
    simp only [nlglF]
    rw [h g (by simp), ih f1 f2 _ (fun g2 hg2 => h g2 (by simp [hg2]))]

theorem num_labellingsGo_strip : ∀ (fuel : Nat) (t : RT),
    RankTree.num_labellingsGo fuel (stripShape t) = RankTree.num_labellingsGo fuel t := by
  intro fuel
  induction fuel with
  | zero => intro t; rfl
  | succ fuel ih =>
    intro t
    rw [RankTree.num_labellingsGo, RankTree.num_labellingsGo, is_leaf_strip]
    by_cases hl : RankTree.is_leaf t = true
    · rw [if_pos hl, if_pos hl]
    · rw [if_neg hl, if_neg hl]
      cases t with
      | leaf l lr => exact absurd rfl hl
      | node cs sr lrf =>
        rw [show stripShape (RT.node cs sr lrf) = RT.node (stripShapeL cs) sr none from rfl]
        rw [gcbs_strip cs sr sr lrf none]
        rw [groupsLeaves_map_strip, nlglF_strip _ _ _ ih]

theorem num_labellings_strip (t : RT) :
    RankTree.num_labellings (stripShape t) = RankTree.num_labellings t := by
  unfold RankTree.num_labellings
  rw [rtDepth_strip, num_labellingsGo_strip]

theorem num_labellingsGo_congr : ∀ (f1 : Nat) (t : RT) (f2 : Nat),
    RankTree.rtDepth t < f1 → RankTree.rtDepth t < f2 →
    RankTree.num_labellingsGo f1 t = RankTree.num_labellingsGo f2 t := by
  intro f1
  induction f1 with
  | zero => intro t f2 h1 _; omega
  | succ f1 ih =>
    intro t f2 h1 h2
    cases f2 with
    | zero => omega
    | succ f2 =>
      rw [RankTree.num_labellingsGo, RankTree.num_labellingsGo]
      by_cases hl : RankTree.is_leaf t = true
      · rw [if_pos hl, if_pos hl]
      · rw [if_neg hl, if_neg hl]
        cases t with
        | leaf l lr => exact absurd rfl hl
        | node cs sr lrf =>
          apply nlglF_congr
          intro g hg
          have hgne : g ≠ [] := group_by_ne_nil _ _ g hg
          have hmem : rtHead g ∈ cs :=
            group_by_mem_of_mem_group _ _ g hg (rtHead g) (rtHead_mem g hgne)
          have hd : RankTree.rtDepth (rtHead g) ≤ RankTree.rtDepthL cs :=
            rtDepthL_bound cs _ hmem
          have hdt : RankTree.rtDepth (RT.node cs sr lrf) = RankTree.rtDepthL cs + 1 := rfl
          exact ih (rtHead g) f2 (by omega) (by omega)

theorem num_labellings_node_eq (cs : List RT) (a : Int) (b : Option Int) :
    RankTree.num_labellings (RT.node cs a b) =
      num_list_of_group_labellings (RankTree.group_children_by_shape (RT.node cs a b)) := by
  unfold RankTree.num_labellings num_list_of_group_labellings
  rw [RankTree.num_labellingsGo]
  by_cases hl : RankTree.is_leaf (RT.node cs a b) = true
  · rw [if_pos hl]
    have hcs : cs = [] := by
      have : cs.isEmpty = true := hl
      simpa [List.isEmpty_iff] using this
    subst hcs
    rfl
  · rw [if_neg hl]
    apply nlglF_congr
    intro g hg
    have hgne : g ≠ [] := group_by_ne_nil _ _ g hg
    have hmem : rtHead g ∈ cs :=
      group_by_mem_of_mem_group _ _ g hg (rtHead g) (rtHead_mem g hgne)
    have hd : RankTree.rtDepth (rtHead g) ≤ RankTree.rtDepthL cs :=
      rtDepthL_bound cs _ hmem
    have hdt : RankTree.rtDepth (RT.node cs a b) = RankTree.rtDepthL cs + 1 := rfl
    show RankTree.num_labellingsGo (RankTree.rtDepth (RT.node cs a b)) (rtHead g) =
      RankTree.num_labellings (rtHead g)
    unfold RankTree.num_labellings
    exact num_labellingsGo_congr _ (rtHead g) _ (by omega) (by omega)

theorem wf_strip_eq_of_key (c1 c2 : RT) (h1 : wfShapeB c1 = true) (h2 : wfShapeB c2 = true)
    (hn : RankTree.num_leaves c1 = RankTree.num_leaves c2)
    (hr : RankTree.shape_rank c1 = RankTree.shape_rank c2) :
    stripShape c1 = stripShape c2 := by
  obtain ⟨_, hu1⟩ := shape_rank_unrank (RankTree.num_leaves c1) c1 (le_refl _) h1
  obtain ⟨_, hu2⟩ := shape_rank_unrank (RankTree.num_leaves c2) c2 (le_refl _) h2
  rw [← wf_shape_rank_eq c1 h1] at hu1
  rw [← wf_shape_rank_eq c2 h2] at hu2
  rw [hn, hr] at hu1
  have heq : Except.ok (ε := PyErr) (stripShape c1) = Except.ok (stripShape c2) := by
    rw [← hu1, ← hu2]
  injection heq

theorem csk_strip (t : RT) : csk (stripShape t) = csk t := by
  unfold csk
  rw [stripShape_num_leaves, stripShape_shape_rank]

theorem csk_congr_strip (a b : RT) (h : stripShape a = stripShape b) : csk a = csk b := by
  rw [← csk_strip a, ← csk_strip b, h]

theorem numlab_congr_strip (a b : RT) (h : stripShape a = stripShape b) :
    RankTree.num_labellings a = RankTree.num_labellings b := by
  rw [← num_labellings_strip a, ← num_labellings_strip b, h]

theorem nl_congr_strip (a b : RT) (h : stripShape a = stripShape b) :
    RankTree.num_leaves a = RankTree.num_leaves b := by
  rw [← stripShape_num_leaves a, ← stripShape_num_leaves b, h]

theorem groupsLeaves_eq : ∀ gs : List (List RT),
    (∀ g ∈ gs, ∀ c ∈ g, RankTree.num_leaves c = RankTree.num_leaves (rtHead g)) →
    groupsLeaves gs = RankTree.num_leavesL gs.flatten := by
  intro gs
  induction gs with
  | nil => intro _; rfl
  | cons g gs ih =>
    intro h
    unfold groupsLeaves
    simp only [List.map_cons, List.sum_cons, List.flatten_cons]
    rw [num_leavesL_append]
    have h1 : RankTree.num_leavesL g = RankTree.num_leaves (rtHead g) * g.length :=
      num_leavesL_const g _ (h g (by simp))
    rw [Nat.mul_comm] at h1
    have h2 := ih (fun g2 hg2 => h g2 (by simp [hg2]))
    unfold groupsLeaves at h2
    omega

theorem group_by_boundary_chain (equal : α → α → Bool) (d : α) :
    ∀ l : List α, List.Chain' (fun g1 g2 => equal (g2.headD d) (g1.headD d) = false)
      (group_by l equal) := by
  intro l
  obtain ⟨m, hm⟩ : ∃ m, l.length ≤ m := ⟨l.length, le_refl _⟩
  induction m generalizing l with
  | zero =>
    have : l = [] := List.eq_nil_of_length_eq_zero (Nat.le_zero.mp hm)
    subst this
    rw [group_by_nil]
    exact List.chain'_nil
  | succ m ih =>
    cases l with
    | nil =>
      rw [group_by_nil]
      exact List.chain'_nil
    | cons x xs =>
      rw [group_by_cons]
      rw [List.chain'_cons']
      constructor
      · intro g2 hg2
        cases hdw : xs.dropWhile (fun y => equal y x) with
        | nil =>
          rw [hdw, group_by_nil] at hg2
          simp at hg2
        | cons y ys =>
          rw [hdw, group_by_cons] at hg2
          simp only [List.head?_cons, Option.mem_def, Option.some.injEq] at hg2
          rw [← hg2]
          simp only [List.headD_cons]
          exact dropWhile_head_false _ xs y ys hdw
      · have hlen : (xs.dropWhile (fun y => equal y x)).length ≤ m := by
          have := (List.dropWhile_sublist (l := xs) (fun y => equal y x)).length_le
          simp at hm
          omega
        exact ih _ hlen

theorem adjOrdered_of_chain' : ∀ l : List (Nat × Int × Option Nat),
    List.Chain' (fun a b => RankTree.ordGt a b = false) l → RankTree.adjOrdered l = true
  | [], _ => rfl
  | [_], _ => rfl
  | a :: b :: r, h => by
    rw [RankTree.adjOrdered]
    have h1 : RankTree.ordGt a b = false := (List.chain'_cons.mp h).1
    have h2 := (List.chain'_cons.mp h).2
    simp [h1, adjOrdered_of_chain' (b :: r) h2]

theorem is_canonicalL_of_forall : ∀ vs : List RT,
    (∀ v ∈ vs, RankTree.is_canonical v = true) → RankTree.is_canonicalL vs = true := by
  intro vs
  induction vs with
  | nil => intro _; rfl
  | cons v vs ih =>
    intro h
    rw [RankTree.is_canonicalL, h v (by simp), ih (fun w hw => h w (by simp [hw]))]
    rfl

theorem stripL_eq_of_forall2 : ∀ (cs vs : List RT),
    List.Forall₂ (fun c v => stripShape v = stripShape c) cs vs →
    stripShapeL vs = stripShapeL cs := by
  intro cs vs h
  induction h with
  | nil => rfl
  | @cons c v cs2 vs2 hr ht ih => rw [stripShapeL, stripShapeL, hr, ih]

theorem exceptMapList_append (f : α → Except PyErr β) :
    ∀ (l1 l2 : List α) (r1 r2 : List β),
      exceptMapList f l1 = Except.ok r1 → exceptMapList f l2 = Except.ok r2 →
      exceptMapList f (l1 ++ l2) = Except.ok (r1 ++ r2) := by
  intro l1
  induction l1 with
  | nil =>
    intro l2 r1 r2 h1 h2
    have : r1 = [] := by
      have he : Except.ok (ε := PyErr) ([] : List β) = Except.ok r1 := h1
      injection he with he2
      exact he2.symm
    subst this
    rw [List.nil_append, List.nil_append]
    exact h2
  | cons a as ih =>
    intro l2 r1 r2 h1 h2
    rw [exceptMapList] at h1
    rw [List.cons_append, exceptMapList]
    cases hfa : f a with
    | error e => rw [hfa] at h1; exact absurd h1 (by simp)
    | ok b =>
      rw [hfa] at h1
      cases hrest : exceptMapList f as with
      | error e => rw [hrest] at h1; exact absurd h1 (by simp)
      | ok bs =>
        rw [hrest] at h1
        dsimp only at h1
        injection h1 with h1b
        subst h1b
        rw [ih l2 bs r2 hrest h2]
        dsimp only
        rw [List.cons_append]

theorem zip_append_len (l1 : List α) :
    ∀ (l2 : List α) (m1 m2 : List β), l1.length = m1.length →
      (l1 ++ l2).zip (m1 ++ m2) = l1.zip m1 ++ l2.zip m2 := by
  induction l1 with
  | nil =>
    intro l2 m1 m2 h
    have : m1 = [] := by
      cases m1 with
      | nil => rfl
      | cons b bs => simp at h
    subst this
    rfl
  | cons a as ih =>
    intro l2 m1 m2 h
    cases m1 with
    | nil => simp at h
    | cons b bs =>
      simp only [List.cons_append, List.zip_cons_cons]
      rw [ih l2 bs m2 (by simpa using h)]

theorem min_label_of_labels (v : RT) (st : List Nat) (h : RankTree.labels v = st.map some)
    (hne : st ≠ []) : RankTree.min_label v = some (st.headD 0) := by
  unfold RankTree.min_label
  rw [h]
  cases st with
  | nil => exact absurd rfl hne
  | cons a l => rfl

/-! ### General label unranking: per-group processing -/


theorem pairwise_lt_nodup (l : List Nat) (h : List.Pairwise (· < ·) l) : l.Nodup :=
  h.imp (fun hab => Nat.ne_of_lt hab)

theorem head_lt_of_pairwise (a : Nat) (l : List Nat)
    (h : List.Pairwise (· < ·) (a :: l)) : ∀ x ∈ l, a < x :=
  (List.pairwise_cons.mp h).1

theorem ediv_nonneg_of (a D : Int) (h0 : 0 ≤ a) (hD : 0 < D) : 0 ≤ a / D :=
  Int.ediv_nonneg h0 (le_of_lt hD)

theorem ediv_lt_of_lt_mul (a D C : Int) (hD : 0 < D) (h : a < C * D) : a / D < C := by
  exact Int.ediv_lt_of_lt_mul hD h

theorem emod_bounds (a D : Int) (hD : 0 < D) : 0 ≤ a % D ∧ a % D < D :=
  ⟨Int.emod_nonneg a (ne_of_gt hD), Int.emod_lt_of_pos a hD⟩

theorem naig_eq (ts : List RT) (k : Nat) (h : ∀ c ∈ ts, RankTree.num_leaves c = k) :
    num_assignments_in_group ts = naigProd k ts.length := by
  unfold num_assignments_in_group
  cases ts with
  | nil => rfl
  | cons t ts2 =>
    rw [if_neg (by simp)]
    congr 1
    exact h t (by simp)

theorem ordGt_false_same_key (kk : Nat) (rr : Int) (x y2 : Nat) (h : x < y2) :
    RankTree.ordGt (kk, rr, some x) (kk, rr, some y2) = false := by
  unfold RankTree.ordGt
  rw [if_neg (by simp), if_neg (by simp)]
  simp only [decide_eq_false_iff_not]
  omega

/-- One group of shape-identical children: `group_label_ranks` succeeds on
every in-range rank, carves the sorted labels into per-child sublists whose
minima ascend, gives each child an in-range label rank, and the per-child
unranker then labels every child correctly. -/
theorem glr_ok :
    ∀ (g : List RT) (k : Nat) (y : Int) (lbls : List Nat) (grank : Int)
      (F : RT → Int → List Nat → Except PyErr RT),
      (∀ c ∈ g, ∀ (st : List Nat) (r : Int), List.Pairwise (· < ·) st →
        st.length = RankTree.num_leaves c → 0 ≤ r → r < RankTree.num_labellings c →
        ∃ v, F c r st = Except.ok v ∧ stripShape v = stripShape c ∧
          RankTree.labels v = st.map some ∧ RankTree.label_rankF v = some r ∧
          RankTree.is_canonical v = true) →
      (∀ c ∈ g, RankTree.num_leaves c = k ∧ RankTree.num_labellings c = y ∧
        stripShape c = stripShape (rtHead g)) →
      1 ≤ k → List.Pairwise (· < ·) lbls → lbls.length = k * g.length →
      0 ≤ grank → grank < naigProd k g.length * y ^ g.length →
      ∃ cls crs vs,
        group_label_ranks grank g lbls = Except.ok (cls, crs) ∧
        exceptMapList (fun trip => F trip.1 trip.2.1 trip.2.2)
          (g.zip (crs.zip cls)) = Except.ok vs ∧
        cls.length = g.length ∧ crs.length = g.length ∧ vs.length = g.length ∧
        isSplit lbls cls [] ∧
        (∀ s ∈ cls, s ≠ []) ∧
        List.Forall₂ (fun c v => stripShape v = stripShape c) g vs ∧
        List.Forall₂ (fun st v => RankTree.labels v = st.map some) cls vs ∧
        (∀ v ∈ vs, RankTree.is_canonical v = true) ∧
        List.Chain' (fun v w => RankTree.ordGt (RankTree.canonical_order v)
          (RankTree.canonical_order w) = false) vs := by
  intro g
  induction g with
  | nil =>
    intro k y lbls grank F _ _ _ _ hlen _ _
    refine ⟨[], [], [], rfl, rfl, rfl, rfl, rfl, ?_, ?_, List.Forall₂.nil,
      List.Forall₂.nil, ?_, List.chain'_nil⟩
    · show ([] : List Nat) = lbls
      have : lbls.length = 0 := by simpa using hlen
      exact (List.eq_nil_of_length_eq_zero this).symm
    · intro s hs; simp at hs
    · intro v hv; simp at hv
  | cons t ts ih =>
    intro k y lbls grank F HF Hc hk hsort hlen h0 hlt
    have hnlt : RankTree.num_leaves t = k := (Hc t (by simp)).1
    have hyt : RankTree.num_labellings t = y := (Hc t (by simp)).2.1
    have hy1 : 1 ≤ y := by
      rw [← hyt]
      exact num_labellings_ge_one t
    have hnlts : ∀ c ∈ ts, RankTree.num_leaves c = k := fun c hc => (Hc c (by simp [hc])).1
    have hnaig : num_assignments_in_group ts = naigProd k ts.length := naig_eq ts k hnlts
    -- abbreviations for the radix decomposition
    set R := naigProd k ts.length * y ^ ts.length with hR
    have hR1 : 1 ≤ R := by
      rw [hR]
      exact int_one_le_mul _ _ (naigProd_ge_one k ts.length) (int_one_le_pow y hy1 ts.length)
    set C := Combination.comb ((k : Int) * ((ts.length : Int) + 1) - 1) ((k : Int) - 1)
      with hC
    have hC1 : 1 ≤ C := Combination.comb_pos _ _
    have hsplitcnt : naigProd k (t :: ts).length * y ^ (t :: ts).length = C * (y * R) := by
      rw [show (t :: ts).length = ts.length + 1 from rfl, naigProd, pow_succ, hR, hC]
      ring
    have hDpos : (0 : Int) < y * R := by
      have := int_one_le_mul y R hy1 hR1
      omega
    have hcombr : 0 ≤ grank / (y * R) ∧ grank / (y * R) < C := by
      constructor
      · exact ediv_nonneg_of _ _ h0 hDpos
      · apply ediv_lt_of_lt_mul _ _ _ hDpos
        rw [← hsplitcnt]
        exact hlt
    have htrank : 0 ≤ grank % (y * R) / R ∧ grank % (y * R) / R < y := by
      have hm := emod_bounds grank (y * R) hDpos
      constructor
      · exact ediv_nonneg_of _ _ hm.1 (by omega)
      · apply ediv_lt_of_lt_mul _ _ _ (by omega)
        exact hm.2
    have hrank2 : 0 ≤ grank % R ∧ grank % R < R := emod_bounds grank R (by omega)
    -- the label list is nonempty
    cases lbls with
    | nil =>
      exfalso
      have hpos : 0 < k * (t :: ts).length := Nat.mul_pos (by omega) (by simp)
      simp only [List.length_nil] at hlen
      omega
    | cons l0 lrest =>
      have hl0nm : l0 ∉ lrest := fun hc => lt_irrefl l0 (head_lt_of_pairwise l0 lrest hsort l0 hc)
      have hsortr : List.Pairwise (· < ·) lrest := (List.pairwise_cons.mp hsort).2
      have hlrlen : lrest.length = k * (ts.length + 1) - 1 := by
        simp only [List.length_cons] at hlen
        omega
      have hk1len : k - 1 ≤ lrest.length := by
        have h1 : k * 1 ≤ k * (ts.length + 1) := Nat.mul_le_mul_left k (by omega)
        omega
      -- the unranked tail of the first child's labels
      set u := Combination.unrank (grank / (y * R)) lrest (k - 1) with hu
      have hulen : u.Sublist lrest ∧ u.length = k - 1 := by
        rw [hu]
        apply Combination.unrank_sublist_len lrest (k - 1) _ hk1len hcombr.1
        have hcast : ((lrest.length : Int)) = (k : Int) * ((ts.length : Int) + 1) - 1 := by
          rw [hlrlen]
          have h1 : 1 ≤ k * (ts.length + 1) := Nat.mul_pos (by omega) (by omega)
          push_cast [h1]
          ring
        have hcast2 : (((k - 1 : Nat)) : Int) = (k : Int) - 1 := by
          push_cast [hk]
          ring
        rw [hcast, hcast2]
        exact hcombr.2
      have humem : ∀ x ∈ u, l0 < x :=
        fun x hx => head_lt_of_pairwise l0 lrest hsort x (hulen.1.subset hx)
      have htl_sorted : List.Pairwise (· < ·) (l0 :: u) := by
        rw [List.pairwise_cons]
        exact ⟨humem, hsortr.sublist hulen.1⟩
      have htl_len : (l0 :: u).length = k := by
        simp only [List.length_cons]
        omega
      have hsm : set_minus (l0 :: lrest) (l0 :: u) = set_minus lrest u :=
        set_minus_cons_drop l0 lrest u hl0nm
      have hsmlen : (set_minus lrest u).length = k * ts.length := by
        have := set_minus_length lrest u (pairwise_lt_nodup lrest hsortr) hulen.1
        have h1 : k * (ts.length + 1) = k * ts.length + k := by ring
        omega
      have hsmsort : List.Pairwise (· < ·) (set_minus lrest u) :=
        set_minus_pairwise _ lrest u hsortr
      -- the first child's own labelling
      obtain ⟨v0, hv0, hv0strip, hv0lab, hv0rank, hv0canon⟩ :=
        HF t (by simp) (l0 :: u) (grank % (y * R) / R) htl_sorted
          (by rw [htl_len, hnlt]) htrank.1 (by rw [hyt]; exact htrank.2)
      -- the rest of the group
      have HFts : ∀ c ∈ ts, ∀ (st : List Nat) (r : Int), List.Pairwise (· < ·) st →
          st.length = RankTree.num_leaves c → 0 ≤ r → r < RankTree.num_labellings c →
          ∃ v, F c r st = Except.ok v ∧ stripShape v = stripShape c ∧
            RankTree.labels v = st.map some ∧ RankTree.label_rankF v = some r ∧
            RankTree.is_canonical v = true :=
        fun c hc => HF c (by simp [hc])
      have Hcts : ∀ c ∈ ts, RankTree.num_leaves c = k ∧ RankTree.num_labellings c = y ∧
          stripShape c = stripShape (rtHead ts) := by
        intro c hc
        refine ⟨hnlts c hc, (Hc c (by simp [hc])).2.1, ?_⟩
        have h1 := (Hc c (by simp [hc])).2.2
        have h2 := (Hc (rtHead ts) (by simp [rtHead_mem ts (by
          intro hcon
          rw [hcon] at hc
          simp at hc)])).2.2
        rw [h1, ← h2]
      obtain ⟨cls', crs', vs', hglr', hmap', hclslen', hcrslen', hvslen', hisplit', hne',
        hstrip', hlab', hcanon', hchain'⟩ :=
        ih k y (set_minus lrest u) (grank % R) F HFts Hcts hk hsmsort hsmlen
          hrank2.1 (by rw [hR] at hrank2; exact hrank2.2)
      -- assemble the step
      refine ⟨(l0 :: u) :: cls', (grank % (y * R) / R) :: crs', v0 :: vs', ?_, ?_, ?_, ?_, ?_,
        ?_, ?_, ?_, ?_, ?_, ?_⟩
      · rw [group_label_ranks.eq_def]
        simp only
        rw [hnlt, hyt, hnaig]
        rw [← hR, ← hu, hsm, hglr']
      · rw [List.zip_cons_cons, List.zip_cons_cons, exceptMapList]
        dsimp only
        rw [hv0, hmap']
      · simp [hclslen']
      · simp [hcrslen']
      · simp [hvslen']
      · exact ⟨hulen.1.cons₂ l0, by rw [hsm]; exact hisplit'⟩
      · intro s hs
        rcases List.mem_cons.mp hs with hc | hc
        · rw [hc]; simp
        · exact hne' s hc
      · exact List.Forall₂.cons hv0strip hstrip'
      · exact List.Forall₂.cons hv0lab hlab'
      · intro v hv
        rcases List.mem_cons.mp hv with hc | hc
        · rw [hc]; exact hv0canon
        · exact hcanon' v hc
      · rw [List.chain'_cons']
        refine ⟨?_, hchain'⟩
        intro w hw
        -- w is the first labelled child of the rest of the group
        cases hlab'2 : vs' with
        | nil =>
          rw [hlab'2] at hw
          simp at hw
        | cons w0 ws =>
          rw [hlab'2] at hw
          simp only [List.head?_cons, Option.mem_def, Option.some.injEq] at hw
          rw [← hw]
          rw [hlab'2] at hlab' hstrip'
          -- the first rest child and its label block
          cases hcls2 : cls' with
          | nil =>
            rw [hcls2] at hlab'
            cases hlab'
          | cons s1 srest =>
            rw [hcls2] at hlab' hisplit' hne'
            cases hts2 : ts with
            | nil =>
              rw [hts2] at hstrip'
              cases hstrip'
            | cons c1 cs1 =>
              rw [hts2] at hstrip'
              have hwlab : RankTree.labels w0 = s1.map some :=
                (List.forall₂_cons.mp hlab').1
              have hwstrip : stripShape w0 = stripShape c1 :=
                (List.forall₂_cons.mp hstrip').1
              have hs1ne : s1 ≠ [] := hne' s1 (by simp)
              have hminw : RankTree.min_label w0 = some (s1.headD 0) :=
                min_label_of_labels w0 s1 hwlab hs1ne
              have hminv0 : RankTree.min_label v0 = some l0 :=
                min_label_of_labels v0 (l0 :: u) hv0lab (by simp)
              have hs1sub : s1.Sublist (set_minus lrest u) :=
                isSplit_mem_sublist (s1 :: srest) _ _ hisplit' s1 (by simp)
              have hhdmem : s1.headD 0 ∈ s1 := by
                cases s1 with
                | nil => exact absurd rfl hs1ne
                | cons a l => simp
              have hhd_lrest : s1.headD 0 ∈ lrest :=
                (set_minus_sublist lrest u).subset (hs1sub.subset hhdmem)
              have hlt0 : l0 < s1.headD 0 := head_lt_of_pairwise l0 lrest hsort _ hhd_lrest
              -- equal keys on both sides of the pair
              have hkeyv0 : csk v0 = csk t := csk_congr_strip _ _ hv0strip
              have hkeyw : csk w0 = csk c1 := csk_congr_strip _ _ hwstrip
              have hkeyc1 : csk c1 = csk t := by
                have h1 := (Hc c1 (by rw [hts2]; simp)).2.2
                have h2 := (Hc t (by simp)).2.2
                exact csk_congr_strip _ _ (by rw [h1, ← h2])
              have hkey : csk v0 = csk w0 := by rw [hkeyv0, ← hkeyc1, ← hkeyw]
              show RankTree.ordGt
                (RankTree.num_leaves v0, RankTree.shape_rank v0, RankTree.min_label v0)
                (RankTree.num_leaves w0, RankTree.shape_rank w0, RankTree.min_label w0) = false
              have hnl : RankTree.num_leaves v0 = RankTree.num_leaves w0 :=
                congrArg Prod.fst hkey
              have hsr : RankTree.shape_rank v0 = RankTree.shape_rank w0 := by
                have := congrArg Prod.snd hkey
                exact this
              rw [hminv0, hminw, ← hnl, ← hsr]
              exact ordGt_false_same_key _ _ _ _ hlt0

/-! ### General label unranking: all groups -/


theorem ordGt_false_of_strict (a b : Nat × Int) (m1 m2 : Option Nat)
    (hne : a ≠ b) (hle : keyLeI a b) :
    RankTree.ordGt (a.1, a.2, m1) (b.1, b.2, m2) = false := by
  unfold RankTree.ordGt
  rcases hle with h | ⟨h1, h2⟩
  · rw [if_pos (by simp; omega)]
    simp only [decide_eq_false_iff_not]
    omega
  · have hsr : a.2 ≠ b.2 := by
      intro hc
      exact hne (Prod.ext h1 hc)
    rw [if_neg (by simpa using h1)]
    rw [if_pos (by simpa using hsr)]
    simp only [decide_eq_false_iff_not]
    omega

theorem forall2_append {R : α → β → Prop} :
    ∀ (l1 l1' : List α) (l2 l2' : List β), List.Forall₂ R l1 l2 → List.Forall₂ R l1' l2' →
      List.Forall₂ R (l1 ++ l1') (l2 ++ l2') := by
  intro l1 l1' l2 l2' h1 h2
  induction h1 with
  | nil => exact h2
  | cons hr _ ih => exact List.Forall₂.cons hr ih

theorem forall2_exists_left {R : α → β → Prop} :
    ∀ (l1 : List α) (l2 : List β), List.Forall₂ R l1 l2 →
      ∀ b ∈ l2, ∃ a ∈ l1, R a b := by
  intro l1 l2 h
  induction h with
  | nil => intro b hb; simp at hb
  | @cons a b l1' l2' hr ht ih =>
    intro x hx
    rcases List.mem_cons.mp hx with hc | hc
    · exact ⟨a, by simp, hc ▸ hr⟩
    · obtain ⟨a2, ha2, hra2⟩ := ih x hc
      exact ⟨a2, by simp [ha2], hra2⟩

theorem mem_of_getLast? : ∀ (l : List α) (a : α), l.getLast? = some a → a ∈ l := by
  intro l
  induction l with
  | nil => intro a h; simp at h
  | cons x xs ih =>
    intro a h
    cases xs with
    | nil =>
      simp only [List.getLast?_singleton, Option.some.injEq] at h
      simp [h]
    | cons y ys =>
      rw [List.getLast?_cons_cons] at h
      exact List.mem_cons_of_mem x (ih a h)

/-- All groups of shape-identical children: `children_label_ranks` succeeds on
every in-range rank and the per-child unranker labels the flattened children
into a canonical, correctly ordered sibling list. -/
theorem clr_ok :
    ∀ (gs : List (List RT)) (lbls : List Nat) (rank : Int)
      (F : RT → Int → List Nat → Except PyErr RT),
      (∀ c ∈ gs.flatten, ∀ (st : List Nat) (r : Int), List.Pairwise (· < ·) st →
        st.length = RankTree.num_leaves c → 0 ≤ r → r < RankTree.num_labellings c →
        ∃ v, F c r st = Except.ok v ∧ stripShape v = stripShape c ∧
          RankTree.labels v = st.map some ∧ RankTree.label_rankF v = some r ∧
          RankTree.is_canonical v = true) →
      (∀ g ∈ gs, g ≠ [] ∧ ∀ c ∈ g, 1 ≤ RankTree.num_leaves c ∧
        stripShape c = stripShape (rtHead g)) →
      List.Chain' (fun g1 g2 => csk (rtHead g2) ≠ csk (rtHead g1)) gs →
      (gs.flatten.map csk).Pairwise keyLeI →
      List.Pairwise (· < ·) lbls → lbls.length = groupsLeaves gs →
      0 ≤ rank → rank < num_list_of_group_labellings gs →
      ∃ cls crs vs,
        children_label_ranks gs rank lbls = Except.ok (cls, crs) ∧
        exceptMapList (fun trip => F trip.1 trip.2.1 trip.2.2)
          (gs.flatten.zip (crs.zip cls)) = Except.ok vs ∧
        crs.length = gs.flatten.length ∧ cls.length = gs.flatten.length ∧
        vs.length = gs.flatten.length ∧
        isSplit lbls cls [] ∧
        List.Forall₂ (fun c v => stripShape v = stripShape c) gs.flatten vs ∧
        List.Forall₂ (fun st v => RankTree.labels v = st.map some) cls vs ∧
        (∀ v ∈ vs, RankTree.is_canonical v = true) ∧
        List.Chain' (fun v w => RankTree.ordGt (RankTree.canonical_order v)
          (RankTree.canonical_order w) = false) vs ∧
        (∀ w ∈ vs.head?, ∃ g2 ∈ gs.head?, csk w = csk (rtHead g2)) := by
  intro gs
  induction gs with
  | nil =>
    intro lbls rank F _ _ _ _ _ hlen _ _
    refine ⟨[], [], [], rfl, rfl, rfl, rfl, rfl, ?_, List.Forall₂.nil, List.Forall₂.nil,
      ?_, List.chain'_nil, ?_⟩
    · show ([] : List Nat) = lbls
      have h0 : lbls.length = 0 := by simpa [groupsLeaves] using hlen
      exact (List.eq_nil_of_length_eq_zero h0).symm
    · intro v hv; simp at hv
    · intro w hw; simp at hw
  | cons g gs ih =>
    intro lbls rank F HF Hg Hbd Hord hsort hlen h0 hlt
    obtain ⟨hgne, hgmem⟩ := Hg g (by simp)
    have hheadmem : rtHead g ∈ g := rtHead_mem g hgne
    set k := RankTree.num_leaves (rtHead g) with hkdef
    have hk1 : 1 ≤ k := (hgmem (rtHead g) hheadmem).1
    set Y := RankTree.num_labellings (rtHead g) with hYdef
    have hY1 : 1 ≤ Y := num_labellings_ge_one _
    have hmemnl : ∀ c ∈ g, RankTree.num_leaves c = k :=
      fun c hc => nl_congr_strip c (rtHead g) (hgmem c hc).2
    have hmemy : ∀ c ∈ g, RankTree.num_labellings c = Y :=
      fun c hc => numlab_congr_strip c (rtHead g) (hgmem c hc).2
    have hnaig : num_assignments_in_group g = naigProd k g.length := naig_eq g k hmemnl
    set NG := num_group_labellings g with hNG
    have hNGeq : NG = naigProd k g.length * Y ^ g.length := by
      rw [hNG]
      unfold num_group_labellings
      rw [hnaig, ← hYdef]
    have hNG1 : 1 ≤ NG := num_group_labellings_ge_one g
    set NR := num_list_of_group_labellings gs with hNR
    have hNR1 : 1 ≤ NR := num_list_of_group_labellings_ge_one gs
    have hDpos : (0 : Int) < NG * NR := by
      have := int_one_le_mul NG NR hNG1 hNR1
      omega
    -- the count splits at the first group
    have hcount : num_list_of_group_labellings (g :: gs) =
        Combination.comb ((groupsLeaves (g :: gs) : Int))
            ((g.length : Int) * (k : Int)) * (NG * NR) := by
      unfold num_list_of_group_labellings
      simp only [nlglF]
      rw [← hkdef, hnaig, ← hYdef]
      have e1 : (groupsLeaves (g :: gs) : Int) - (g.length : Int) * (k : Int) =
          (groupsLeaves gs : Int) := by
        unfold groupsLeaves
        simp only [List.map_cons, List.sum_cons]
        rw [← hkdef]
        push_cast
        ring
      rw [e1]
      rw [show nlglF RankTree.num_labellings ((groupsLeaves gs : Int)) gs =
        num_list_of_group_labellings gs from rfl]
      rw [← hNR, ← hNGeq]
      ring
    have hcombr : 0 ≤ rank / (NG * NR) ∧ rank / (NG * NR) <
        Combination.comb ((groupsLeaves (g :: gs) : Int)) ((g.length : Int) * (k : Int)) := by
      refine ⟨ediv_nonneg_of _ _ h0 hDpos, ?_⟩
      apply ediv_lt_of_lt_mul _ _ _ hDpos
      rw [← hcount]
      exact hlt
    have hgrank : 0 ≤ rank % (NG * NR) / NR ∧ rank % (NG * NR) / NR < NG := by
      have hm := emod_bounds rank (NG * NR) hDpos
      refine ⟨ediv_nonneg_of _ _ hm.1 (by omega), ?_⟩
      apply ediv_lt_of_lt_mul _ _ _ (by omega)
      exact hm.2
    have hrank2 : 0 ≤ rank % NR ∧ rank % NR < NR := emod_bounds rank NR (by omega)
    -- the first group's label subset
    have hglen : k * g.length ≤ lbls.length := by
      rw [hlen]
      unfold groupsLeaves
      simp only [List.map_cons, List.sum_cons]
      rw [← hkdef]
      have e : g.length * k = k * g.length := Nat.mul_comm _ _
      omega
    set gl := Combination.unrank (rank / (NG * NR)) lbls (k * g.length) with hgl
    have hgllen : gl.Sublist lbls ∧ gl.length = k * g.length := by
      rw [hgl]
      apply Combination.unrank_sublist_len lbls (k * g.length) _ hglen hcombr.1
      have hcast : ((lbls.length : Int)) = ((groupsLeaves (g :: gs) : Int)) := by
        rw [hlen]
      have hcast2 : (((k * g.length : Nat)) : Int) = (g.length : Int) * (k : Int) := by
        push_cast
        ring
      rw [hcast, hcast2]
      exact hcombr.2
    have hglsort : List.Pairwise (· < ·) gl := hsort.sublist hgllen.1
    -- the per-member unranker restricted to the first group
    have HFg : ∀ c ∈ g, ∀ (st : List Nat) (r : Int), List.Pairwise (· < ·) st →
        st.length = RankTree.num_leaves c → 0 ≤ r → r < RankTree.num_labellings c →
        ∃ v, F c r st = Except.ok v ∧ stripShape v = stripShape c ∧
          RankTree.labels v = st.map some ∧ RankTree.label_rankF v = some r ∧
          RankTree.is_canonical v = true :=
      fun c hc => HF c (by rw [List.flatten_cons]; exact List.mem_append_left _ hc)
    have Hcg : ∀ c ∈ g, RankTree.num_leaves c = k ∧ RankTree.num_labellings c = Y ∧
        stripShape c = stripShape (rtHead g) :=
      fun c hc => ⟨hmemnl c hc, hmemy c hc, (hgmem c hc).2⟩
    obtain ⟨clsg, crsg, vsg, hglr, hmapg, hclsglen, hcrsglen, hvsglen, hsplitg, hneg,
      hstripg, hlabg, hcanong, hchaing⟩ :=
      glr_ok g k Y gl (rank % (NG * NR) / NR) F HFg Hcg hk1 hglsort hgllen.2
        hgrank.1 (by rw [← hNGeq]; exact hgrank.2)
    -- the rest of the groups
    have hlbls2len : (set_minus lbls gl).length = groupsLeaves gs := by
      have := set_minus_length lbls gl (pairwise_lt_nodup lbls hsort) hgllen.1
      rw [hgllen.2] at this
      rw [hlen] at this
      unfold groupsLeaves at this ⊢
      simp only [List.map_cons, List.sum_cons] at this
      rw [← hkdef] at this
      have e : g.length * k = k * g.length := Nat.mul_comm _ _
      omega
    have HFgs : ∀ c ∈ gs.flatten, ∀ (st : List Nat) (r : Int), List.Pairwise (· < ·) st →
        st.length = RankTree.num_leaves c → 0 ≤ r → r < RankTree.num_labellings c →
        ∃ v, F c r st = Except.ok v ∧ stripShape v = stripShape c ∧
          RankTree.labels v = st.map some ∧ RankTree.label_rankF v = some r ∧
          RankTree.is_canonical v = true :=
      fun c hc => HF c (by rw [List.flatten_cons]; exact List.mem_append_right _ hc)
    have Hggs : ∀ g2 ∈ gs, g2 ≠ [] ∧ ∀ c ∈ g2, 1 ≤ RankTree.num_leaves c ∧
        stripShape c = stripShape (rtHead g2) :=
      fun g2 hg2 => Hg g2 (by simp [hg2])
    have Hbdgs : List.Chain' (fun g1 g2 => csk (rtHead g2) ≠ csk (rtHead g1)) gs :=
      (List.chain'_cons'.mp Hbd).2
    have Hordgs : (gs.flatten.map csk).Pairwise keyLeI := by
      rw [List.flatten_cons, List.map_append] at Hord
      exact (List.pairwise_append.mp Hord).2.1
    obtain ⟨cls2, crs2, vs2, hclr2, hmap2, hcrs2len, hcls2len, hvs2len, hsplit2, hstrip2,
      hlab2, hcanon2, hchain2, hhead2⟩ :=
      ih (set_minus lbls gl) (rank % NR) F HFgs Hggs Hbdgs Hordgs
        (set_minus_pairwise _ lbls gl hsort) hlbls2len hrank2.1 hrank2.2
    -- assemble
    refine ⟨clsg ++ cls2, crsg ++ crs2, vsg ++ vs2, ?_, ?_, ?_, ?_, ?_, ?_, ?_, ?_, ?_,
      ?_, ?_⟩
    · rw [children_label_ranks.eq_def]
      simp only
      rw [← hkdef, ← hNG, ← hNR, ← hgl, hglr, hclr2]
    · rw [List.flatten_cons]
      rw [zip_append_len crsg crs2 clsg cls2 (by rw [hcrsglen, hclsglen])]
      rw [zip_append_len g gs.flatten (crsg.zip clsg) (crs2.zip cls2) (by
        rw [List.length_zip, hcrsglen, hclsglen]
        simp)]
      exact exceptMapList_append _ _ _ _ _ hmapg hmap2
    · rw [List.flatten_cons]
      simp [hcrsglen, hcrs2len]
    · rw [List.flatten_cons]
      simp [hclsglen, hcls2len]
    · rw [List.flatten_cons]
      simp [hvsglen, hvs2len]
    · exact isSplit_append clsg cls2 lbls (set_minus lbls gl) []
        (isSplit_sub clsg gl lbls hgllen.1 hsplitg) hsplit2
    · rw [List.flatten_cons]
      exact forall2_append _ _ _ _ hstripg hstrip2
    · exact forall2_append _ _ _ _ hlabg hlab2
    · intro v hv
      rcases List.mem_append.mp hv with hc | hc
      · exact hcanong v hc
      · exact hcanon2 v hc
    · rw [List.chain'_append]
      refine ⟨hchaing, hchain2, ?_⟩
      intro x hx w hw
      -- boundary between the last child of this group and the first of the rest
      have hxmem : x ∈ vsg := mem_of_getLast? vsg x hx
      obtain ⟨cx, hcx, hcxs⟩ := forall2_exists_left g vsg hstripg x hxmem
      have hxkey : csk x = csk (rtHead g) := by
        rw [csk_congr_strip _ _ hcxs]
        exact csk_congr_strip _ _ (hgmem cx hcx).2
      obtain ⟨g2, hg2, hwkey⟩ := hhead2 w hw
      have hg2mem : g2 ∈ gs := by
        cases gs with
        | nil => simp at hg2
        | cons g3 gs3 =>
          simp only [List.head?_cons, Option.mem_def, Option.some.injEq] at hg2
          rw [hg2]
          simp
      have hg2ne : g2 ≠ [] := (Hg g2 (by simp [hg2mem])).1
      have hne : csk (rtHead g2) ≠ csk (rtHead g) := by
        have := (List.chain'_cons'.mp Hbd).1
        cases gs with
        | nil => simp at hg2
        | cons g3 gs3 =>
          simp only [List.head?_cons, Option.mem_def, Option.some.injEq] at hg2
          rw [← hg2]
          exact this g3 (by simp)
      have hle : keyLeI (csk (rtHead g)) (csk (rtHead g2)) := by
        rw [List.flatten_cons, List.map_append] at Hord
        have hp := (List.pairwise_append.mp Hord).2.2
        apply hp
        · exact List.mem_map_of_mem csk hheadmem
        · apply List.mem_map_of_mem csk
          exact List.mem_flatten.mpr ⟨g2, hg2mem, rtHead_mem g2 hg2ne⟩
      show RankTree.ordGt
        (RankTree.num_leaves x, RankTree.shape_rank x, RankTree.min_label x)
        (RankTree.num_leaves w, RankTree.shape_rank w, RankTree.min_label w) = false
      have hx1 : RankTree.num_leaves x = (csk (rtHead g)).1 := by rw [← hxkey]; rfl
      have hx2 : RankTree.shape_rank x = (csk (rtHead g)).2 := by rw [← hxkey]; rfl
      have hw1 : RankTree.num_leaves w = (csk (rtHead g2)).1 := by rw [← hwkey]; rfl
      have hw2 : RankTree.shape_rank w = (csk (rtHead g2)).2 := by rw [← hwkey]; rfl
      rw [hx1, hx2, hw1, hw2]
      exact ordGt_false_of_strict _ _ _ _ (fun hc => hne hc.symm) hle
    · intro w hw
      have hgpos : 1 ≤ g.length := by
        cases g with
        | nil => exact absurd rfl hgne
        | cons a l => simp
      cases hvsg : vsg with
      | nil =>
        rw [hvsg] at hvsglen
        simp only [List.length_nil] at hvsglen
        omega
      | cons v1 vrest =>
        rw [hvsg] at hw
        simp only [List.cons_append, List.head?_cons, Option.mem_def,
          Option.some.injEq] at hw
        refine ⟨g, by simp, ?_⟩
        rw [← hw]
        have hv1mem : v1 ∈ vsg := by rw [hvsg]; simp
        obtain ⟨cx, hcx, hcxs⟩ := forall2_exists_left g vsg hstripg v1 hv1mem
        rw [csk_congr_strip _ _ hcxs]
        exact csk_congr_strip _ _ (hgmem cx hcx).2
/-- General correctness of `label_unrank` on a well-formed shape: for every
in-range label rank and strictly sorted label list of the right size, it
succeeds and produces a canonically ordered relabelling of the same shape
that caches the given rank. -/
theorem label_unrankGo_ok :
    ∀ (fuel : Nat) (t : RT) (lbls : List Nat) (lr : Int),
      RankTree.rtDepth t < fuel → wfShapeB t = true →
      List.Pairwise (· < ·) lbls → lbls.length = RankTree.num_leaves t →
      0 ≤ lr → lr < RankTree.num_labellings t →
      ∃ v, RankTree.label_unrankGo fuel t lr lbls = Except.ok v ∧
        stripShape v = stripShape t ∧
        RankTree.labels v = lbls.map some ∧
        RankTree.label_rankF v = some lr ∧
        RankTree.is_canonical v = true := by
  intro fuel
  induction fuel with
  | zero => intro t lbls lr hd; omega
  | succ fuel ih =>
    intro t lbls lr hd hwf hsort hlen h0 hlt
    cases t with
    | leaf l lrf =>
      have hnl1 : RankTree.num_labellings (RT.leaf l lrf) = 1 := rfl
      rw [hnl1] at hlt
      have hlr0 : lr = 0 := by omega
      subst hlr0
      have hlen1 : lbls.length = 1 := hlen
      cases lbls with
      | nil => simp at hlen1
      | cons a rest =>
        have hrest : rest = [] := by
          simp only [List.length_cons] at hlen1
          exact List.eq_nil_of_length_eq_zero (by omega)
        subst hrest
        exact ⟨RT.leaf (some a) (some 0), rfl, rfl, rfl, rfl, rfl⟩
    | node cs sr lrf =>
      have hwf2 : (((decide (2 ≤ cs.length) &&
          (sr == RankTree.compute_shape_rank (RT.node cs sr lrf))) &&
          RankTree.adjOrdered (cs.map RankTree.canonical_order)) && wfShapeBL cs) = true := hwf
      simp only [Bool.and_eq_true, beq_iff_eq, decide_eq_true_eq] at hwf2
      obtain ⟨⟨⟨hlen2, hcache⟩, hadj⟩, hwfL⟩ := hwf2
      have hcsne : cs ≠ [] := by
        intro hcon
        rw [hcon] at hlen2
        simp at hlen2
      set gs := RankTree.group_children_by_shape (RT.node cs sr lrf) with hgs
      have hflat : gs.flatten = cs := by
        rw [hgs]
        exact group_by_join _ cs
      have hchildwf : ∀ c ∈ cs, wfShapeB c = true := wfShapeBL_forall cs hwfL
      have hmemcs : ∀ g ∈ gs, ∀ c ∈ g, c ∈ cs := by
        intro g hg c hc
        rw [hgs] at hg
        exact group_by_mem_of_mem_group _ _ g hg c hc
      have Hg : ∀ g ∈ gs, g ≠ [] ∧ ∀ c ∈ g, 1 ≤ RankTree.num_leaves c ∧
          stripShape c = stripShape (rtHead g) := by
        intro g hg
        have hgne : g ≠ [] := by
          rw [hgs] at hg
          exact group_by_ne_nil _ _ g hg
        refine ⟨hgne, ?_⟩
        obtain ⟨x, g2, hgx, hg2eq⟩ := group_by_head_equal _ cs g (hgs ▸ hg)
        have hxcs : x ∈ cs := hmemcs g hg x (by rw [hgx]; simp)
        have hheadx : rtHead g = x := by rw [hgx]; rfl
        intro c hc
        refine ⟨wfShape_pos c (hchildwf c (hmemcs g hg c hc)), ?_⟩
        rw [hheadx]
        rcases List.mem_cons.mp (hgx ▸ hc) with hcx | hcx
        · rw [hcx]
        · have heqs := hg2eq c hcx
          simp only [Bool.and_eq_true, beq_iff_eq] at heqs
          exact wf_strip_eq_of_key c x (hchildwf c (hmemcs g hg c hc)) (hchildwf x hxcs)
            heqs.1 heqs.2
      have Hbd : List.Chain' (fun g1 g2 => csk (rtHead g2) ≠ csk (rtHead g1)) gs := by
        have hch := group_by_boundary_chain
          (fun c1 c2 => RankTree.num_leaves c1 == RankTree.num_leaves c2 &&
            RankTree.shape_rank c1 == RankTree.shape_rank c2) (RT.leaf none none) cs
        rw [hgs]
        apply List.Chain'.imp _ hch
        intro g1 g2 hfalse
        intro hkey
        rw [Bool.and_eq_false_iff] at hfalse
        have h1 : RankTree.num_leaves (g2.headD (RT.leaf none none)) =
            RankTree.num_leaves (g1.headD (RT.leaf none none)) := congrArg Prod.fst hkey
        have h2 : RankTree.shape_rank (g2.headD (RT.leaf none none)) =
            RankTree.shape_rank (g1.headD (RT.leaf none none)) := congrArg Prod.snd hkey
        rcases hfalse with hf | hf
        · rw [beq_eq_false_iff_ne] at hf
          exact hf h1
        · rw [beq_eq_false_iff_ne] at hf
          exact hf h2
      have Hord : (gs.flatten.map csk).Pairwise keyLeI := by
        rw [hflat]
        exact adjOrdered_pairwise_keys cs hadj
      have hmemnlg : ∀ g ∈ gs, ∀ c ∈ g, RankTree.num_leaves c =
          RankTree.num_leaves (rtHead g) :=
        fun g hg c hc => nl_congr_strip _ _ ((Hg g hg).2 c hc).2
      have hlenflat : lbls.length = groupsLeaves gs := by
        rw [groupsLeaves_eq gs hmemnlg, hflat]
        exact hlen
      have hltgs : lr < num_list_of_group_labellings gs := by
        rw [hgs, ← num_labellings_node_eq cs sr lrf]
        exact hlt
      have HF : ∀ c ∈ gs.flatten, ∀ (st : List Nat) (r : Int),
          List.Pairwise (· < ·) st → st.length = RankTree.num_leaves c → 0 ≤ r →
          r < RankTree.num_labellings c →
          ∃ v, RankTree.label_unrankGo fuel c r st = Except.ok v ∧
            stripShape v = stripShape c ∧ RankTree.labels v = st.map some ∧
            RankTree.label_rankF v = some r ∧ RankTree.is_canonical v = true := by
        intro c hc st r hsort2 hlen3 h02 hlt2
        have hccs : c ∈ cs := hflat ▸ hc
        have hdc : RankTree.rtDepth c < fuel := by
          have h1 : RankTree.rtDepth c ≤ RankTree.rtDepthL cs := rtDepthL_bound cs c hccs
          have h2 : RankTree.rtDepth (RT.node cs sr lrf) = RankTree.rtDepthL cs + 1 := rfl
          omega
        exact ih c st r hdc (hchildwf c hccs) hsort2 hlen3 h02 hlt2
      obtain ⟨cls, crs, vs, hclr, hmap, hcrslen, hclslen, hvslen, hsplit, hstrip, hlab,
        hcanon, hchain, _⟩ :=
        clr_ok gs lbls lr (fun c r st => RankTree.label_unrankGo fuel c r st) HF Hg Hbd
          Hord hsort hlenflat h0 hltgs
      refine ⟨RT.node vs sr (some lr), ?_, ?_, ?_, rfl, ?_⟩
      · rw [RankTree.label_unrankGo]
        rw [if_neg (by
          show ¬ ((RankTree.children (RT.node cs sr lrf)).isEmpty = true)
          show ¬ (cs.isEmpty = true)
          cases cs with
          | nil => exact absurd rfl hcsne
          | cons a l => simp)]
        rw [← hgs, hclr]
        dsimp only
        rw [show RankTree.children (RT.node cs sr lrf) = cs from rfl, ← hflat]
        rw [hmap]
        dsimp only
        rw [show RankTree.shape_rank (RT.node gs.flatten sr lrf) = sr from rfl]
      · rw [show stripShape (RT.node vs sr (some lr)) =
          RT.node (stripShapeL vs) sr none from rfl]
        rw [show stripShape (RT.node cs sr lrf) = RT.node (stripShapeL cs) sr none from rfl]
        rw [hflat] at hstrip
        rw [stripL_eq_of_forall2 cs vs hstrip]
      · show mergeAll (RankTree.labelsL vs) = lbls.map some
        rw [labelsL_eq_map]
        rw [forall2_map_eq cls vs hlab]
        exact mergeAll_decomp cls lbls hsort hsplit
      · show (RankTree.adjOrdered (vs.map RankTree.canonical_order) &&
          RankTree.is_canonicalL vs) = true
        rw [is_canonicalL_of_forall vs hcanon]
        rw [adjOrdered_of_chain' _ (List.chain'_map_of_chain' RankTree.canonical_order
          (fun a b h => h) hchain)]
        rfl

/-- `label_unrank` with the default labels `range(num_leaves)` succeeds on
every in-range label rank over a well-formed shape. -/
theorem label_unrank_ok (t : RT) (lr : Int) (hwf : wfShapeB t = true)
    (h0 : 0 ≤ lr) (hlt : lr < RankTree.num_labellings t) :
    ∃ v, RankTree.label_unrank t lr = Except.ok v ∧
      stripShape v = stripShape t ∧
      RankTree.labels v = (List.range (RankTree.num_leaves t)).map some ∧
      RankTree.label_rankF v = some lr ∧
      RankTree.is_canonical v = true :=
  label_unrankGo_ok (RankTree.rtDepth t + 1) t (List.range (RankTree.num_leaves t)) lr
    (by omega) hwf (List.pairwise_lt_range _) (by simp) h0 hlt

/-! ### Cache consistency of `shape_unrank` outputs -/


theorem exceptMapList_ok_inv (f : α → Except PyErr β) :
    ∀ (l : List α) (bs : List β), exceptMapList f l = Except.ok bs →
      List.Forall₂ (fun a b => f a = Except.ok b) l bs := by
  intro l
  induction l with
  | nil =>
    intro bs h
    have h2 : Except.ok (ε := PyErr) ([] : List β) = Except.ok bs := h
    injection h2 with h3
    rw [← h3]
    exact List.Forall₂.nil
  | cons a as ih =>
    intro bs h
    rw [exceptMapList] at h
    cases hfa : f a with
    | error e => rw [hfa] at h; exact absurd h (by simp)
    | ok b =>
      rw [hfa] at h
      cases hrest : exceptMapList f as with
      | error e => rw [hrest] at h; exact absurd h (by simp)
      | ok bs2 =>
        rw [hrest] at h
        dsimp only at h
        injection h with h2
        rw [← h2]
        exact List.Forall₂.cons hfa (ih bs2 hrest)

theorem lex_lt_irrefl : ∀ l : List Nat, ¬ List.Lex (· < ·) l l := by
  intro l
  induction l with
  | nil => intro h; cases h
  | cons a t ih =>
    intro h
    cases h with
    | cons h2 => exact ih h2
    | rel hr => exact lt_irrefl a hr

theorem partition_nodup (n : Nat) (hn : 2 ≤ n) : (partition n).Nodup := by
  obtain ⟨L', hL', hpart, _⟩ := partition_run n hn
  have hgt := run_yields_gt n _ _ _ (PartInv_replicate n)
    (by rw [List.length_replicate]; omega) hL'
  have hpw := run_pairwise n _ _ _ (PartInv_replicate n)
    (by rw [List.length_replicate]; omega) hL'
  rw [hpart, List.nodup_cons]
  constructor
  · intro hmem
    exact lex_lt_irrefl _ (hgt _ hmem)
  · refine hpw.imp ?_
    intro a b hab he
    rw [he] at hab
    exact lex_lt_irrefl _ hab

theorem csrFindPart_prior : ∀ (L : List (List Nat)) (rank r2 : Int) (part : List Nat),
    L.Nodup → csrFindPart rank L = some (part, r2) →
    priorPairings part L + r2 = rank := by
  intro L
  induction L with
  | nil => intro rank r2 part _ h; simp [csrFindPart] at h
  | cons p ps ih =>
    intro rank r2 part hnd h
    rw [csrFindPart] at h
    by_cases hc : rank < num_tree_pairings p
    · rw [if_pos hc] at h
      injection h with h2
      injection h2 with h3 h4
      rw [priorPairings, if_pos h3, h4]
      ring
    · rw [if_neg hc] at h
      have hpmem : part ∈ ps := csrFindPart_mem ps _ part r2 h
      have hne : p ≠ part := by
        intro hcon
        exact (List.nodup_cons.mp hnd).1 (hcon ▸ hpmem)
      rw [priorPairings, if_neg hne]
      have := ih (rank - num_tree_pairings p) r2 part (List.nodup_cons.mp hnd).2 h
      omega

theorem wfShapeBL_of_forall : ∀ cs : List RT,
    (∀ c ∈ cs, wfShapeB c = true) → wfShapeBL cs = true := by
  intro cs
  induction cs with
  | nil => intro _; rfl
  | cons c cs ih =>
    intro h
    rw [wfShapeBL, h c (by simp), ih (fun x hx => h x (by simp [hx]))]
    rfl

/-- The group loop of `compute_shape_rank` recovers the remainder rank that
`children_shape_ranks` decomposed: ranking the children that carry exactly
the unranked shape ranks gives back the remainder. -/
theorem sgr_inv :
    ∀ (m : Nat) (part : List Nat) (r2 : Int) (cs2 : List RT),
      part.length ≤ m → (∀ x ∈ part, 1 ≤ x) → 0 ≤ r2 → r2 < num_tree_pairings part →
      cs2.map RankTree.num_leaves = part →
      cs2.map (fun c => (RankTree.shape_rank c).toNat) =
        csrGroups r2 part (group_partition part) →
      shapeGroupsRank part
        (group_by cs2 (fun c1 c2 =>
          RankTree.num_leaves c1 == RankTree.num_leaves c2)) = r2 := by
  intro m
  induction m with
  | zero =>
    intro part r2 cs2 hlen _ h0 hr hmap _
    have hp : part = [] := List.eq_nil_of_length_eq_zero (by omega)
    subst hp
    have hcs : cs2 = [] := by simpa using hmap
    subst hcs
    have h1 : num_tree_pairings ([] : List Nat) = 1 := rfl
    rw [h1] at hr
    have : r2 = 0 := by omega
    rw [this]
    rfl
  | succ m ih =>
    intro part r2 cs2 hlen hpos h0 hr hmap hranks
    cases part with
    | nil =>
      have hcs : cs2 = [] := by simpa using hmap
      subst hcs
      have h1 : num_tree_pairings ([] : List Nat) = 1 := rfl
      rw [h1] at hr
      have : r2 = 0 := by omega
      rw [this]
      rfl
    | cons k t =>
      cases cs2 with
      | nil => exact absurd hmap (by simp)
      | cons c0 cs2' =>
        simp only [List.map_cons, List.cons.injEq] at hmap
        obtain ⟨hnlc0, hmapt⟩ := hmap
        set run := t.takeWhile (fun y => decide (y = k)) with hrunD
        set rest := t.dropWhile (fun y => decide (y = k)) with hrestD
        have htr : run ++ rest = t := by
          rw [hrunD, hrestD]
          exact List.takeWhile_append_dropWhile _ _
        set crun := cs2'.takeWhile
          (fun c => RankTree.num_leaves c == RankTree.num_leaves c0) with hcrunD
        set crest := cs2'.dropWhile
          (fun c => RankTree.num_leaves c == RankTree.num_leaves c0) with hcrestD
        have hctr : crun ++ crest = cs2' := by
          rw [hcrunD, hcrestD]
          exact List.takeWhile_append_dropWhile _ _
        have hmrun : crun.map RankTree.num_leaves = run := by
          rw [hcrunD, hrunD, ← hmapt, List.takeWhile_map, hnlc0]
          congr 1
        have hmrest : crest.map RankTree.num_leaves = rest := by
          rw [hcrestD, hrestD, ← hmapt, List.dropWhile_map, hnlc0]
          congr 1
        have hcrunlen : crun.length = run.length := by
          rw [← hmrun, List.length_map]
        have hcrestlen : crest.length = rest.length := by
          rw [← hmrest, List.length_map]
        have hgp : group_partition (k :: t) = (k :: run) :: group_partition rest := by
          unfold group_partition
          rw [group_by_cons, ← hrunD, ← hrestD]
        have hgb : group_by (c0 :: cs2')
            (fun c1 c2 => RankTree.num_leaves c1 == RankTree.num_leaves c2) =
            (c0 :: crun) :: group_by crest
              (fun c1 c2 => RankTree.num_leaves c1 == RankTree.num_leaves c2) := by
          rw [group_by_cons, ← hcrunD, ← hcrestD]
        have hntp := num_tree_pairings_cons k t
        rw [← hrunD, ← hrestD] at hntp
        have hP1 : 1 ≤ num_tree_pairings rest := num_tree_pairings_ge_one rest
        have hq : 0 ≤ r2 / num_tree_pairings rest ∧
            r2 / num_tree_pairings rest <
              Combination.comb_with_replacement (num_shapes k) ((run.length : Int) + 1) := by
          refine ⟨ediv_nonneg_of _ _ h0 (by omega), ?_⟩
          apply ediv_lt_of_lt_mul _ _ _ (by omega)
          rw [← hntp]
          exact hr
        have hrem := emod_bounds r2 (num_tree_pairings rest) (by omega)
        have hdrop : (k :: t).drop (run.length + 1) = rest := by
          rw [show (k :: t).drop (run.length + 1) = t.drop run.length from rfl]
          rw [← htr]
          exact List.drop_left run rest
        have hcsr : csrGroups r2 (k :: t) ((k :: run) :: group_partition rest) =
            Combination.with_replacement_unrank (r2 / num_tree_pairings rest)
              (num_shapes k) (run.length + 1) ++
            csrGroups (r2 % num_tree_pairings rest) rest (group_partition rest) := by
          rw [csrGroups]
          simp only [List.headD_cons, List.length_cons]
          rw [hdrop]
        rw [hgp, hcsr] at hranks
        rw [show c0 :: cs2' = (c0 :: crun) ++ crest from by rw [List.cons_append, hctr]]
          at hranks
        rw [List.map_append] at hranks
        have hsplit2 := List.append_inj hranks (by
          rw [List.length_map, List.length_cons, hcrunlen,
            Combination.with_replacement_unrank_length])
        obtain ⟨hblock, hrest2⟩ := hsplit2
        have hwrr : Combination.with_replacement_rank
            ((c0 :: crun).map (fun c => (RankTree.shape_rank c).toNat)) (num_shapes k) =
            r2 / num_tree_pairings rest := by
          rw [hblock]
          apply Combination.wrr_wru (run.length + 1) (num_shapes k) _ hq.1
          have hcast : (((run.length + 1 : Nat)) : Int) = (run.length : Int) + 1 := by
            push_cast
            ring
          rw [hcast]
          exact hq.2
        have hrestpos : ∀ x ∈ rest, 1 ≤ x := by
          intro x hx
          have : x ∈ t := (List.dropWhile_sublist _).subset (hrestD ▸ hx)
          exact hpos x (by simp [this])
        have hrestlen : rest.length ≤ m := by
          have h1 := (List.dropWhile_sublist
            (l := t) (fun y => decide (y = k))).length_le
          simp only [List.length_cons] at hlen
          rw [hrestD]
          omega
        have ihr := ih rest (r2 % num_tree_pairings rest) crest hrestlen hrestpos
          hrem.1 hrem.2 hmrest hrest2
        rw [hgb, shapeGroupsRank]
        simp only [List.length_cons]
        rw [show rtHead (c0 :: crun) = c0 from rfl, hnlc0, hcrunlen, hdrop, hwrr, ihr]
        rw [mul_comm]
        exact Int.ediv_add_emod r2 (num_tree_pairings rest)

/-- Per-child facts of the recursive `shape_unrank` calls: the children read
back their requested leaf counts and cached shape ranks, and are themselves
well formed. -/
theorem shape_children_facts (n : Nat)
    (HI : ∀ (kk : Nat) (rr : Int) (u : RT), 1 ≤ kk → 0 ≤ rr → rr < num_shapes kk →
      kk < n → RankTree.shape_unrank rr kk = Except.ok u → wfShapeB u = true) :
    ∀ (rks ks : List Nat) (cs2 : List RT),
      rks.length = ks.length →
      (∀ p ∈ ks.zip rks, ((p.2 : Nat) : Int) < num_shapes p.1) →
      (∀ kk ∈ ks, 1 ≤ kk ∧ kk < n) →
      List.Forall₂ (fun rk c => RankTree.shape_unrankGo n ((rk.1 : Int)) rk.2 = Except.ok c)
        (rks.zip ks) cs2 →
      cs2.map RankTree.num_leaves = ks ∧
      cs2.map (fun c => (RankTree.shape_rank c).toNat) = rks ∧
      wfShapeBL cs2 = true := by
  intro rks
  induction rks with
  | nil =>
    intro ks cs2 hlen _ _ hF2
    have hks : ks = [] := by
      cases ks with
      | nil => rfl
      | cons a l => simp at hlen
    subst hks
    cases hF2
    exact ⟨rfl, rfl, rfl⟩
  | cons rk rks ih =>
    intro ks cs2 hlen hbound hkb hF2
    cases ks with
    | nil => simp at hlen
    | cons k ks2 =>
      rw [List.zip_cons_cons] at hF2
      cases hF2 with
      | cons hhd htl =>
        rename_i c0 cs0
        have hk1 : 1 ≤ k := (hkb k (by simp)).1
        have hkn : k < n := (hkb k (by simp)).2
        have hrlt : ((rk : Nat) : Int) < num_shapes k := hbound (k, rk) (by simp)
        rw [shape_unrankGo_eq n _ k hkn] at hhd
        obtain ⟨t2, ht2, hnl2, hsr2, hout2⟩ :=
          shape_unrank_ok k k ((rk : Int)) (le_refl _) hk1 (Int.natCast_nonneg rk) hrlt
        have hceq : t2 = c0 := by
          rw [ht2] at hhd
          injection hhd
        rw [hceq] at hnl2 hsr2 hout2 ht2
        obtain ⟨hm1, hm2, hm3⟩ := ih ks2 cs0 (by simpa using hlen)
          (fun p hp => hbound p (by simp [hp])) (fun kk hkk => hkb kk (by simp [hkk])) htl
        refine ⟨?_, ?_, ?_⟩
        · rw [List.map_cons, hnl2, hm1]
        · rw [List.map_cons, hsr2, hm2]
          simp
        · rw [wfShapeBL, hm3, HI k ((rk : Int)) c0 hk1 (Int.natCast_nonneg rk) hrlt hkn ht2]
          rfl

/-- Every tree produced by `shape_unrank` on an in-range rank is well formed:
its cached shape ranks all agree with `compute_shape_rank`. -/
theorem shape_unrank_wf :
    ∀ (m n : Nat) (r : Int) (u : RT), n ≤ m → 1 ≤ n → 0 ≤ r → r < num_shapes n →
      RankTree.shape_unrank r n = Except.ok u → wfShapeB u = true := by
  intro m
  induction m with
  | zero => intro n r u hm h1; omega
  | succ m ih =>
    intro n r u hm h1 h0 hr hok
    by_cases hn1 : n = 1
    · subst hn1
      have hre : r = 0 := by
        have h2 : num_shapes 1 = 1 := by decide
        omega
      subst hre
      have heq : Except.ok (ε := PyErr) (RT.leaf none none) = Except.ok u := by
        rw [← hok]
        rfl
      injection heq with h2
      rw [← h2]
      rfl
    · have hn2 : 2 ≤ n := by omega
      have hsum := num_shapes_eq_sum n hn2
      obtain ⟨part, r2, hfind, hr20, hr2lt⟩ :=
        csrFindPart_some (partition n) r h0 (by rw [← hsum]; exact hr)
      have hpmem : part ∈ partition n := csrFindPart_mem _ _ _ _ hfind
      obtain ⟨hpsum, hppos, hpsort, hplen⟩ := partition_sound n part hpmem
      have hcsrk : children_shape_ranks r n =
          Except.ok (part, csrGroups r2 part (group_partition part)) := by
        unfold children_shape_ranks
        rw [if_neg (by omega), if_neg (not_not_intro ⟨h0, hr⟩), hfind]
      unfold RankTree.shape_unrank at hok
      rw [RankTree.shape_unrankGo, if_neg hn1, hcsrk] at hok
      dsimp only at hok
      cases hml : exceptMapList (fun rk => RankTree.shape_unrankGo n ((rk.1 : Int)) rk.2)
          ((csrGroups r2 part (group_partition part)).zip part) with
      | error e => rw [hml] at hok; exact absurd hok (by simp)
      | ok cs2 =>
        rw [hml] at hok
        dsimp only at hok
        injection hok with hok2
        obtain ⟨hlenR, hbound, _⟩ := csrGroups_valid part.length part r2 (le_refl _)
          hpsort hppos hr20 hr2lt
        have hkb : ∀ kk ∈ part, 1 ≤ kk ∧ kk < n :=
          fun kk hkk => ⟨hppos kk hkk, partition_mem_lt n part hpmem kk hkk⟩
        have HI : ∀ (kk : Nat) (rr : Int) (u2 : RT), 1 ≤ kk → 0 ≤ rr →
            rr < num_shapes kk → kk < n → RankTree.shape_unrank rr kk = Except.ok u2 →
            wfShapeB u2 = true := by
          intro kk rr u2 hkk1 hrr0 hrrlt hkkn hok3
          exact ih kk rr u2 (by omega) hkk1 hrr0 hrrlt hok3
        obtain ⟨hmapnl, hmapranks, hwfL2⟩ :=
          shape_children_facts n HI (csrGroups r2 part (group_partition part)) part cs2
            hlenR hbound hkb (exceptMapList_ok_inv _ _ _ hml)
        -- canonical structure of the output
        obtain ⟨t2, ht2, hnlt2, hsrt2, houtt2⟩ :=
          shape_unrank_ok n n r (le_refl _) h1 h0 hr
        have hvalue : RankTree.shape_unrank r n = Except.ok (RT.node cs2 r none) := by
          unfold RankTree.shape_unrank
          rw [RankTree.shape_unrankGo, if_neg hn1, hcsrk]
          dsimp only
          rw [hml]
        have hteq : t2 = RT.node cs2 r none := by
          rw [hvalue] at ht2
          injection ht2 with h5
          exact h5.symm
        rw [hteq] at houtt2
        have hout2 : ((decide (2 ≤ cs2.length) && ((none : Option Int) == none)) &&
            RankTree.adjOrdered (cs2.map RankTree.canonical_order) &&
            shapeOutBL cs2) = true := houtt2
        simp only [Bool.and_eq_true, decide_eq_true_eq] at hout2
        obtain ⟨⟨⟨hlen2, _⟩, hadj⟩, _⟩ := hout2
        -- the cache is consistent
        have hprior := csrFindPart_prior (partition n) r r2 part (partition_nodup n hn2) hfind
        have hsgr := sgr_inv part.length part r2 cs2 (le_refl _) hppos hr20 hr2lt
          hmapnl hmapranks
        have hnl : RankTree.num_leavesL cs2 = n := by
          rw [num_leavesL_eq_sum_map, hmapnl, hpsum]
        have hcache : RankTree.compute_shape_rank (RT.node cs2 r none) = r := by
          have hcr : RankTree.compute_shape_rank (RT.node cs2 r none) =
              priorPairings (cs2.map RankTree.num_leaves)
                (partition (RankTree.num_leavesL cs2)) +
              shapeGroupsRank (cs2.map RankTree.num_leaves)
                (group_by cs2 (fun c1 c2 =>
                  RankTree.num_leaves c1 == RankTree.num_leaves c2)) := rfl
          rw [hcr, hnl, hmapnl, hsgr]
          omega
        rw [← hok2]
        have hwfgoal : (((decide (2 ≤ cs2.length) &&
            (r == RankTree.compute_shape_rank (RT.node cs2 r none))) &&
            RankTree.adjOrdered (cs2.map RankTree.canonical_order)) &&
            wfShapeBL cs2) = true := by
          simp only [Bool.and_eq_true, beq_iff_eq, decide_eq_true_eq]
          exact ⟨⟨⟨hlen2, hcache.symm⟩, hadj⟩, hwfL2⟩
        exact hwfgoal

/-! ### Canonical-form closure (claim C6) -/


/-- Claim C6: for every `num_leaves n ≥ 1` and every in-range rank pair, each
tree produced by `shape_unrank`, `label_unrank`, or `unrank` satisfies
`is_canonical`: at every internal node the children are sorted
non-decreasingly by `(num_leaves, shape_rank, min_label)`. -/
theorem C6_canonical_closure (n : Nat) (r l : Int) (hn : 1 ≤ n) (hr0 : 0 ≤ r)
    (hrlt : r < num_shapes n) :
    ∃ u, RankTree.shape_unrank r n = Except.ok u ∧ RankTree.is_canonical u = true ∧
      (0 ≤ l → l < RankTree.num_labellings u →
        ∃ w, RankTree.label_unrank u l = Except.ok w ∧ RankTree.is_canonical w = true ∧
          RankTree.unrank (r, l) n = Except.ok w) := by
  obtain ⟨u, hu, hnl, hsr, hout⟩ := shape_unrank_ok n n r (le_refl _) hn hr0 hrlt
  have hwfu : wfShapeB u = true := shape_unrank_wf n n r u (le_refl _) hn hr0 hrlt hu
  refine ⟨u, hu, is_canonical_of_shapeOut u hout, ?_⟩
  intro hl0 hllt
  obtain ⟨w, hw, _, _, _, hcanw⟩ := label_unrank_ok u l hwfu hl0 hllt
  refine ⟨w, hw, hcanw, ?_⟩
  unfold RankTree.unrank
  rw [hu]
  dsimp only
  exact hw

/-- Witness for C6 at `n = 3`, rank pair `(1, 2)` (the 3-leaf caterpillar has
`num_shapes 3 = 2` shapes and `3` labellings each). -/
theorem C6_canonical_closure_witness :
    ∃ u, RankTree.shape_unrank 1 3 = Except.ok u ∧ RankTree.is_canonical u = true ∧
      (0 ≤ (2 : Int) → (2 : Int) < RankTree.num_labellings u →
        ∃ w, RankTree.label_unrank u 2 = Except.ok w ∧ RankTree.is_canonical w = true ∧
          RankTree.unrank (1, 2) 3 = Except.ok w) :=
  C6_canonical_closure 3 1 2 (by decide) (by decide) (by decide)

/-! ### Root-count rejection (claim C9) -/


theorem rank_roots_ne_one (roots : List ExtTree) (h : roots.length ≠ 1) :
    rank roots = Except.error (PyErr.valueError "Can't rank trees with multiple roots") := by
  unfold rank from_tsk_tree
  rw [if_pos h]

theorem rank_roots_one (roots : List ExtTree) (h : roots.length = 1) :
    ∃ p, rank roots = Except.ok p := by
  unfold rank from_tsk_tree
  rw [if_neg (by omega)]
  exact ⟨_, rfl⟩

/-- **C9, counterexample.**  Ranking the empty forest (zero roots, so *not*
more than one root) still fails with the multiple-roots `ValueError`: the
source guard is `len(tree.roots) != 1`, not `> 1`.  This refutes the claimed
"exactly when the external tree representation has more than one root". -/
theorem C9_counterexample :
    errOf (rank ([] : List ExtTree)) =
        some (PyErr.valueError "Can't rank trees with multiple roots") ∧
      ¬ 1 < ([] : List ExtTree).length := by
  exact ⟨rfl, by decide⟩

/-- **C9, amended.**  `rank(tree)` fails with the multiple-roots `ValueError`
exactly when the number of roots differs from 1 (in particular on a two-root
forest and on a zero-root forest), and a single-root tree is never rejected:
it always returns a rank pair. -/
theorem C9_amended (roots : List ExtTree) :
    (roots.length ≠ 1 →
      rank roots = Except.error (PyErr.valueError "Can't rank trees with multiple roots")) ∧
    (roots.length = 1 → ∃ p, rank roots = Except.ok p) :=
  ⟨rank_roots_ne_one roots, rank_roots_one roots⟩

/-- **C9, amended, witness**: a two-root forest is rejected and a single-root
tree is ranked. -/
theorem C9_amended_witness :
    rank [ExtTree.leaf 0, ExtTree.leaf 1] =
        Except.error (PyErr.valueError "Can't rank trees with multiple roots") ∧
      ∃ p, rank [ExtTree.leaf 0] = Except.ok p :=
  ⟨(C9_amended [ExtTree.leaf 0, ExtTree.leaf 1]).1 (by decide),
    (C9_amended [ExtTree.leaf 0]).2 (by decide)⟩

/-! ### Error kinds of `unrank` (claim C5) -/

theorem exceptMapList_no_valueError (f : α → Except PyErr β) (l : List α)
    (h : ∀ a ∈ l, ∀ msg, f a ≠ Except.error (PyErr.valueError msg)) :
    ∀ msg, exceptMapList f l ≠ Except.error (PyErr.valueError msg) := by
  induction l with
  | nil => intro msg; simp [exceptMapList]
  | cons a as ih =>
    intro msg
    rw [exceptMapList]
    have ha := h a (by simp)
    have has := ih (fun b hb => h b (by simp [hb]))
    cases hfa : f a with
    | error e =>
      simp only
      intro hcon
      injection hcon with h2
      exact ha msg (by rw [hfa, h2])
    | ok b =>
      cases hrest : exceptMapList f as with
      | error e =>
        simp only
        intro hcon
        injection hcon with h2
        exact has msg (by rw [hrest, h2])
      | ok bs => simp

theorem group_label_ranks_no_valueError :
    ∀ (g : List RT) (rank0 : Int) (lbls : List Nat) (msg : String),
      group_label_ranks rank0 g lbls ≠ Except.error (PyErr.valueError msg) := by
  intro g
  induction g with
  | nil => intro rank0 lbls msg; simp [group_label_ranks]
  | cons t ts ih =>
    intro rank0 lbls msg
    rw [group_label_ranks.eq_def]
    simp only
    cases lbls with
    | nil => simp
    | cons l0 lrest =>
      simp only
      cases hrec : group_label_ranks (rank0 % (num_assignments_in_group ts *
          RankTree.num_labellings t ^ ts.length)) ts
          (set_minus (l0 :: lrest) (l0 :: Combination.unrank
            (rank0 / (RankTree.num_labellings t * (num_assignments_in_group ts *
              RankTree.num_labellings t ^ ts.length))) lrest (RankTree.num_leaves t - 1))) with
      | error e =>
        dsimp only
        intro hcon
        injection hcon with h2
        rw [h2] at hrec
        exact ih _ _ msg hrec
      | ok p =>
        obtain ⟨cls, crs⟩ := p
        simp

theorem children_label_ranks_no_valueError :
    ∀ (groups : List (List RT)) (rank0 : Int) (lbls : List Nat) (msg : String),
      children_label_ranks groups rank0 lbls ≠ Except.error (PyErr.valueError msg) := by
  intro groups
  induction groups with
  | nil => intro rank0 lbls msg; simp [children_label_ranks]
  | cons g gs ih =>
    intro rank0 lbls msg
    rw [children_label_ranks.eq_def]
    simp only
    cases hglr : group_label_ranks (rank0 % (num_group_labellings g *
        num_list_of_group_labellings gs) / num_list_of_group_labellings gs) g
        (Combination.unrank (rank0 / (num_group_labellings g *
          num_list_of_group_labellings gs)) lbls
          (RankTree.num_leaves (rtHead g) * g.length)) with
    | error e =>
      dsimp only
      intro hcon
      injection hcon with h2
      rw [h2] at hglr
      exact group_label_ranks_no_valueError g _ _ msg hglr
    | ok p =>
      obtain ⟨gcl, gcr⟩ := p
      dsimp only
      cases hrec : children_label_ranks gs (rank0 % num_list_of_group_labellings gs)
          (set_minus lbls (Combination.unrank (rank0 / (num_group_labellings g *
            num_list_of_group_labellings gs)) lbls
            (RankTree.num_leaves (rtHead g) * g.length))) with
      | error e =>
        dsimp only
        intro hcon
        injection hcon with h2
        rw [h2] at hrec
        exact ih _ _ msg hrec
      | ok q =>
        obtain ⟨cls, crs⟩ := q
        simp

theorem label_unrankGo_no_valueError :
    ∀ (fuel : Nat) (t : RT) (lrank : Int) (lbls : List Nat) (msg : String),
      RankTree.label_unrankGo fuel t lrank lbls ≠ Except.error (PyErr.valueError msg) := by
  intro fuel
  induction fuel with
  | zero => intro t lrank lbls msg; simp [RankTree.label_unrankGo]
  | succ fuel ih =>
    intro t lrank lbls msg
    rw [RankTree.label_unrankGo]
    by_cases h1 : RankTree.is_leaf t = true
    · simp only [h1, if_true]
      by_cases h2 : lrank = 0
      · by_cases h3 : lbls.length = 1 <;> simp [h2, h3]
      · simp [h2]
    · simp only [h1]
      simp only [Bool.false_eq_true, if_false]
      cases hclr : children_label_ranks (RankTree.group_children_by_shape t) lrank lbls with
      | error e =>
        dsimp only
        intro hcon
        injection hcon with h2
        rw [h2] at hclr
        exact children_label_ranks_no_valueError _ _ _ msg hclr
      | ok p =>
        obtain ⟨child_labels, child_label_ranks⟩ := p
        dsimp only
        cases hmap : exceptMapList
            (fun trip => RankTree.label_unrankGo fuel trip.1 trip.2.1 trip.2.2)
            ((RankTree.children t).zip (child_label_ranks.zip child_labels)) with
        | error e =>
          dsimp only
          intro hcon
          injection hcon with h2
          rw [h2] at hmap
          exact exceptMapList_no_valueError
            (fun trip => RankTree.label_unrankGo fuel trip.1 trip.2.1 trip.2.2)
            ((RankTree.children t).zip (child_label_ranks.zip child_labels))
            (fun a _ msg2 => ih a.1 a.2.1 a.2.2 msg2) msg hmap
        | ok cs2 => simp

theorem children_shape_ranks_no_valueError (rank0 : Int) (n : Nat) (msg : String) :
    children_shape_ranks rank0 n ≠ Except.error (PyErr.valueError msg) := by
  unfold children_shape_ranks
  by_cases h1 : n ≤ 1
  · simp [h1]
  · simp only [h1, if_false]
    by_cases h2 : ¬ (0 ≤ rank0 ∧ rank0 < num_shapes n)
    · simp [h2]
    · simp only [h2, if_false]
      cases hf : csrFindPart rank0 (partition n) with
      | none => simp
      | some p =>
        obtain ⟨part, rank2⟩ := p
        simp

theorem shape_unrankGo_no_valueError :
    ∀ (fuel : Nat) (srank : Int) (n : Nat) (msg : String),
      RankTree.shape_unrankGo fuel srank n ≠ Except.error (PyErr.valueError msg) := by
  intro fuel
  induction fuel with
  | zero => intro srank n msg; simp [RankTree.shape_unrankGo]
  | succ fuel ih =>
    intro srank n msg
    rw [RankTree.shape_unrankGo]
    by_cases h1 : n = 1
    · by_cases h2 : srank = 0 <;> simp [h1, h2]
    · simp only [h1, if_false]
      cases hcsr : children_shape_ranks srank n with
      | error e =>
        dsimp only
        intro hcon
        injection hcon with h2
        rw [h2] at hcsr
        exact children_shape_ranks_no_valueError srank n msg hcsr
      | ok p =>
        obtain ⟨part, child_shape_ranks⟩ := p
        dsimp only
        cases hmap : exceptMapList (fun rk => RankTree.shape_unrankGo fuel ((rk.1 : Int)) rk.2)
            (child_shape_ranks.zip part) with
        | error e =>
          dsimp only
          intro hcon
          injection hcon with h2
          rw [h2] at hmap
          exact exceptMapList_no_valueError
            (fun rk => RankTree.shape_unrankGo fuel ((rk.1 : Int)) rk.2)
            (child_shape_ranks.zip part)
            (fun a _ msg2 => ih (a.1 : Int) a.2 msg2) msg hmap
        | ok cs2 => simp

/-- `RankTree.unrank` never produces a `ValueError` (Python raises only
`assert`-style and indexing errors on its unrank paths). -/
theorem unrank_no_valueError (rp : Int × Int) (n : Nat) (msg : String) :
    RankTree.unrank rp n ≠ Except.error (PyErr.valueError msg) := by
  unfold RankTree.unrank
  cases hsu : RankTree.shape_unrank rp.1 n with
  | error e =>
    intro hcon
    injection hcon with h2
    rw [h2] at hsu
    exact shape_unrankGo_no_valueError (n + 1) rp.1 n msg hsu
  | ok u =>
    simp only
    exact label_unrankGo_no_valueError _ _ _ _ msg

/-- Out-of-range shape ranks make `RankTree.unrank` fail with an
`AssertionError` (from the `assert`s of `children_shape_ranks` and of the
`n == 1` base case). -/
theorem unrank_shape_oor (n : Nat) (r lr : Int) (h : num_shapes n ≤ r) :
    RankTree.unrank (r, lr) n = Except.error PyErr.assertionError := by
  match n with
  | 0 => rfl
  | 1 =>
    have hr : ¬ (r = 0) := by
      have h1 : num_shapes 1 = 1 := by decide
      rw [h1] at h
      omega
    unfold RankTree.unrank RankTree.shape_unrank
    rw [RankTree.shape_unrankGo]
    simp [hr]
  | n + 2 =>
    have hcond : ¬ (0 ≤ r ∧ r < num_shapes (n + 2)) := by
      intro hc
      have := hc.2
      omega
    unfold RankTree.unrank RankTree.shape_unrank
    rw [RankTree.shape_unrankGo]
    simp only [show ¬ (n + 2 = 1) from by omega, if_false]
    unfold children_shape_ranks
    simp [show ¬ (n + 2 ≤ 1) from by omega, hcond]

/-- **C5, counterexample.**  The failures of `unrank` on out-of-range ranks
are `AssertionError` (shape part) and `IndexError` (label part), not the
`InvalidArgument`/`ValueError` class the claim names: concretely at
`num_leaves = 3` with `shape_rank = num_shapes(3)`, and at `num_leaves = 2`
with the out-of-range `label_rank = 1`. -/
theorem C5_counterexample :
    errOf (RankTree.unrank (num_shapes 3, 0) 3) = some PyErr.assertionError ∧
      errOf (RankTree.unrank (0, 1) 2) = some PyErr.indexError ∧
      ∀ msg, PyErr.assertionError ≠ PyErr.valueError msg ∧
        PyErr.indexError ≠ PyErr.valueError msg := by
  refine ⟨by decide, by decide, ?_⟩
  intro msg
  exact ⟨by simp, by simp⟩

/-- **C5, amended.**  `unrank(rank, num_leaves)` never fails with a
`ValueError` (the module's `InvalidArgument`-style error class): whenever
`shape_rank ≥ num_shapes(num_leaves)` it fails with an `AssertionError`, and
an out-of-range `label_rank` produces an `AssertionError` or `IndexError`
(shown here on the three smallest shapes). -/
theorem C5_amended (n : Nat) (r lr : Int) :
    (∀ msg, RankTree.unrank (r, lr) n ≠ Except.error (PyErr.valueError msg)) ∧
      (num_shapes n ≤ r → RankTree.unrank (r, lr) n = Except.error PyErr.assertionError) ∧
      errOf (RankTree.unrank (0, 1) 2) = some PyErr.indexError ∧
      errOf (RankTree.unrank (0, 3) 3) = some PyErr.indexError ∧
      errOf (RankTree.unrank (0, 1) 1) = some PyErr.assertionError :=
  ⟨fun msg => unrank_no_valueError (r, lr) n msg,
    fun h => unrank_shape_oor n r lr h, by decide, by decide, by decide⟩

/-- **C5, amended, witness** at `num_leaves = 3`, `shape_rank = num_shapes 3 = 2`. -/
theorem C5_amended_witness :
    (∀ msg, RankTree.unrank (2, 0) 3 ≠ Except.error (PyErr.valueError msg)) ∧
      (num_shapes 3 ≤ 2 → RankTree.unrank (2, 0) 3 = Except.error PyErr.assertionError) ∧
      errOf (RankTree.unrank (0, 1) 2) = some PyErr.indexError ∧
      errOf (RankTree.unrank (0, 3) 3) = some PyErr.indexError ∧
      errOf (RankTree.unrank (0, 1) 1) = some PyErr.assertionError :=
  C5_amended 3 2 0

theorem C7_partition_generator_witness :
    (2 ≤ 3) ∧
    ((∃ L, ruleAscRun (ruleAscFuel 3) [0, 3] = some L) ∧
     (∀ t : List Nat, t ∈ partition 3 ↔
       (t.sum = 3 ∧ (∀ e ∈ t, 1 ≤ e) ∧ t.Sorted (· ≤ ·) ∧ t ≠ [3])) ∧
     (partition 3).Pairwise (List.Lex (· < ·))) :=
  ⟨by decide, C7_partition_generator 3 (by decide)⟩

end Tsk
